import Mathlib

/-!
# StreamingLabelStatisticsImageFilter

A shallow embedding of `include/itkStreamingLabelStatisticsImageFilter.hxx`:
the per-thread accumulation (`ThreadedStreamedGenerateData`), the merge and the
derived statistics (`AfterStreamedGenerateData`) and the per-label accessors.

Conventions of the embedding.

* `RealType` is an arbitrary linearly ordered field `K` with a floor function
  (exact arithmetic); `ℚ` gives an executable instance.
* `std::map< LabelPixelType, LabelStatistics >` is a list of entries kept in
  strictly increasing key order, which is the iteration order of `std::map`.
* `m_Count` (`IdentifierType`) and image indices (`IndexValueType`) are unbounded
  `Nat` / `Int`; the numeric limits that the code uses as sentinels are the fields
  of `Traits`. Values stored in the unsigned 64-bit `SizeValueType` (the sizes of
  `GetRegion`, the bin counter of `GetMedian`) are taken modulo `2 ^ 64`.
* Reads outside a container and null histogram pointers are undefined behaviour in
  C++; the embedding reads a default there and says so at each place.
-/

namespace itk

/-- Template parameters and library constants the filter is instantiated with:
`ImageDimension`, `NumericTraits< PixelType >::max()` and `::NonpositiveMin()`,
`NumericTraits< IndexValueType >::max()` and `::NonpositiveMin()`, and `vcl_sqrt`. -/
structure Traits (K : Type) where
  ImageDimension : Nat
  PixelMax : K
  PixelNonpositiveMin : K
  IndexMax : Int
  IndexNonpositiveMin : Int
  vcl_sqrt : K → K

/-- Modelled from the spec: the histogram type (`HistogramType`, not part of the
file under verification). Spec 4.1: a fixed number of equal-width bins spanning
`[lowerBound, upperBound)`, one frequency per bin. -/
@[ext]
structure Histogram (K : Type) where
  size : Nat
  lowerBound : K
  upperBound : K
  frequency : List Nat
deriving DecidableEq

/-- The per-label record `LabelStatistics` (its fields as used by the `.hxx`). -/
@[ext]
structure LabelStatistics (K : Type) where
  m_Count : Nat
  m_Minimum : K
  m_Maximum : K
  m_Mean : K
  m_Sum : K
  m_SumOfSquares : K
  m_Sigma : K
  m_Variance : K
  m_BoundingBox : List Int
  m_Histogram : Option (Histogram K)
deriving DecidableEq

/-- `MapType`: `std::map< LabelPixelType, LabelStatistics >`, entries in increasing
key order. -/
abbrev MapType (K : Type) := List (Int × LabelStatistics K)

/-- The histogram configuration of the filter (`m_UseHistograms`, `m_NumBins[0]`,
`m_LowerBound`, `m_UpperBound`). -/
structure Config (K : Type) where
  m_UseHistograms : Bool
  m_NumBins : Nat
  m_LowerBound : K
  m_UpperBound : K
deriving DecidableEq

/-- The state of the filter object. `numberOfThreads` is what
`this->GetNumberOfThreads()` returns. -/
structure StreamingLabelStatisticsImageFilter (K : Type) extends Config K where
  numberOfThreads : Nat
  m_LabelStatisticsPerThread : List (MapType K)
  m_LabelStatistics : MapType K
  m_ValidLabelValues : List Int
deriving DecidableEq

/-- One data element as seen by the scanning loop: `labelIt.Get()`,
`static_cast< RealType >( it.Get() )` and `it.GetIndex()`. -/
structure Element (K : Type) where
  label : Int
  value : K
  index : List Int
deriving DecidableEq

/-- `RegionType`: an index and a size per axis. -/
structure Region where
  index : List Int
  size : List Int
deriving DecidableEq

section Definitions

variable {K : Type} [LinearOrderedField K] [FloorRing K]

/-! ## Histogram (modelled from the spec, section 4.1) -/

/-- Modelled from the spec: construction of a histogram with `size` bins over
`[lowerBound, upperBound)`, all frequencies zero. -/
def Histogram.create (size : Nat) (lowerBound upperBound : K) : Histogram K :=
  { size := size, lowerBound := lowerBound, upperBound := upperBound,
    frequency := List.replicate size 0 }

/-- Modelled from the spec: the bin of a value,
`floor((value - lowerBound) / ((upperBound - lowerBound) / numberOfBins))` clamped to
`[0, numberOfBins-1]`. -/
def Histogram.binOf (h : Histogram K) (value : K) : Nat :=
  Int.toNat (max 0 (min
    (Int.floor ((value - h.lowerBound) / ((h.upperBound - h.lowerBound) / (h.size : K))))
    ((h.size : Int) - 1)))

/-- Modelled from the spec: `increment(binIndex, delta)` adds `delta` to a bin's
frequency (`IncreaseFrequency`). A bin outside the histogram is left alone. -/
def Histogram.IncreaseFrequency (h : Histogram K) (bin : Nat) (delta : Nat) : Histogram K :=
  { h with frequency := h.frequency.set bin (h.frequency.getD bin 0 + delta) }

/-- Modelled from the spec: `increment(value)` maps the value to its bin and
increases that bin's frequency (`IncreaseFrequencyOfMeasurement`). -/
def Histogram.IncreaseFrequencyOfMeasurement (h : Histogram K) (value : K) (delta : Nat) :
    Histogram K :=
  h.IncreaseFrequency (h.binOf value) delta

/-- Modelled from the spec: `frequency(binIndex)` (`GetFrequency`). -/
def Histogram.GetFrequency (h : Histogram K) (bin : Nat) : Nat :=
  h.frequency.getD bin 0

/-- Modelled from the spec: lower edge of a bin's `[low, high)` range (`GetBinMin`). -/
def Histogram.GetBinMin (h : Histogram K) (bin : Nat) : K :=
  h.lowerBound + (bin : K) * ((h.upperBound - h.lowerBound) / (h.size : K))

/-- Modelled from the spec: upper edge of a bin's `[low, high)` range (`GetBinMax`). -/
def Histogram.GetBinMax (h : Histogram K) (bin : Nat) : K :=
  h.lowerBound + ((bin : K) + 1) * ((h.upperBound - h.lowerBound) / (h.size : K))

/-! ## LabelStatistics constructors (modelled from the spec, section 3) -/

/-- Modelled from the spec: the initial bounding box of a record (the constructors
live in `itkStreamingLabelStatisticsImageFilter.h`): `2·D` integers, a
`(+∞, −∞)` sentinel pair per axis, here the largest and the lowest index value. -/
def initialBoundingBox (T : Traits K) : List Int :=
  (List.range (2 * T.ImageDimension)).map
    (fun i => if i % 2 = 0 then T.IndexMax else T.IndexNonpositiveMin)

/-- Modelled from the spec: the default constructor `LabelStatistics()` of
`itkStreamingLabelStatisticsImageFilter.h`: zero count and sums, `minimum` and
`maximum` set to the value type's max / min, derived fields zero, no histogram. -/
def LabelStatistics.default (T : Traits K) : LabelStatistics K :=
  { m_Count := 0
    m_Minimum := T.PixelMax
    m_Maximum := T.PixelNonpositiveMin
    m_Mean := 0
    m_Sum := 0
    m_SumOfSquares := 0
    m_Sigma := 0
    m_Variance := 0
    m_BoundingBox := initialBoundingBox T
    m_Histogram := none }

/-- Modelled from the spec: the constructor
`LabelStatistics(size, lowerBound, upperBound)` of
`itkStreamingLabelStatisticsImageFilter.h`: as the default one, with a histogram
of the configured bin parameters. -/
def LabelStatistics.withHistogram (T : Traits K) (size : Nat) (lowerBound upperBound : K) :
    LabelStatistics K :=
  { LabelStatistics.default T with
    m_Histogram := some (Histogram.create size lowerBound upperBound) }

/-- The record both tables insert for a label they have not seen (lines 107-117
and 243-253): with a histogram iff `m_UseHistograms`. -/
def newLabelStatistics (T : Traits K) (cfg : Config K) : LabelStatistics K :=
  if cfg.m_UseHistograms then
    LabelStatistics.withHistogram T cfg.m_NumBins cfg.m_LowerBound cfg.m_UpperBound
  else
    LabelStatistics.default T

/-! ## std::map -/

/-- `find`: the record stored under `label`, `none` for `end()`. -/
def MapType.find : MapType K → Int → Option (LabelStatistics K)
  | [], _ => none
  | (k, r) :: rest, label => if k = label then some r else MapType.find rest label

/-- `insert`: adds the entry at its place in key order; an existing key keeps its
record. -/
def MapType.insert : MapType K → Int → LabelStatistics K → MapType K
  | [], label, r => [(label, r)]
  | (k, r0) :: rest, label, r =>
    if label < k then (label, r) :: (k, r0) :: rest
    else if label = k then (k, r0) :: rest
    else (k, r0) :: MapType.insert rest label r

/-- Assignment through an iterator, `( *mapIt ).second = g (( *mapIt ).second)`, for
the iterator positioned at `label`. -/
def MapType.modify (m : MapType K) (label : Int) (g : LabelStatistics K → LabelStatistics K) :
    MapType K :=
  m.map (fun e => if e.1 = label then (e.1, g e.2) else e)

/-- The lookup-or-create step shared by both loops (lines 102-118 and 238-254):
`find`, and `insert` of a new record when the label is not there. -/
def MapType.findOrCreate (T : Traits K) (cfg : Config K) (m : MapType K) (label : Int) :
    MapType K :=
  match m.find label with
  | none => m.insert label (newLabelStatistics T cfg)
  | some _ => m

/-! ## Constructor and configuration -/

/-- The constructor (lines 30-40). -/
def StreamingLabelStatisticsImageFilter.new (T : Traits K) (numberOfThreads : Nat) :
    StreamingLabelStatisticsImageFilter K :=
  { m_UseHistograms := false
    m_NumBins := 20
    m_LowerBound := T.PixelNonpositiveMin
    m_UpperBound := T.PixelMax
    numberOfThreads := numberOfThreads
    m_LabelStatisticsPerThread := []
    m_LabelStatistics := []
    m_ValidLabelValues := [] }

/-- `SetHistogramParameters` (lines 52-58); the `int` argument is stored in an
unsigned 64-bit `m_NumBins[0]`. -/
def SetHistogramParameters (f : StreamingLabelStatisticsImageFilter K) (numBins : Int)
    (lowerBound upperBound : K) : StreamingLabelStatisticsImageFilter K :=
  { f with
    m_NumBins := Int.toNat (numBins % 2 ^ 64)
    m_LowerBound := lowerBound
    m_UpperBound := upperBound
    m_UseHistograms := true }

/-! ## BeforeStreamedGenerateData -/

/-- `std::vector::resize`: keeps the first `n` tables, pads with empty ones. -/
def resizeTables (tables : List (MapType K)) (n : Nat) : List (MapType K) :=
  tables.take n ++ List.replicate (n - tables.length) []

/-- `BeforeStreamedGenerateData` (lines 63-80): resize the per-thread tables to the
number of threads, clear each of them, clear the final map. -/
def BeforeStreamedGenerateData (f : StreamingLabelStatisticsImageFilter K) :
    StreamingLabelStatisticsImageFilter K :=
  { f with
    m_LabelStatisticsPerThread :=
      (resizeTables f.m_LabelStatisticsPerThread f.numberOfThreads).map (fun _ => [])
    m_LabelStatistics := [] }

/-! ## ThreadedStreamedGenerateData -/

/-- One step of a bounding-box loop (lines 270-277 and 138-145):
`if ( bb[i] > lo ) bb[i] = lo; if ( bb[i + 1] < hi ) bb[i + 1] = hi;`.
A read past the end of the vector (undefined in C++) reads `0`. -/
def updateBoundingBoxPair (bb : List Int) (i : Nat) (lo hi : Int) : List Int :=
  let bb1 := if bb.getD i 0 > lo then bb.set i lo else bb
  if bb1.getD (i + 1) 0 < hi then bb1.set (i + 1) hi else bb1

/-- The update of one record by one element (lines 256-291): minimum, maximum,
bounding box (`i = 0, 2, ..` below `2 * ImageDimension`, coordinate `index[i / 2]`),
sum, sum of squares, count and, if enabled, the histogram. -/
def updateLabelStatistics (T : Traits K) (cfg : Config K) (r : LabelStatistics K)
    (value : K) (index : List Int) : LabelStatistics K :=
  { r with
    m_Minimum := if value < r.m_Minimum then value else r.m_Minimum
    m_Maximum := if value > r.m_Maximum then value else r.m_Maximum
    m_BoundingBox :=
      (List.range T.ImageDimension).foldl
        (fun bb a =>
          updateBoundingBoxPair bb (2 * a) (index.getD (2 * a / 2) 0) (index.getD (2 * a / 2) 0))
        r.m_BoundingBox
    m_Sum := r.m_Sum + value
    m_SumOfSquares := r.m_SumOfSquares + value * value
    m_Count := r.m_Count + 1
    m_Histogram :=
      if cfg.m_UseHistograms then
        r.m_Histogram.map (fun h => h.IncreaseFrequencyOfMeasurement value 1)
      else r.m_Histogram }

/-- The body of the scanning loop on one thread's table (lines 234-291). -/
def updateTable (T : Traits K) (cfg : Config K) (table : MapType K) (e : Element K) :
    MapType K :=
  (MapType.findOrCreate T cfg table e.label).modify e.label
    (fun r => updateLabelStatistics T cfg r e.value e.index)

/-- The body of the scanning loop (lines 234-291) for one element on thread
`threadId`: only `m_LabelStatisticsPerThread[threadId]` is written. A thread
identifier outside the vector (undefined in C++) writes nothing. -/
def processElement (T : Traits K) (f : StreamingLabelStatisticsImageFilter K)
    (threadId : Nat) (e : Element K) : StreamingLabelStatisticsImageFilter K :=
  { f with
    m_LabelStatisticsPerThread :=
      f.m_LabelStatisticsPerThread.set threadId
        (updateTable T f.toConfig (f.m_LabelStatisticsPerThread.getD threadId []) e) }

/-- `ThreadedStreamedGenerateData` (lines 206-297): the scanning loop over the
elements of `inputRegion`. -/
def ThreadedStreamedGenerateData (T : Traits K) (f : StreamingLabelStatisticsImageFilter K)
    (inputRegion : List (Element K)) (threadId : Nat) : StreamingLabelStatisticsImageFilter K :=
  inputRegion.foldl (fun f e => processElement T f threadId e) f

/-! ## AfterStreamedGenerateData -/

/-- The histogram merge (lines 149-158): for every `bin < m_NumBins[0]`,
`IncreaseFrequency( bin, thread histogram's GetFrequency(bin) )`. A null thread
histogram (undefined in C++) counts as frequency `0`. -/
def mergeHistogram (numBins : Nat) (g : Histogram K) (t : Option (Histogram K)) : Histogram K :=
  (List.range numBins).foldl
    (fun h bin =>
      h.IncreaseFrequency bin (match t with
        | some th => th.GetFrequency bin
        | none => 0))
    g

/-- Accumulation of one thread record into the global record (lines 120-158). -/
def mergeLabelStatistics (cfg : Config K) (g t : LabelStatistics K) : LabelStatistics K :=
  { g with
    m_Count := g.m_Count + t.m_Count
    m_Sum := g.m_Sum + t.m_Sum
    m_SumOfSquares := g.m_SumOfSquares + t.m_SumOfSquares
    m_Minimum := if g.m_Minimum > t.m_Minimum then t.m_Minimum else g.m_Minimum
    m_Maximum := if g.m_Maximum < t.m_Maximum then t.m_Maximum else g.m_Maximum
    m_BoundingBox :=
      (List.range (g.m_BoundingBox.length / 2)).foldl
        (fun bb a =>
          updateBoundingBoxPair bb (2 * a)
            (t.m_BoundingBox.getD (2 * a) 0) (t.m_BoundingBox.getD (2 * a + 1) 0))
        g.m_BoundingBox
    m_Histogram :=
      if cfg.m_UseHistograms then
        g.m_Histogram.map (fun gh => mergeHistogram cfg.m_NumBins gh t.m_Histogram)
      else g.m_Histogram }

/-- The body of the inner merge loop (lines 101-158) for one entry of a thread
table. -/
def mergeEntry (T : Traits K) (cfg : Config K) (g : MapType K)
    (entry : Int × LabelStatistics K) : MapType K :=
  (MapType.findOrCreate T cfg g entry.1).modify entry.1
    (fun r => mergeLabelStatistics cfg r entry.2)

/-- The inner merge loop (lines 97-159) over one thread's table. -/
def mergeTable (T : Traits K) (cfg : Config K) (g : MapType K) (table : MapType K) :
    MapType K :=
  table.foldl (mergeEntry T cfg) g

/-- The merge loops (lines 94-160) over the threads `0 .. numberOfThreads - 1`. A
thread index outside the vector (undefined in C++) reads an empty table. -/
def mergeThreads (T : Traits K) (f : StreamingLabelStatisticsImageFilter K) : MapType K :=
  (List.range f.numberOfThreads).foldl
    (fun g i => mergeTable T f.toConfig g (f.m_LabelStatisticsPerThread.getD i []))
    f.m_LabelStatistics

/-- The derived statistics of one record (lines 167-187): mean, unbiased variance
from the raw moments when `m_Count > 1` and zero otherwise, sigma. -/
def computeStatistics (T : Traits K) (r : LabelStatistics K) : LabelStatistics K :=
  let variance : K :=
    if r.m_Count > 1 then
      (r.m_SumOfSquares - r.m_Sum * r.m_Sum / (r.m_Count : K)) / ((r.m_Count : K) - 1)
    else 0
  { r with
    m_Mean := r.m_Sum / (r.m_Count : K)
    m_Variance := variance
    m_Sigma := T.vcl_sqrt variance }

/-- `AfterStreamedGenerateData` (lines 85-201): merge, derived statistics, and the
cached vector of valid labels rebuilt from the keys of the final map. -/
def AfterStreamedGenerateData (T : Traits K) (f : StreamingLabelStatisticsImageFilter K) :
    StreamingLabelStatisticsImageFilter K :=
  let stats : MapType K := (mergeThreads T f).map (fun e => (e.1, computeStatistics T e.2))
  { f with
    m_LabelStatistics := stats
    m_ValidLabelValues := stats.map Prod.fst }

/-! ## Accessors -/

/-- `GetMinimum` (lines 302-316). -/
def GetMinimum (T : Traits K) (f : StreamingLabelStatisticsImageFilter K) (label : Int) : K :=
  match f.m_LabelStatistics.find label with
  | none => T.PixelMax
  | some r => r.m_Minimum

/-- `GetMaximum` (lines 321-335). -/
def GetMaximum (T : Traits K) (f : StreamingLabelStatisticsImageFilter K) (label : Int) : K :=
  match f.m_LabelStatistics.find label with
  | none => T.PixelNonpositiveMin
  | some r => r.m_Maximum

/-- `GetMean` (lines 340-354). -/
def GetMean (f : StreamingLabelStatisticsImageFilter K) (label : Int) : K :=
  match f.m_LabelStatistics.find label with
  | none => 0
  | some r => r.m_Mean

/-- `GetSum` (lines 359-373). -/
def GetSum (f : StreamingLabelStatisticsImageFilter K) (label : Int) : K :=
  match f.m_LabelStatistics.find label with
  | none => 0
  | some r => r.m_Sum

/-- `GetSigma` (lines 378-392). -/
def GetSigma (f : StreamingLabelStatisticsImageFilter K) (label : Int) : K :=
  match f.m_LabelStatistics.find label with
  | none => 0
  | some r => r.m_Sigma

/-- `GetVariance` (lines 397-411). -/
def GetVariance (f : StreamingLabelStatisticsImageFilter K) (label : Int) : K :=
  match f.m_LabelStatistics.find label with
  | none => 0
  | some r => r.m_Variance

/-- `GetBoundingBox` (lines 416-431); the default is an empty vector. -/
def GetBoundingBox (f : StreamingLabelStatisticsImageFilter K) (label : Int) : List Int :=
  match f.m_LabelStatistics.find label with
  | none => []
  | some r => r.m_BoundingBox

/-- A default-constructed `RegionType`: index and size zero on every axis. -/
def emptyRegion (T : Traits K) : Region :=
  { index := List.replicate T.ImageDimension 0, size := List.replicate T.ImageDimension 0 }

/-- `GetRegion` (lines 436-467): for `i < bbox.size() / 2`,
`index[i] = bbox[2 * i]` and `size[i] = bbox[2 * i + 1] - bbox[2 * i] + 1`. The
difference is taken in the 64-bit index type and stored in the unsigned 64-bit
`SizeValueType`, so `size[i]` holds its value modulo `2 ^ 64`. -/
def GetRegion (T : Traits K) (f : StreamingLabelStatisticsImageFilter K) (label : Int) :
    Region :=
  match f.m_LabelStatistics.find label with
  | none => emptyRegion T
  | some _ =>
    let bbox := GetBoundingBox f label
    (List.range (bbox.length / 2)).foldl
      (fun region i =>
        { index := region.index.set i (bbox.getD (2 * i) 0)
          size := region.size.set i
            ((bbox.getD (2 * i + 1) 0 - bbox.getD (2 * i) 0 + 1) % 2 ^ 64) })
      (emptyRegion T)

/-- `GetCount` (lines 472-486). -/
def GetCount (f : StreamingLabelStatisticsImageFilter K) (label : Int) : Nat :=
  match f.m_LabelStatistics.find label with
  | none => 0
  | some r => r.m_Count

/-- The `while` loop of `GetMedian` (lines 511-516): returns `bin` when the loop
exits. `m_Count / 2` is an integer division. -/
def medianLoop (count numBins : Nat) (hist : Histogram K) (total : K) (bin : Nat) : Nat :=
  if total ≤ ((count / 2 : Nat) : K) ∧ bin < numBins then
    medianLoop count numBins hist (total + (hist.GetFrequency bin : K)) (bin + 1)
  else bin
termination_by numBins - bin
decreasing_by omega

/-- `GetMedian` (lines 491-526). `bin--` is a decrement of an unsigned 64-bit
integer. A null histogram on a present label (undefined in C++) gives `0`. -/
def GetMedian (f : StreamingLabelStatisticsImageFilter K) (label : Int) : K :=
  match f.m_LabelStatistics.find label with
  | none => 0
  | some r =>
    if !f.m_UseHistograms then 0
    else
      match r.m_Histogram with
      | none => 0
      | some hist =>
        let bin := (medianLoop r.m_Count f.m_NumBins hist 0 0 + (2 ^ 64 - 1)) % 2 ^ 64
        let lowRange := hist.GetBinMin bin
        let highRange := hist.GetBinMax bin
        lowRange + (highRange - lowRange) / 2

/-- `GetHistogram` (lines 531-546): `none` is the null pointer. -/
def GetHistogram (f : StreamingLabelStatisticsImageFilter K) (label : Int) :
    Option (Histogram K) :=
  match f.m_LabelStatistics.find label with
  | none => none
  | some r => r.m_Histogram

/-! ## Runs -/

/-- The scanning phase: a sequence of `processElement` calls, each a thread
identifier and an element, in the order in which they take effect. -/
def scan (T : Traits K) (f : StreamingLabelStatisticsImageFilter K)
    (calls : List (Nat × Element K)) : StreamingLabelStatisticsImageFilter K :=
  calls.foldl (fun f c => processElement T f c.1 c.2) f

/-- A full run: `BeforeStreamedGenerateData`, the scanning calls,
`AfterStreamedGenerateData`. -/
def run (T : Traits K) (f : StreamingLabelStatisticsImageFilter K)
    (calls : List (Nat × Element K)) : StreamingLabelStatisticsImageFilter K :=
  AfterStreamedGenerateData T (scan T (BeforeStreamedGenerateData f) calls)

/-! ## Reference functions used in the statements -/

/-- The record a table holds for a label once the elements `es` have been processed
under it: the new record updated by each element in turn. -/
def aggregate (T : Traits K) (cfg : Config K) (es : List (Element K)) : LabelStatistics K :=
  es.foldl (fun r e => updateLabelStatistics T cfg r e.value e.index) (newLabelStatistics T cfg)

/-- The elements of a sequence of calls that carry `label`, in call order. -/
def elementsOf (calls : List (Nat × Element K)) (label : Int) : List (Element K) :=
  (calls.filter (fun c => decide (c.2.label = label))).map Prod.snd

/-- The elements that thread `threadId` processed under `label`, in call order. -/
def elementsOfThread (calls : List (Nat × Element K)) (threadId : Nat) (label : Int) :
    List (Element K) :=
  (calls.filter (fun c => decide (c.1 = threadId ∧ c.2.label = label))).map Prod.snd

/-- The elements that the threads `0 .. n - 1` processed under `label`, thread by
thread: the order in which the merge loop meets them. -/
def elementsBelow (calls : List (Nat × Element K)) (label : Int) : Nat → List (Element K)
  | 0 => []
  | n + 1 => elementsBelow calls label n ++ elementsOfThread calls n label

/-- What the constructors and the two update paths maintain on a record: the
extrema and the bounding box stay on the right side of their sentinels, the box has
`2 * ImageDimension` entries, and with histograms enabled the record owns a histogram
of the configured shape. -/
def RecordInv (T : Traits K) (cfg : Config K) (r : LabelStatistics K) : Prop :=
  r.m_Minimum ≤ T.PixelMax ∧ T.PixelNonpositiveMin ≤ r.m_Maximum ∧
  r.m_BoundingBox.length = 2 * T.ImageDimension ∧
  (∀ j, j < 2 * T.ImageDimension →
    (j % 2 = 0 → r.m_BoundingBox.getD j 0 ≤ T.IndexMax) ∧
    (j % 2 = 1 → T.IndexNonpositiveMin ≤ r.m_BoundingBox.getD j 0)) ∧
  (cfg.m_UseHistograms = true →
    ∃ h, r.m_Histogram = some h ∧ h.size = cfg.m_NumBins ∧
      h.lowerBound = cfg.m_LowerBound ∧ h.upperBound = cfg.m_UpperBound ∧
      h.frequency.length = cfg.m_NumBins)

/-- Keys in strictly increasing order: the ordering invariant of `std::map`. -/
def MapType.Ordered (m : MapType K) : Prop :=
  List.Pairwise (fun a b => a < b) (m.map Prod.fst)

/-- Every call names a thread of the filter. -/
def ValidCalls (f : StreamingLabelStatisticsImageFilter K) (calls : List (Nat × Element K)) :
    Prop :=
  ∀ c ∈ calls, c.1 < f.numberOfThreads

/-- The bin index that `GetMedian` passes to `GetBinMin` and `GetBinMax`: the value
of `bin` after the loop and the decrement `bin--` of the unsigned 64-bit integer
(lines 504-518). -/
def medianBin (count numBins : Nat) (hist : Histogram K) : Nat :=
  (medianLoop count numBins hist 0 0 + (2 ^ 64 - 1)) % 2 ^ 64

/-- The cumulative frequency of the bins `0 .. b`. -/
def cumulativeFrequency (hist : Histogram K) (b : Nat) : Nat :=
  ((List.range (b + 1)).map (fun bin => hist.GetFrequency bin)).sum

/-- The crossing bin in the words of the spec (section 4.5): the smallest bin index
whose cumulative frequency strictly exceeds `count / 2`, the division taken in the
reals, or the last bin `numBins - 1` if no bin crosses. -/
def crossingBin (count numBins : Nat) (hist : Histogram K) : Nat :=
  match (List.range numBins).find?
      (fun b => decide ((count : K) / 2 < (cumulativeFrequency hist b : K))) with
  | some b => b
  | none => numBins - 1

/-- The midpoint `low + (high - low) / 2` of a bin's range, as `GetMedian` computes it
(lines 521-523). -/
def binMidpoint (hist : Histogram K) (bin : Nat) : K :=
  hist.GetBinMin bin + (hist.GetBinMax bin - hist.GetBinMin bin) / 2

/-- The records that the worker tables hold for `label`, in worker order. -/
def threadRecords (tables : List (MapType K)) (label : Int) : List (LabelStatistics K) :=
  tables.filterMap (fun table => table.find label)

/-- The reduction of a list of worker records into a new global record: what the
merge loop leaves in the record of a label whose worker records are `records`. -/
def mergeRecords (T : Traits K) (cfg : Config K) (records : List (LabelStatistics K)) :
    LabelStatistics K :=
  records.foldl (mergeLabelStatistics cfg) (newLabelStatistics T cfg)

/-- The state in which `AfterStreamedGenerateData` finds the filter when the worker
tables are `tables` and the final map is empty. -/
def withTables (f : StreamingLabelStatisticsImageFilter K) (tables : List (MapType K)) :
    StreamingLabelStatisticsImageFilter K :=
  { f with
    numberOfThreads := tables.length
    m_LabelStatisticsPerThread := tables
    m_LabelStatistics := [] }

/-- The frequency a worker record contributes to a bin in the histogram merge
(line 156); a null histogram contributes `0`, as in `mergeHistogram`. -/
def recordFrequency (r : LabelStatistics K) (bin : Nat) : Nat :=
  match r.m_Histogram with
  | some h => h.GetFrequency bin
  | none => 0

end Definitions

/-! ## A concrete instantiation -/

/-- An instantiation of the template parameters: a two-dimensional image of 8-bit
pixels, 64-bit indices, rational arithmetic with the rational square root. -/
def exampleTraits : Traits ℚ :=
  { ImageDimension := 2
    PixelMax := 255
    PixelNonpositiveMin := 0
    IndexMax := 2 ^ 63 - 1
    IndexNonpositiveMin := -(2 ^ 63)
    vcl_sqrt := Rat.sqrt }

/-- A freshly constructed filter running on `numberOfThreads` threads. -/
def exampleFilter (numberOfThreads : Nat) : StreamingLabelStatisticsImageFilter ℚ :=
  StreamingLabelStatisticsImageFilter.new exampleTraits numberOfThreads

/-- The same filter after `SetHistogramParameters(4, 0, 8)`. -/
def exampleHistogramFilter (numberOfThreads : Nat) : StreamingLabelStatisticsImageFilter ℚ :=
  SetHistogramParameters (exampleFilter numberOfThreads) 4 0 8

/-- The dataset of the scenario: values `1, 2, 3` under label `1` and `10` under
label `2`, along the first axis of the image. -/
def scenarioElements : List (Element ℚ) :=
  [ { label := 1, value := 1, index := [0, 0] },
    { label := 1, value := 2, index := [1, 0] },
    { label := 1, value := 3, index := [2, 0] },
    { label := 2, value := 10, index := [3, 0] } ]

/-- The scenario scanned as a single partition on thread `0`. -/
def scenarioSingle : List (Nat × Element ℚ) :=
  scenarioElements.map (fun e => (0, e))

/-- The scenario split in two partitions: the values `1, 2` on thread `0`, the
values `3` and `10` on thread `1`. -/
def scenarioSplit : List (Nat × Element ℚ) :=
  scenarioElements.map (fun e => (if e.value ≤ 2 then 0 else 1, e))

/-- A histogram of four bins over `[0, 8)` with frequencies `2, 1, 0, 0`. -/
def exampleHistogram : Histogram ℚ :=
  { size := 4, lowerBound := 0, upperBound := 8, frequency := [2, 1, 0, 0] }

/-- A histogram of four bins over `[0, 8)` with all frequencies zero. -/
def exampleZeroHistogram : Histogram ℚ :=
  { size := 4, lowerBound := 0, upperBound := 8, frequency := [0, 0, 0, 0] }

/-- A filter state with histograms of four bins over `[0, 8)` whose final map holds
label `1` with count `3` and the histogram `exampleHistogram`, and label `2` with
count `0` and the histogram `exampleZeroHistogram`. -/
def exampleMedianFilter : StreamingLabelStatisticsImageFilter ℚ :=
  { exampleHistogramFilter 1 with
    m_LabelStatistics :=
      [(1, { LabelStatistics.default exampleTraits with
              m_Count := 3, m_Histogram := some exampleHistogram }),
       (2, { LabelStatistics.default exampleTraits with
              m_Count := 0, m_Histogram := some exampleZeroHistogram })]
    m_ValidLabelValues := [1, 2] }

/-- The worker tables after the scenario was scanned in two partitions: thread `0`
holds label `1` (values `1, 2`), thread `1` holds labels `1` (value `3`) and `2`
(value `10`). -/
def exampleTables : List (MapType ℚ) :=
  (scan exampleTraits (BeforeStreamedGenerateData (exampleFilter 2))
    scenarioSplit).m_LabelStatisticsPerThread

/-- The template parameters of `exampleTraits` over any field, with the square root
passed in. -/
def exampleTraitsWith {K : Type} [LinearOrderedField K] (sqrt : K → K) : Traits K :=
  { ImageDimension := 2
    PixelMax := 255
    PixelNonpositiveMin := 0
    IndexMax := 2 ^ 63 - 1
    IndexNonpositiveMin := -(2 ^ 63)
    vcl_sqrt := sqrt }

/-- Two calls on thread `0` for label `1`, with the values `1` and `3`, over any
field. -/
def exampleCallsOver (K : Type) [LinearOrderedField K] : List (Nat × Element K) :=
  [ (0, { label := 1, value := 1, index := [0, 0] }),
    (0, { label := 1, value := 3, index := [1, 0] }) ]

end itk

namespace itk
section Lemmas
set_option linter.unusedSectionVars false
variable {K : Type} [LinearOrderedField K] [FloorRing K]

theorem getD_set_ite {α : Type} (l : List α) (i j : Nat) (a d : α) :
    (l.set i a).getD j d = if i = j ∧ i < l.length then a else l.getD j d := by
  simp only [List.getD_eq_getElem?_getD, List.getElem?_set]
  by_cases h : i = j
  · subst h
    by_cases h2 : i < l.length
    · simp [h2]
    · have h3 : l[i]? = none := List.getElem?_eq_none (by omega)
      simp [h2, h3]
  · simp [h]

theorem getD_of_length_le {α : Type} (l : List α) (j : Nat) (d : α) (h : l.length ≤ j) :
    l.getD j d = d := by
  simp [List.getD_eq_getElem?_getD, List.getElem?_eq_none h]

theorem list_ext_getD {α : Type} (d : α) (l₁ l₂ : List α) (hlen : l₁.length = l₂.length)
    (h : ∀ j, j < l₁.length → l₁.getD j d = l₂.getD j d) : l₁ = l₂ := by
  apply List.ext_getElem hlen
  intro n h₁ h₂
  have := h n h₁
  rwa [List.getD_eq_getElem _ _ h₁, List.getD_eq_getElem _ _ h₂] at this

theorem updateBoundingBoxPair_length (bb : List Int) (i : Nat) (lo hi : Int) :
    (updateBoundingBoxPair bb i lo hi).length = bb.length := by
  unfold updateBoundingBoxPair
  simp only
  split_ifs <;> simp

theorem setMin_getD (bb : List Int) (i : Nat) (lo : Int) (j : Nat) :
    (if bb.getD i 0 > lo then bb.set i lo else bb).getD j 0 =
      if j = i ∧ j < bb.length then min (bb.getD j 0) lo else bb.getD j 0 := by
  by_cases h1 : bb.getD i 0 > lo
  · rw [if_pos h1, getD_set_ite]
    by_cases h2 : j = i ∧ j < bb.length
    · obtain ⟨rfl, h3⟩ := h2
      rw [if_pos ⟨rfl, h3⟩, if_pos ⟨rfl, h3⟩, min_eq_right (le_of_lt h1)]
    · rw [if_neg h2, if_neg]
      rintro ⟨rfl, h3⟩
      exact h2 ⟨rfl, h3⟩
  · rw [if_neg h1]
    by_cases h2 : j = i ∧ j < bb.length
    · obtain ⟨rfl, h3⟩ := h2
      rw [if_pos ⟨rfl, h3⟩, min_eq_left (not_lt.mp h1)]
    · rw [if_neg h2]

theorem setMax_getD (bb : List Int) (i : Nat) (hi : Int) (j : Nat) :
    (if bb.getD i 0 < hi then bb.set i hi else bb).getD j 0 =
      if j = i ∧ j < bb.length then max (bb.getD j 0) hi else bb.getD j 0 := by
  by_cases h1 : bb.getD i 0 < hi
  · rw [if_pos h1, getD_set_ite]
    by_cases h2 : j = i ∧ j < bb.length
    · obtain ⟨rfl, h3⟩ := h2
      rw [if_pos ⟨rfl, h3⟩, if_pos ⟨rfl, h3⟩, max_eq_right (le_of_lt h1)]
    · rw [if_neg h2, if_neg]
      rintro ⟨rfl, h3⟩
      exact h2 ⟨rfl, h3⟩
  · rw [if_neg h1]
    by_cases h2 : j = i ∧ j < bb.length
    · obtain ⟨rfl, h3⟩ := h2
      rw [if_pos ⟨rfl, h3⟩, max_eq_left (not_lt.mp h1)]
    · rw [if_neg h2]

theorem setMin_length (bb : List Int) (i : Nat) (lo : Int) :
    (if bb.getD i 0 > lo then bb.set i lo else bb).length = bb.length := by
  split_ifs <;> simp

theorem updateBoundingBoxPair_getD (bb : List Int) (i : Nat) (lo hi : Int) (j : Nat) :
    (updateBoundingBoxPair bb i lo hi).getD j 0 =
      if j = i ∧ j < bb.length then min (bb.getD j 0) lo
      else if j = i + 1 ∧ j < bb.length then max (bb.getD j 0) hi
      else bb.getD j 0 := by
  unfold updateBoundingBoxPair
  simp only
  rw [setMax_getD, setMin_length, setMin_getD]
  by_cases h1 : j = i ∧ j < bb.length
  · have h2 : ¬ (j = i + 1 ∧ j < bb.length) := by omega
    simp only [if_pos h1, if_neg h2]
  · by_cases h2 : j = i + 1 ∧ j < bb.length
    · simp only [if_neg h1, if_pos h2]
    · simp only [if_neg h1, if_neg h2]

theorem boxLoop_length (lo hi : Nat → Int) (n : Nat) (bb : List Int) :
    ((List.range n).foldl
      (fun bb a => updateBoundingBoxPair bb (2 * a) (lo a) (hi a)) bb).length = bb.length := by
  induction n with
  | zero => simp
  | succ n ih => rw [List.range_succ, List.foldl_concat, updateBoundingBoxPair_length, ih]

theorem boxLoop_getD (lo hi : Nat → Int) (n : Nat) (bb : List Int) (j : Nat) :
    ((List.range n).foldl
      (fun bb a => updateBoundingBoxPair bb (2 * a) (lo a) (hi a)) bb).getD j 0 =
      if j / 2 < n ∧ j < bb.length then
        (if j % 2 = 0 then min (bb.getD j 0) (lo (j / 2)) else max (bb.getD j 0) (hi (j / 2)))
      else bb.getD j 0 := by
  induction n with
  | zero => simp
  | succ n ih =>
    rw [List.range_succ, List.foldl_concat, updateBoundingBoxPair_getD, boxLoop_length, ih]
    by_cases hj : j < bb.length
    · by_cases h1 : j = 2 * n
      · have e1 : j / 2 = n := by omega
        have e2 : j % 2 = 0 := by omega
        rw [if_pos ⟨h1, hj⟩, if_neg (by omega), if_pos ⟨by omega, hj⟩, if_pos e2, e1]
      · by_cases h2 : j = 2 * n + 1
        · have e1 : j / 2 = n := by omega
          have e2 : ¬ j % 2 = 0 := by omega
          rw [if_neg (by omega), if_pos ⟨h2, hj⟩, if_neg (by omega), if_pos ⟨by omega, hj⟩,
            if_neg e2, e1]
        · rw [if_neg (by omega), if_neg (by omega)]
          by_cases h3 : j / 2 < n
          · rw [if_pos (show j / 2 < n ∧ j < bb.length from ⟨h3, hj⟩),
              if_pos (show j / 2 < n + 1 ∧ j < bb.length from ⟨by omega, hj⟩)]
          · rw [if_neg (by omega), if_neg (by omega)]
    · rw [if_neg (by omega), if_neg (by omega), if_neg (by omega), if_neg (by omega)]


/-! ### Histogram operations -/

theorem IncreaseFrequency_getD (h : Histogram K) (bin delta j : Nat) :
    (h.IncreaseFrequency bin delta).frequency.getD j 0 =
      if j = bin ∧ j < h.frequency.length then h.frequency.getD j 0 + delta
      else h.frequency.getD j 0 := by
  unfold Histogram.IncreaseFrequency
  simp only
  rw [getD_set_ite]
  by_cases h1 : j = bin ∧ j < h.frequency.length
  · obtain ⟨rfl, h2⟩ := h1
    simp [h2]
  · rw [if_neg h1, if_neg]
    rintro ⟨rfl, h2⟩
    exact h1 ⟨rfl, h2⟩

theorem IncreaseFrequency_length (h : Histogram K) (bin delta : Nat) :
    (h.IncreaseFrequency bin delta).frequency.length = h.frequency.length := by
  simp [Histogram.IncreaseFrequency]

theorem sum_set_add (l : List Nat) (bin delta : Nat) (hb : bin < l.length) :
    (l.set bin (l.getD bin 0 + delta)).sum = l.sum + delta := by
  induction l generalizing bin with
  | nil => simp at hb
  | cons a l ih =>
    cases bin with
    | zero => simp; omega
    | succ b =>
      have hb2 : b < l.length := by simpa using hb
      have := ih b hb2
      simp only [List.set_cons_succ, List.sum_cons, List.getD_cons_succ, this]
      omega

theorem binOf_congr (h₁ h₂ : Histogram K) (v : K) (hs : h₁.size = h₂.size)
    (hl : h₁.lowerBound = h₂.lowerBound) (hu : h₁.upperBound = h₂.upperBound) :
    h₁.binOf v = h₂.binOf v := by
  unfold Histogram.binOf
  rw [hs, hl, hu]

theorem binOf_lt (h : Histogram K) (v : K) (hs : 0 < h.size) : h.binOf v < h.size := by
  unfold Histogram.binOf
  have h1 : min (Int.floor ((v - h.lowerBound) / ((h.upperBound - h.lowerBound) / (h.size : K))))
      ((h.size : Int) - 1) ≤ (h.size : Int) - 1 := min_le_right _ _
  omega

theorem histLoop_params (d : Nat → Nat) (n : Nat) (g : Histogram K) :
    ((List.range n).foldl (fun h bin => h.IncreaseFrequency bin (d bin)) g).size = g.size ∧
    ((List.range n).foldl (fun h bin => h.IncreaseFrequency bin (d bin)) g).lowerBound
      = g.lowerBound ∧
    ((List.range n).foldl (fun h bin => h.IncreaseFrequency bin (d bin)) g).upperBound
      = g.upperBound ∧
    ((List.range n).foldl (fun h bin => h.IncreaseFrequency bin (d bin)) g).frequency.length
      = g.frequency.length := by
  induction n with
  | zero => simp
  | succ n ih =>
    rw [List.range_succ, List.foldl_concat]
    obtain ⟨h1, h2, h3, h4⟩ := ih
    refine ⟨?_, ?_, ?_, ?_⟩
    · rw [← h1]; rfl
    · rw [← h2]; rfl
    · rw [← h3]; rfl
    · rw [IncreaseFrequency_length, h4]

theorem histLoop_getD (d : Nat → Nat) (n : Nat) (g : Histogram K) (j : Nat) :
    ((List.range n).foldl (fun h bin => h.IncreaseFrequency bin (d bin)) g).frequency.getD j 0 =
      if j < n ∧ j < g.frequency.length then g.frequency.getD j 0 + d j
      else g.frequency.getD j 0 := by
  induction n with
  | zero => simp
  | succ n ih =>
    rw [List.range_succ, List.foldl_concat, IncreaseFrequency_getD, (histLoop_params d n g).2.2.2,
      ih]
    by_cases h1 : j = n ∧ j < g.frequency.length
    · obtain ⟨rfl, h2⟩ := h1
      simp [h2]
    · rw [if_neg h1]
      by_cases h2 : j < n ∧ j < g.frequency.length
      · simp only [if_pos h2,
          if_pos (show j < n + 1 ∧ j < g.frequency.length from ⟨by omega, h2.2⟩)]
      · simp only [if_neg h2,
          if_neg (show ¬ (j < n + 1 ∧ j < g.frequency.length) by omega)]

/-! ### Records -/

theorem min_min_swap {α : Type} [LinearOrder α] (x a b : α) :
    min (min x a) b = min (min x b) a := by
  rw [min_assoc, min_comm a b, ← min_assoc]

theorem max_max_swap {α : Type} [LinearOrder α] (x a b : α) :
    max (max x a) b = max (max x b) a := by
  rw [max_assoc, max_comm a b, ← max_assoc]

theorem ite_lt_eq_min (v m : K) : (if v < m then v else m) = min m v := by
  by_cases h : v < m
  · rw [if_pos h, min_eq_right (le_of_lt h)]
  · rw [if_neg h, min_eq_left (not_lt.mp h)]

theorem ite_gt_eq_max (v m : K) : (if v > m then v else m) = max m v := by
  by_cases h : v > m
  · rw [if_pos h, max_eq_right (le_of_lt h)]
  · rw [if_neg h, max_eq_left (not_lt.mp h)]

theorem ite_gt_eq_min (g t : K) : (if g > t then t else g) = min g t := by
  by_cases h : g > t
  · rw [if_pos h, min_eq_right (le_of_lt h)]
  · rw [if_neg h, min_eq_left (not_lt.mp h)]

theorem ite_lt_eq_max (g t : K) : (if g < t then t else g) = max g t := by
  by_cases h : g < t
  · rw [if_pos h, max_eq_right (le_of_lt h)]
  · rw [if_neg h, max_eq_left (not_lt.mp h)]

theorem initialBoundingBox_length (T : Traits K) :
    (initialBoundingBox T).length = 2 * T.ImageDimension := by
  simp [initialBoundingBox]

theorem initialBoundingBox_getD (T : Traits K) (j : Nat) (hj : j < 2 * T.ImageDimension) :
    (initialBoundingBox T).getD j 0 =
      if j % 2 = 0 then T.IndexMax else T.IndexNonpositiveMin := by
  unfold initialBoundingBox
  rw [List.getD_eq_getElem _ _ (by simpa using hj)]
  simp

theorem newLabelStatistics_boundingBox (T : Traits K) (cfg : Config K) :
    (newLabelStatistics T cfg).m_BoundingBox = initialBoundingBox T := by
  unfold newLabelStatistics
  split_ifs <;> rfl

theorem newLabelStatistics_fields (T : Traits K) (cfg : Config K) :
    (newLabelStatistics T cfg).m_Count = 0 ∧ (newLabelStatistics T cfg).m_Sum = 0 ∧
    (newLabelStatistics T cfg).m_SumOfSquares = 0 ∧
    (newLabelStatistics T cfg).m_Minimum = T.PixelMax ∧
    (newLabelStatistics T cfg).m_Maximum = T.PixelNonpositiveMin := by
  unfold newLabelStatistics
  split_ifs <;> exact ⟨rfl, rfl, rfl, rfl, rfl⟩

theorem newLabelStatistics_histogram (T : Traits K) (cfg : Config K) :
    (newLabelStatistics T cfg).m_Histogram =
      if cfg.m_UseHistograms then
        some (Histogram.create cfg.m_NumBins cfg.m_LowerBound cfg.m_UpperBound)
      else none := by
  unfold newLabelStatistics
  split_ifs <;> rfl

theorem RecordInv_new (T : Traits K) (cfg : Config K) :
    RecordInv T cfg (newLabelStatistics T cfg) := by
  obtain ⟨_, _, _, h4, h5⟩ := newLabelStatistics_fields T cfg
  refine ⟨by rw [h4], by rw [h5], ?_, ?_, ?_⟩
  · rw [newLabelStatistics_boundingBox, initialBoundingBox_length]
  · intro j hj
    rw [newLabelStatistics_boundingBox, initialBoundingBox_getD T j hj]
    constructor
    · intro h; rw [if_pos h]
    · intro h; rw [if_neg (by omega)]
  · intro hu
    rw [newLabelStatistics_histogram, if_pos hu]
    exact ⟨_, rfl, rfl, rfl, rfl, by simp [Histogram.create]⟩

theorem RecordInv_update (T : Traits K) (cfg : Config K) (r : LabelStatistics K) (v : K)
    (idx : List Int) (hr : RecordInv T cfg r) :
    RecordInv T cfg (updateLabelStatistics T cfg r v idx) := by
  obtain ⟨h1, h2, h3, h4, h5⟩ := hr
  refine ⟨?_, ?_, ?_, ?_, ?_⟩
  · show (if v < r.m_Minimum then v else r.m_Minimum) ≤ T.PixelMax
    rw [ite_lt_eq_min]
    exact le_trans (min_le_left _ _) h1
  · show T.PixelNonpositiveMin ≤ (if v > r.m_Maximum then v else r.m_Maximum)
    rw [ite_gt_eq_max]
    exact le_trans h2 (le_max_left _ _)
  · show (List.foldl _ r.m_BoundingBox (List.range T.ImageDimension)).length = _
    rw [boxLoop_length (fun a => idx.getD (2 * a / 2) 0) (fun a => idx.getD (2 * a / 2) 0), h3]
  · intro j hj
    show (_ → (List.foldl _ r.m_BoundingBox (List.range T.ImageDimension)).getD j 0 ≤ _) ∧
      (_ → _ ≤ (List.foldl _ r.m_BoundingBox (List.range T.ImageDimension)).getD j 0)
    rw [boxLoop_getD (fun a => idx.getD (2 * a / 2) 0) (fun a => idx.getD (2 * a / 2) 0),
      if_pos (show j / 2 < T.ImageDimension ∧ j < r.m_BoundingBox.length from
        ⟨by omega, by omega⟩)]
    constructor
    · intro h; rw [if_pos h]
      exact le_trans (min_le_left _ _) ((h4 j hj).1 h)
    · intro h; rw [if_neg (by omega)]
      exact le_trans ((h4 j hj).2 h) (le_max_left _ _)
  · intro hu
    obtain ⟨h, e1, e2, e3, e4, e5⟩ := h5 hu
    refine ⟨h.IncreaseFrequencyOfMeasurement v 1, ?_, e2, e3, e4, ?_⟩
    · show (if cfg.m_UseHistograms = true then _ else _) = _
      rw [if_pos hu, e1]; rfl
    · show (h.IncreaseFrequency _ _).frequency.length = _
      rw [IncreaseFrequency_length, e5]

theorem boxLoop_getD_full (lo hi : Nat → Int) (n : Nat) (bb : List Int) (j : Nat)
    (hlen : bb.length = 2 * n) (hj : j < 2 * n) :
    ((List.range n).foldl
      (fun bb a => updateBoundingBoxPair bb (2 * a) (lo a) (hi a)) bb).getD j 0 =
      if j % 2 = 0 then min (bb.getD j 0) (lo (j / 2)) else max (bb.getD j 0) (hi (j / 2)) := by
  rw [boxLoop_getD, if_pos (show j / 2 < n ∧ j < bb.length from ⟨by omega, by omega⟩)]

theorem merge_new (T : Traits K) (cfg : Config K) (g : LabelStatistics K)
    (hg : RecordInv T cfg g) :
    mergeLabelStatistics cfg g (newLabelStatistics T cfg) = g := by
  obtain ⟨h1, h2, h3, h4, h5⟩ := hg
  obtain ⟨n1, n2, n3, n4, n5⟩ := newLabelStatistics_fields T cfg
  refine LabelStatistics.ext ?_ ?_ ?_ rfl ?_ ?_ rfl rfl ?_ ?_
  · show g.m_Count + (newLabelStatistics T cfg).m_Count = g.m_Count
    rw [n1]; rfl
  · show (if g.m_Minimum > (newLabelStatistics T cfg).m_Minimum then _ else _) = _
    rw [ite_gt_eq_min, n4, min_eq_left h1]
  · show (if g.m_Maximum < (newLabelStatistics T cfg).m_Maximum then _ else _) = _
    rw [ite_lt_eq_max, n5, max_eq_left h2]
  · show g.m_Sum + (newLabelStatistics T cfg).m_Sum = g.m_Sum
    rw [n2, add_zero]
  · show g.m_SumOfSquares + (newLabelStatistics T cfg).m_SumOfSquares = g.m_SumOfSquares
    rw [n3, add_zero]
  · show List.foldl _ g.m_BoundingBox (List.range (g.m_BoundingBox.length / 2)) = _
    have hd : g.m_BoundingBox.length / 2 = T.ImageDimension := by omega
    rw [hd, newLabelStatistics_boundingBox]
    apply list_ext_getD 0
    · rw [boxLoop_length (fun a => (initialBoundingBox T).getD (2 * a) 0)
        (fun a => (initialBoundingBox T).getD (2 * a + 1) 0)]
    · intro j hj
      rw [boxLoop_length (fun a => (initialBoundingBox T).getD (2 * a) 0)
        (fun a => (initialBoundingBox T).getD (2 * a + 1) 0)] at hj
      rw [boxLoop_getD_full (fun a => (initialBoundingBox T).getD (2 * a) 0)
        (fun a => (initialBoundingBox T).getD (2 * a + 1) 0) _ _ _ h3 (by omega)]
      by_cases hp : j % 2 = 0
      · rw [if_pos hp, initialBoundingBox_getD T _ (by omega), if_pos (by omega)]
        exact min_eq_left ((h4 j (by omega)).1 hp)
      · rw [if_neg hp, initialBoundingBox_getD T _ (by omega), if_neg (by omega)]
        exact max_eq_left ((h4 j (by omega)).2 (by omega))
  · show (if cfg.m_UseHistograms = true then _ else _) = _
    by_cases hu : cfg.m_UseHistograms = true
    · obtain ⟨h, e1, e2, e3, e4, e5⟩ := h5 hu
      rw [if_pos hu, e1, newLabelStatistics_histogram, if_pos hu]
      show some _ = some _
      congr 1
      unfold mergeHistogram
      have hp := histLoop_params
        (fun bin => (Histogram.create cfg.m_NumBins cfg.m_LowerBound cfg.m_UpperBound).GetFrequency
          bin) cfg.m_NumBins h
      refine Histogram.ext hp.1 hp.2.1 hp.2.2.1 ?_
      apply list_ext_getD 0 _ _ hp.2.2.2
      intro j hj
      rw [histLoop_getD
        (fun bin => (Histogram.create cfg.m_NumBins cfg.m_LowerBound cfg.m_UpperBound).GetFrequency
          bin)]
      split_ifs with hc
      · simp [Histogram.GetFrequency, Histogram.create, List.getD_eq_getElem?_getD,
          List.getElem?_replicate, hc.1]
      · rfl
    · rw [if_neg hu]

theorem merge_update (T : Traits K) (cfg : Config K) (g t : LabelStatistics K) (v : K)
    (idx : List Int) (hg : RecordInv T cfg g) (ht : RecordInv T cfg t) :
    mergeLabelStatistics cfg g (updateLabelStatistics T cfg t v idx) =
      updateLabelStatistics T cfg (mergeLabelStatistics cfg g t) v idx := by
  obtain ⟨-, -, g3, -, g5⟩ := hg
  obtain ⟨-, -, t3, -, t5⟩ := ht
  have hd : g.m_BoundingBox.length / 2 = T.ImageDimension := by omega
  refine LabelStatistics.ext ?_ ?_ ?_ rfl ?_ ?_ rfl rfl ?_ ?_
  · show g.m_Count + (t.m_Count + 1) = g.m_Count + t.m_Count + 1
    omega
  · show (if g.m_Minimum > (if v < t.m_Minimum then v else t.m_Minimum) then
        (if v < t.m_Minimum then v else t.m_Minimum) else g.m_Minimum) =
      (if v < (if g.m_Minimum > t.m_Minimum then t.m_Minimum else g.m_Minimum) then v
        else (if g.m_Minimum > t.m_Minimum then t.m_Minimum else g.m_Minimum))
    rw [ite_lt_eq_min, ite_gt_eq_min, ite_gt_eq_min, ite_lt_eq_min, min_assoc]
  · show (if g.m_Maximum < (if v > t.m_Maximum then v else t.m_Maximum) then
        (if v > t.m_Maximum then v else t.m_Maximum) else g.m_Maximum) =
      (if v > (if g.m_Maximum < t.m_Maximum then t.m_Maximum else g.m_Maximum) then v
        else (if g.m_Maximum < t.m_Maximum then t.m_Maximum else g.m_Maximum))
    rw [ite_gt_eq_max, ite_lt_eq_max, ite_lt_eq_max, ite_gt_eq_max, max_assoc]
  · show g.m_Sum + (t.m_Sum + v) = g.m_Sum + t.m_Sum + v
    ring
  · show g.m_SumOfSquares + (t.m_SumOfSquares + v * v) = g.m_SumOfSquares + t.m_SumOfSquares + v * v
    ring
  · show List.foldl
        (fun bb a => updateBoundingBoxPair bb (2 * a)
          ((updateLabelStatistics T cfg t v idx).m_BoundingBox.getD (2 * a) 0)
          ((updateLabelStatistics T cfg t v idx).m_BoundingBox.getD (2 * a + 1) 0))
        g.m_BoundingBox (List.range (g.m_BoundingBox.length / 2)) =
      List.foldl
        (fun bb a => updateBoundingBoxPair bb (2 * a) (idx.getD (2 * a / 2) 0)
          (idx.getD (2 * a / 2) 0))
        (mergeLabelStatistics cfg g t).m_BoundingBox (List.range T.ImageDimension)
    have hU : ∀ j, j < 2 * T.ImageDimension →
        (updateLabelStatistics T cfg t v idx).m_BoundingBox.getD j 0 =
          if j % 2 = 0 then min (t.m_BoundingBox.getD j 0) (idx.getD (2 * (j / 2) / 2) 0)
          else max (t.m_BoundingBox.getD j 0) (idx.getD (2 * (j / 2) / 2) 0) := by
      intro j hj
      exact boxLoop_getD_full (fun a => idx.getD (2 * a / 2) 0) (fun a => idx.getD (2 * a / 2) 0)
        _ _ _ t3 hj
    have hM : ∀ j, j < 2 * T.ImageDimension →
        (mergeLabelStatistics cfg g t).m_BoundingBox.getD j 0 =
          if j % 2 = 0 then min (g.m_BoundingBox.getD j 0) (t.m_BoundingBox.getD (2 * (j / 2)) 0)
          else max (g.m_BoundingBox.getD j 0) (t.m_BoundingBox.getD (2 * (j / 2) + 1) 0) := by
      intro j hj
      show (List.foldl _ g.m_BoundingBox (List.range (g.m_BoundingBox.length / 2))).getD j 0 = _
      rw [hd]
      exact boxLoop_getD_full (fun a => t.m_BoundingBox.getD (2 * a) 0)
        (fun a => t.m_BoundingBox.getD (2 * a + 1) 0) _ _ _ g3 hj
    have hMlen : (mergeLabelStatistics cfg g t).m_BoundingBox.length = 2 * T.ImageDimension := by
      show (List.foldl _ g.m_BoundingBox (List.range (g.m_BoundingBox.length / 2))).length = _
      rw [boxLoop_length (fun a => t.m_BoundingBox.getD (2 * a) 0)
        (fun a => t.m_BoundingBox.getD (2 * a + 1) 0), g3]
    rw [hd]
    apply list_ext_getD 0
    · rw [boxLoop_length (fun a => (updateLabelStatistics T cfg t v idx).m_BoundingBox.getD (2 * a) 0)
        (fun a => (updateLabelStatistics T cfg t v idx).m_BoundingBox.getD (2 * a + 1) 0),
        boxLoop_length (fun a => idx.getD (2 * a / 2) 0) (fun a => idx.getD (2 * a / 2) 0),
        hMlen, g3]
    · intro j hj
      rw [boxLoop_length (fun a => (updateLabelStatistics T cfg t v idx).m_BoundingBox.getD (2 * a) 0)
        (fun a => (updateLabelStatistics T cfg t v idx).m_BoundingBox.getD (2 * a + 1) 0),
        g3] at hj
      rw [boxLoop_getD_full
          (fun a => (updateLabelStatistics T cfg t v idx).m_BoundingBox.getD (2 * a) 0)
          (fun a => (updateLabelStatistics T cfg t v idx).m_BoundingBox.getD (2 * a + 1) 0)
          _ _ _ g3 hj,
        boxLoop_getD_full (fun a => idx.getD (2 * a / 2) 0) (fun a => idx.getD (2 * a / 2) 0)
          _ _ _ hMlen hj, hM j hj]
      have hidx : ∀ a : Nat, 2 * a / 2 = a := fun a => by omega
      simp only [hidx] at hU ⊢
      by_cases hp : j % 2 = 0
      · have e : 2 * (j / 2) = j := by omega
        simp only [if_pos hp]
        rw [hU _ (by omega), e, if_pos hp, min_assoc]
      · have e : 2 * (j / 2) + 1 = j := by omega
        simp only [if_neg hp]
        rw [hU _ (by omega), e, if_neg hp, max_assoc]
  · show (if cfg.m_UseHistograms = true then
        g.m_Histogram.map (fun gh => mergeHistogram cfg.m_NumBins gh
          (updateLabelStatistics T cfg t v idx).m_Histogram)
        else g.m_Histogram) =
      (if cfg.m_UseHistograms = true then
        (mergeLabelStatistics cfg g t).m_Histogram.map
          (fun h => h.IncreaseFrequencyOfMeasurement v 1)
        else (mergeLabelStatistics cfg g t).m_Histogram)
    by_cases hu : cfg.m_UseHistograms = true
    · obtain ⟨gh, a1, a2, a3, a4, a5⟩ := g5 hu
      obtain ⟨th, b1, b2, b3, b4, b5⟩ := t5 hu
      have hUh : (updateLabelStatistics T cfg t v idx).m_Histogram =
          some (th.IncreaseFrequencyOfMeasurement v 1) := by
        show (if cfg.m_UseHistograms = true then _ else _) = _
        rw [if_pos hu, b1]; rfl
      have hMh : (mergeLabelStatistics cfg g t).m_Histogram =
          some (mergeHistogram cfg.m_NumBins gh (some th)) := by
        show (if cfg.m_UseHistograms = true then _ else _) = _
        rw [if_pos hu, a1, b1]; rfl
      rw [if_pos hu, if_pos hu, hUh, hMh, a1]
      show some _ = some _
      congr 1
      have hp1 := histLoop_params
        (fun bin => (th.IncreaseFrequencyOfMeasurement v 1).GetFrequency bin) cfg.m_NumBins gh
      have hp2 := histLoop_params (fun bin => th.GetFrequency bin) cfg.m_NumBins gh
      have hbin : (mergeHistogram cfg.m_NumBins gh (some th)).binOf v = th.binOf v :=
        binOf_congr _ _ v (by rw [b2]; exact hp2.1.trans a2)
          (by rw [b3]; exact hp2.2.1.trans a3) (by rw [b4]; exact hp2.2.2.1.trans a4)
      refine Histogram.ext (hp1.1.trans hp2.1.symm) (hp1.2.1.trans hp2.2.1.symm)
        (hp1.2.2.1.trans hp2.2.2.1.symm) ?_
      apply list_ext_getD 0
      · show _ = (Histogram.IncreaseFrequency _ _ _).frequency.length
        rw [IncreaseFrequency_length]
        exact hp1.2.2.2.trans hp2.2.2.2.symm
      · intro j hj
        have hj2 : j < gh.frequency.length := by
          have hl : (mergeHistogram cfg.m_NumBins gh
              (some (th.IncreaseFrequencyOfMeasurement v 1))).frequency.length
              = gh.frequency.length := hp1.2.2.2
          change j < (mergeHistogram cfg.m_NumBins gh
              (some (th.IncreaseFrequencyOfMeasurement v 1))).frequency.length at hj
          omega
        show (List.foldl _ gh (List.range cfg.m_NumBins)).frequency.getD j 0 =
          (Histogram.IncreaseFrequency _ _ _).frequency.getD j 0
        rw [histLoop_getD (fun bin => (th.IncreaseFrequencyOfMeasurement v 1).GetFrequency bin),
          IncreaseFrequency_getD, hbin]
        have hlen2 : (mergeHistogram cfg.m_NumBins gh (some th)).frequency.length
            = gh.frequency.length := hp2.2.2.2
        have hget2 : (mergeHistogram cfg.m_NumBins gh (some th)).frequency.getD j 0 =
            gh.frequency.getD j 0 + th.frequency.getD j 0 := by
          show (List.foldl _ gh (List.range cfg.m_NumBins)).frequency.getD j 0 = _
          rw [histLoop_getD (fun bin => th.GetFrequency bin),
            if_pos (show j < cfg.m_NumBins ∧ j < gh.frequency.length from ⟨by omega, hj2⟩)]
          rfl
        rw [hlen2, hget2,
          if_pos (show j < cfg.m_NumBins ∧ j < gh.frequency.length from ⟨by omega, hj2⟩)]
        show gh.frequency.getD j 0 +
          (Histogram.IncreaseFrequency th (th.binOf v) 1).frequency.getD j 0 = _
        rw [IncreaseFrequency_getD]
        by_cases hb : j = th.binOf v
        · rw [if_pos ⟨hb, by omega⟩, if_pos ⟨hb, hj2⟩]
          omega
        · rw [if_neg (fun h => hb h.1), if_neg (fun h => hb h.1)]
    · rw [if_neg hu, if_neg hu]
      show g.m_Histogram = (if cfg.m_UseHistograms = true then _ else _)
      rw [if_neg hu]

theorem update_comm (T : Traits K) (cfg : Config K) (r : LabelStatistics K)
    (a b : Element K) :
    updateLabelStatistics T cfg (updateLabelStatistics T cfg r a.value a.index) b.value b.index =
      updateLabelStatistics T cfg (updateLabelStatistics T cfg r b.value b.index)
        a.value a.index := by
  refine LabelStatistics.ext ?_ ?_ ?_ rfl ?_ ?_ rfl rfl ?_ ?_
  · rfl
  · show (if b.value < (if a.value < r.m_Minimum then a.value else r.m_Minimum) then b.value
        else (if a.value < r.m_Minimum then a.value else r.m_Minimum)) =
      (if a.value < (if b.value < r.m_Minimum then b.value else r.m_Minimum) then a.value
        else (if b.value < r.m_Minimum then b.value else r.m_Minimum))
    rw [ite_lt_eq_min, ite_lt_eq_min, ite_lt_eq_min, ite_lt_eq_min, min_min_swap]
  · show (if b.value > (if a.value > r.m_Maximum then a.value else r.m_Maximum) then b.value
        else (if a.value > r.m_Maximum then a.value else r.m_Maximum)) =
      (if a.value > (if b.value > r.m_Maximum then b.value else r.m_Maximum) then a.value
        else (if b.value > r.m_Maximum then b.value else r.m_Maximum))
    rw [ite_gt_eq_max, ite_gt_eq_max, ite_gt_eq_max, ite_gt_eq_max, max_max_swap]
  · show r.m_Sum + a.value + b.value = r.m_Sum + b.value + a.value
    ring
  · show r.m_SumOfSquares + a.value * a.value + b.value * b.value =
      r.m_SumOfSquares + b.value * b.value + a.value * a.value
    ring
  · show List.foldl
        (fun bb i => updateBoundingBoxPair bb (2 * i) (b.index.getD (2 * i / 2) 0)
          (b.index.getD (2 * i / 2) 0))
        (List.foldl
          (fun bb i => updateBoundingBoxPair bb (2 * i) (a.index.getD (2 * i / 2) 0)
            (a.index.getD (2 * i / 2) 0))
          r.m_BoundingBox (List.range T.ImageDimension)) (List.range T.ImageDimension) =
      List.foldl
        (fun bb i => updateBoundingBoxPair bb (2 * i) (a.index.getD (2 * i / 2) 0)
          (a.index.getD (2 * i / 2) 0))
        (List.foldl
          (fun bb i => updateBoundingBoxPair bb (2 * i) (b.index.getD (2 * i / 2) 0)
            (b.index.getD (2 * i / 2) 0))
          r.m_BoundingBox (List.range T.ImageDimension)) (List.range T.ImageDimension)
    apply list_ext_getD 0
    · simp only [boxLoop_length (fun i => a.index.getD (2 * i / 2) 0)
        (fun i => a.index.getD (2 * i / 2) 0),
        boxLoop_length (fun i => b.index.getD (2 * i / 2) 0)
        (fun i => b.index.getD (2 * i / 2) 0)]
    · intro j _
      simp only [boxLoop_getD (fun i => a.index.getD (2 * i / 2) 0)
        (fun i => a.index.getD (2 * i / 2) 0),
        boxLoop_getD (fun i => b.index.getD (2 * i / 2) 0)
        (fun i => b.index.getD (2 * i / 2) 0),
        boxLoop_length (fun i => a.index.getD (2 * i / 2) 0)
        (fun i => a.index.getD (2 * i / 2) 0),
        boxLoop_length (fun i => b.index.getD (2 * i / 2) 0)
        (fun i => b.index.getD (2 * i / 2) 0)]
      by_cases hc : j / 2 < T.ImageDimension ∧ j < r.m_BoundingBox.length
      · simp only [if_pos hc]
        by_cases hp : j % 2 = 0
        · simp only [if_pos hp, min_min_swap]
        · simp only [if_neg hp, max_max_swap]
      · simp only [if_neg hc]
  · show (if cfg.m_UseHistograms = true then
        (if cfg.m_UseHistograms = true then
          r.m_Histogram.map (fun h => h.IncreaseFrequencyOfMeasurement a.value 1)
          else r.m_Histogram).map (fun h => h.IncreaseFrequencyOfMeasurement b.value 1)
        else (if cfg.m_UseHistograms = true then
          r.m_Histogram.map (fun h => h.IncreaseFrequencyOfMeasurement a.value 1)
          else r.m_Histogram)) =
      (if cfg.m_UseHistograms = true then
        (if cfg.m_UseHistograms = true then
          r.m_Histogram.map (fun h => h.IncreaseFrequencyOfMeasurement b.value 1)
          else r.m_Histogram).map (fun h => h.IncreaseFrequencyOfMeasurement a.value 1)
        else (if cfg.m_UseHistograms = true then
          r.m_Histogram.map (fun h => h.IncreaseFrequencyOfMeasurement b.value 1)
          else r.m_Histogram))
    by_cases hu : cfg.m_UseHistograms = true
    · simp only [if_pos hu]
      cases hh : r.m_Histogram with
      | none => rfl
      | some h =>
        show some _ = some _
        congr 1
        refine Histogram.ext rfl rfl rfl ?_
        have e1 : (h.IncreaseFrequencyOfMeasurement a.value 1).binOf b.value = h.binOf b.value :=
          binOf_congr _ _ _ rfl rfl rfl
        have e2 : (h.IncreaseFrequencyOfMeasurement b.value 1).binOf a.value = h.binOf a.value :=
          binOf_congr _ _ _ rfl rfl rfl
        apply list_ext_getD 0
        · simp only [Histogram.IncreaseFrequencyOfMeasurement, IncreaseFrequency_length]
        · intro j _
          simp only [Histogram.IncreaseFrequencyOfMeasurement] at e1 e2 ⊢
          rw [IncreaseFrequency_getD, IncreaseFrequency_getD, IncreaseFrequency_getD,
            IncreaseFrequency_getD, IncreaseFrequency_length, IncreaseFrequency_length, e1, e2]
          split_ifs <;> omega
    · simp only [if_neg hu]

/-! ### The record of a list of elements -/

theorem aggregate_concat (T : Traits K) (cfg : Config K) (es : List (Element K))
    (e : Element K) :
    aggregate T cfg (es ++ [e]) = updateLabelStatistics T cfg (aggregate T cfg es) e.value e.index := by
  unfold aggregate
  rw [List.foldl_concat]

theorem RecordInv_aggregate (T : Traits K) (cfg : Config K) (es : List (Element K)) :
    RecordInv T cfg (aggregate T cfg es) := by
  induction es using List.reverseRecOn with
  | nil => exact RecordInv_new T cfg
  | append_singleton es e ih =>
    rw [aggregate_concat]
    exact RecordInv_update T cfg _ _ _ ih

theorem merge_aggregate (T : Traits K) (cfg : Config K) (xs ys : List (Element K)) :
    mergeLabelStatistics cfg (aggregate T cfg xs) (aggregate T cfg ys) =
      aggregate T cfg (xs ++ ys) := by
  induction ys using List.reverseRecOn with
  | nil =>
    rw [List.append_nil]
    exact merge_new T cfg _ (RecordInv_aggregate T cfg xs)
  | append_singleton ys e ih =>
    rw [aggregate_concat, merge_update T cfg _ _ _ _ (RecordInv_aggregate T cfg xs)
      (RecordInv_aggregate T cfg ys), ih, ← List.append_assoc, aggregate_concat]

theorem aggregate_perm (T : Traits K) (cfg : Config K) (xs ys : List (Element K))
    (h : xs.Perm ys) : aggregate T cfg xs = aggregate T cfg ys := by
  unfold aggregate
  exact List.Perm.foldl_eq' h (fun a _ b _ r => update_comm T cfg r a b) _

theorem aggregate_count (T : Traits K) (cfg : Config K) (es : List (Element K)) :
    (aggregate T cfg es).m_Count = es.length := by
  induction es using List.reverseRecOn with
  | nil => exact (newLabelStatistics_fields T cfg).1
  | append_singleton es e ih =>
    rw [aggregate_concat, List.length_append]
    show (aggregate T cfg es).m_Count + 1 = _
    rw [ih]; rfl

theorem aggregate_sum (T : Traits K) (cfg : Config K) (es : List (Element K)) :
    (aggregate T cfg es).m_Sum = (es.map (fun e => e.value)).sum := by
  induction es using List.reverseRecOn with
  | nil => exact (newLabelStatistics_fields T cfg).2.1
  | append_singleton es e ih =>
    rw [aggregate_concat, List.map_append, List.sum_append]
    show (aggregate T cfg es).m_Sum + e.value = _
    rw [ih]; simp

theorem aggregate_sumOfSquares (T : Traits K) (cfg : Config K) (es : List (Element K)) :
    (aggregate T cfg es).m_SumOfSquares = (es.map (fun e => e.value * e.value)).sum := by
  induction es using List.reverseRecOn with
  | nil => exact (newLabelStatistics_fields T cfg).2.2.1
  | append_singleton es e ih =>
    rw [aggregate_concat, List.map_append, List.sum_append]
    show (aggregate T cfg es).m_SumOfSquares + e.value * e.value = _
    rw [ih]; simp

theorem aggregate_minimum_le (T : Traits K) (cfg : Config K) (es : List (Element K))
    (e : Element K) (he : e ∈ es) : (aggregate T cfg es).m_Minimum ≤ e.value := by
  induction es using List.reverseRecOn with
  | nil => simp at he
  | append_singleton es x ih =>
    rw [aggregate_concat]
    show (if x.value < (aggregate T cfg es).m_Minimum then _ else _) ≤ _
    rw [ite_lt_eq_min]
    rcases List.mem_append.mp he with h | h
    · exact le_trans (min_le_left _ _) (ih h)
    · rw [List.mem_singleton.mp h]
      exact min_le_right _ _

theorem aggregate_le_maximum (T : Traits K) (cfg : Config K) (es : List (Element K))
    (e : Element K) (he : e ∈ es) : e.value ≤ (aggregate T cfg es).m_Maximum := by
  induction es using List.reverseRecOn with
  | nil => simp at he
  | append_singleton es x ih =>
    rw [aggregate_concat]
    show _ ≤ (if x.value > (aggregate T cfg es).m_Maximum then _ else _)
    rw [ite_gt_eq_max]
    rcases List.mem_append.mp he with h | h
    · exact le_trans (ih h) (le_max_left _ _)
    · rw [List.mem_singleton.mp h]
      exact le_max_right _ _

theorem aggregate_minimum_mem (T : Traits K) (cfg : Config K) (es : List (Element K)) :
    (aggregate T cfg es).m_Minimum = T.PixelMax ∨
      ∃ e ∈ es, (aggregate T cfg es).m_Minimum = e.value := by
  induction es using List.reverseRecOn with
  | nil => exact Or.inl (newLabelStatistics_fields T cfg).2.2.2.1
  | append_singleton es x ih =>
    rw [aggregate_concat]
    show (if x.value < (aggregate T cfg es).m_Minimum then _ else _) = _ ∨
      ∃ e ∈ es ++ [x], (if x.value < (aggregate T cfg es).m_Minimum then _ else _) = _
    by_cases h : x.value < (aggregate T cfg es).m_Minimum
    · rw [if_pos h]
      exact Or.inr ⟨x, by simp, rfl⟩
    · rw [if_neg h]
      rcases ih with h1 | ⟨e, he, h1⟩
      · exact Or.inl h1
      · exact Or.inr ⟨e, List.mem_append_left _ he, h1⟩

theorem aggregate_maximum_mem (T : Traits K) (cfg : Config K) (es : List (Element K)) :
    (aggregate T cfg es).m_Maximum = T.PixelNonpositiveMin ∨
      ∃ e ∈ es, (aggregate T cfg es).m_Maximum = e.value := by
  induction es using List.reverseRecOn with
  | nil => exact Or.inl (newLabelStatistics_fields T cfg).2.2.2.2
  | append_singleton es x ih =>
    rw [aggregate_concat]
    show (if x.value > (aggregate T cfg es).m_Maximum then _ else _) = _ ∨
      ∃ e ∈ es ++ [x], (if x.value > (aggregate T cfg es).m_Maximum then _ else _) = _
    by_cases h : x.value > (aggregate T cfg es).m_Maximum
    · rw [if_pos h]
      exact Or.inr ⟨x, by simp, rfl⟩
    · rw [if_neg h]
      rcases ih with h1 | ⟨e, he, h1⟩
      · exact Or.inl h1
      · exact Or.inr ⟨e, List.mem_append_left _ he, h1⟩

/-! ### The map operations -/

theorem find_insert_self (m : MapType K) (l : Int) (r : LabelStatistics K)
    (h : m.find l = none) : (m.insert l r).find l = some r := by
  induction m with
  | nil => simp [MapType.insert, MapType.find]
  | cons e rest ih =>
    obtain ⟨k, r0⟩ := e
    simp only [MapType.find] at h
    by_cases hk : k = l
    · rw [if_pos hk] at h; cases h
    · rw [if_neg hk] at h
      simp only [MapType.insert]
      by_cases h1 : l < k
      · simp [h1, MapType.find]
      · have h2 : ¬ l = k := fun e => hk e.symm
        simp only [if_neg h1, if_neg h2, MapType.find, if_neg hk]
        exact ih h

theorem find_insert_ne (m : MapType K) (l l2 : Int) (r : LabelStatistics K) (h : l ≠ l2) :
    (m.insert l r).find l2 = m.find l2 := by
  induction m with
  | nil => simp [MapType.insert, MapType.find, h]
  | cons e rest ih =>
    obtain ⟨k, r0⟩ := e
    simp only [MapType.insert]
    by_cases h1 : l < k
    · simp only [if_pos h1]
      rw [MapType.find, if_neg h]
    · by_cases h2 : l = k
      · simp only [if_neg h1, if_pos h2]
      · simp only [if_neg h1, if_neg h2, MapType.find, ih]

theorem modify_cons (k : Int) (r0 : LabelStatistics K) (rest : MapType K) (l : Int)
    (g : LabelStatistics K → LabelStatistics K) :
    MapType.modify ((k, r0) :: rest) l g =
      (if k = l then (k, g r0) else (k, r0)) :: MapType.modify rest l g := rfl

theorem find_cons (k : Int) (r0 : LabelStatistics K) (rest : MapType K) (l : Int) :
    MapType.find ((k, r0) :: rest) l = if k = l then some r0 else MapType.find rest l := rfl

theorem find_modify (m : MapType K) (l l2 : Int) (g : LabelStatistics K → LabelStatistics K) :
    (m.modify l g).find l2 = if l = l2 then (m.find l2).map g else m.find l2 := by
  induction m with
  | nil => simp [MapType.modify, MapType.find]
  | cons e rest ih =>
    obtain ⟨k, r0⟩ := e
    rw [modify_cons]
    by_cases h1 : k = l
    · subst h1
      rw [if_pos rfl, find_cons, find_cons, ih]
      by_cases h2 : k = l2
      · simp only [if_pos h2, Option.map_some']
      · simp only [if_neg h2]
    · rw [if_neg h1, find_cons, find_cons, ih]
      by_cases h2 : k = l2
      · subst h2
        simp only [if_true]
        rw [if_neg (fun e => h1 e.symm)]
      · simp only [if_neg h2]

theorem keys_modify (m : MapType K) (l : Int) (g : LabelStatistics K → LabelStatistics K) :
    (m.modify l g).map Prod.fst = m.map Prod.fst := by
  unfold MapType.modify
  rw [List.map_map]
  apply List.map_congr_left
  intro e _
  simp only [Function.comp]
  split_ifs <;> rfl

theorem find_findOrCreate (T : Traits K) (cfg : Config K) (m : MapType K) (l l2 : Int) :
    (MapType.findOrCreate T cfg m l).find l2 =
      if l = l2 then some ((m.find l).getD (newLabelStatistics T cfg)) else m.find l2 := by
  unfold MapType.findOrCreate
  cases h : m.find l with
  | none =>
    simp only [Option.getD_none]
    by_cases h1 : l = l2
    · subst h1
      rw [if_pos rfl, find_insert_self m l _ h]
    · rw [if_neg h1, find_insert_ne m l l2 _ h1]
  | some r =>
    simp only [Option.getD_some]
    by_cases h1 : l = l2
    · subst h1
      rw [if_pos rfl, h]
    · rw [if_neg h1]

theorem find_updateTable (T : Traits K) (cfg : Config K) (m : MapType K) (e : Element K)
    (l2 : Int) :
    (updateTable T cfg m e).find l2 =
      if e.label = l2 then
        some (updateLabelStatistics T cfg ((m.find e.label).getD (newLabelStatistics T cfg))
          e.value e.index)
      else m.find l2 := by
  unfold updateTable
  rw [find_modify, find_findOrCreate]
  by_cases h : e.label = l2
  · simp only [if_pos h, Option.map_some']
  · simp only [if_neg h]

theorem find_mergeEntry (T : Traits K) (cfg : Config K) (g : MapType K)
    (entry : Int × LabelStatistics K) (l2 : Int) :
    (mergeEntry T cfg g entry).find l2 =
      if entry.1 = l2 then
        some (mergeLabelStatistics cfg ((g.find entry.1).getD (newLabelStatistics T cfg)) entry.2)
      else g.find l2 := by
  unfold mergeEntry
  rw [find_modify, find_findOrCreate]
  by_cases h : entry.1 = l2
  · simp only [if_pos h, Option.map_some']
  · simp only [if_neg h]

theorem mem_keys_insert (m : MapType K) (l k : Int) (r : LabelStatistics K) :
    k ∈ (m.insert l r).map Prod.fst ↔ k = l ∨ k ∈ m.map Prod.fst := by
  induction m with
  | nil => simp [MapType.insert]
  | cons e rest ih =>
    obtain ⟨k0, r0⟩ := e
    simp only [MapType.insert]
    by_cases h1 : l < k0
    · simp [h1]
    · by_cases h2 : l = k0
      · subst h2
        simp
      · simp only [if_neg h1, if_neg h2, List.map_cons, List.mem_cons, ih]
        tauto

theorem Ordered_insert (m : MapType K) (l : Int) (r : LabelStatistics K) (h : m.Ordered) :
    (m.insert l r).Ordered := by
  unfold MapType.Ordered at h ⊢
  induction m with
  | nil => simp [MapType.insert]
  | cons e rest ih =>
    obtain ⟨k0, r0⟩ := e
    simp only [List.map_cons, List.pairwise_cons] at h
    simp only [MapType.insert]
    by_cases h1 : l < k0
    · simp only [if_pos h1, List.map_cons, List.pairwise_cons]
      refine ⟨?_, h.1, h.2⟩
      intro x hx
      rcases List.mem_cons.mp hx with hx | hx
      · rw [hx]; exact h1
      · exact lt_trans h1 (h.1 x hx)
    · by_cases h2 : l = k0
      · simp only [if_neg h1, if_pos h2, List.map_cons, List.pairwise_cons]
        exact h
      · simp only [if_neg h1, if_neg h2, List.map_cons, List.pairwise_cons]
        refine ⟨?_, ih h.2⟩
        intro x hx
        rcases (mem_keys_insert rest l x r).mp hx with hx | hx
        · rw [hx]; omega
        · exact h.1 x hx

theorem find_eq_none_iff (m : MapType K) (l : Int) :
    m.find l = none ↔ l ∉ m.map Prod.fst := by
  induction m with
  | nil => simp [MapType.find]
  | cons e rest ih =>
    obtain ⟨k0, r0⟩ := e
    simp only [MapType.find, List.map_cons, List.mem_cons, not_or]
    by_cases h : k0 = l
    · simp [h]
    · simp only [if_neg h, ih]
      constructor
      · intro h2; exact ⟨fun e => h e.symm, h2⟩
      · intro h2; exact h2.2

theorem find_of_mem (m : MapType K) (h : m.Ordered) (l : Int) (r : LabelStatistics K)
    (hm : (l, r) ∈ m) : m.find l = some r := by
  unfold MapType.Ordered at h
  induction m with
  | nil => simp at hm
  | cons e rest ih =>
    obtain ⟨k0, r0⟩ := e
    simp only [List.map_cons, List.pairwise_cons] at h
    rcases List.mem_cons.mp hm with hm | hm
    · cases hm
      simp [MapType.find]
    · have hk : k0 < l := h.1 l (List.mem_map.mpr ⟨(l, r), hm, rfl⟩)
      simp only [MapType.find, if_neg (ne_of_lt hk)]
      exact ih h.2 hm

theorem mem_of_find (m : MapType K) (l : Int) (r : LabelStatistics K)
    (h : m.find l = some r) : (l, r) ∈ m := by
  induction m with
  | nil => simp [MapType.find] at h
  | cons e rest ih =>
    obtain ⟨k0, r0⟩ := e
    simp only [MapType.find] at h
    by_cases hk : k0 = l
    · rw [if_pos hk] at h
      cases h
      subst hk
      exact List.mem_cons_self _ _
    · rw [if_neg hk] at h
      exact List.mem_cons_of_mem _ (ih h)

theorem Ordered_findOrCreate (T : Traits K) (cfg : Config K) (m : MapType K) (l : Int)
    (h : m.Ordered) : (MapType.findOrCreate T cfg m l).Ordered := by
  unfold MapType.findOrCreate
  cases m.find l with
  | none => exact Ordered_insert m l _ h
  | some r => exact h

theorem Ordered_modify (m : MapType K) (l : Int) (g : LabelStatistics K → LabelStatistics K)
    (h : m.Ordered) : (m.modify l g).Ordered := by
  unfold MapType.Ordered at h ⊢
  rw [keys_modify]
  exact h

theorem Ordered_updateTable (T : Traits K) (cfg : Config K) (m : MapType K) (e : Element K)
    (h : m.Ordered) : (updateTable T cfg m e).Ordered :=
  Ordered_modify _ _ _ (Ordered_findOrCreate T cfg m _ h)

theorem Ordered_mergeEntry (T : Traits K) (cfg : Config K) (g : MapType K)
    (entry : Int × LabelStatistics K) (h : g.Ordered) : (mergeEntry T cfg g entry).Ordered :=
  Ordered_modify _ _ _ (Ordered_findOrCreate T cfg g _ h)

theorem Ordered_mergeTable (T : Traits K) (cfg : Config K) (table g : MapType K)
    (h : g.Ordered) : (mergeTable T cfg g table).Ordered := by
  unfold mergeTable
  induction table generalizing g with
  | nil => exact h
  | cons e rest ih => exact ih _ (Ordered_mergeEntry T cfg g e h)

theorem find_mergeTable (T : Traits K) (cfg : Config K) (table g : MapType K)
    (ht : table.Ordered) (l : Int) :
    (mergeTable T cfg g table).find l =
      match table.find l with
      | none => g.find l
      | some r =>
        some (mergeLabelStatistics cfg ((g.find l).getD (newLabelStatistics T cfg)) r) := by
  unfold mergeTable
  induction table generalizing g with
  | nil => simp [MapType.find]
  | cons e rest ih =>
    obtain ⟨k0, r0⟩ := e
    have ht2 := ht
    unfold MapType.Ordered at ht2
    simp only [List.map_cons, List.pairwise_cons] at ht2
    rw [List.foldl_cons, ih _ ht2.2]
    by_cases hk : k0 = l
    · subst hk
      have hnone : MapType.find rest k0 = none := by
        rw [find_eq_none_iff]
        intro hmem
        exact lt_irrefl _ (ht2.1 k0 hmem)
      simp only [hnone, MapType.find, if_true]
      rw [find_mergeEntry]
      simp
    · simp only [MapType.find, if_neg hk]
      rw [find_mergeEntry]
      simp only [if_neg hk]

/-! ### The scanning phase -/

theorem Before_tables (f : StreamingLabelStatisticsImageFilter K) :
    (BeforeStreamedGenerateData f).m_LabelStatisticsPerThread =
      List.replicate f.numberOfThreads [] := by
  show (resizeTables f.m_LabelStatisticsPerThread f.numberOfThreads).map (fun _ => []) = _
  rw [List.eq_replicate_iff]
  constructor
  · simp only [resizeTables, List.length_map, List.length_append, List.length_take,
      List.length_replicate]
    omega
  · intro b hb
    obtain ⟨_, _, rfl⟩ := List.mem_map.mp hb
    rfl

theorem scan_concat (T : Traits K) (f : StreamingLabelStatisticsImageFilter K)
    (calls : List (Nat × Element K)) (c : Nat × Element K) :
    scan T f (calls ++ [c]) = processElement T (scan T f calls) c.1 c.2 := by
  unfold scan
  rw [List.foldl_concat]

theorem scan_frame (T : Traits K) (f : StreamingLabelStatisticsImageFilter K)
    (calls : List (Nat × Element K)) :
    (scan T f calls).toConfig = f.toConfig ∧
    (scan T f calls).numberOfThreads = f.numberOfThreads ∧
    (scan T f calls).m_LabelStatistics = f.m_LabelStatistics ∧
    (scan T f calls).m_ValidLabelValues = f.m_ValidLabelValues ∧
    (scan T f calls).m_LabelStatisticsPerThread.length = f.m_LabelStatisticsPerThread.length := by
  induction calls using List.reverseRecOn with
  | nil => exact ⟨rfl, rfl, rfl, rfl, rfl⟩
  | append_singleton calls c ih =>
    rw [scan_concat]
    obtain ⟨h1, h2, h3, h4, h5⟩ := ih
    refine ⟨h1, h2, h3, h4, ?_⟩
    show (List.set _ _ _).length = _
    rw [List.length_set, h5]

theorem elementsOfThread_concat (calls : List (Nat × Element K)) (c : Nat × Element K)
    (t : Nat) (l : Int) :
    elementsOfThread (calls ++ [c]) t l =
      elementsOfThread calls t l ++ (if c.1 = t ∧ c.2.label = l then [c.2] else []) := by
  unfold elementsOfThread
  rw [List.filter_append, List.map_append]
  congr 1
  by_cases h : c.1 = t ∧ c.2.label = l
  · simp [h]
  · simp only [if_neg h]
    simp [List.filter_cons, h]

theorem getD_nil_of_length_le (tables : List (MapType K)) (t : Nat)
    (h : tables.length ≤ t) : tables.getD t [] = [] :=
  getD_of_length_le tables t [] h

theorem scan_tables (T : Traits K) (f : StreamingLabelStatisticsImageFilter K)
    (calls : List (Nat × Element K))
    (h0 : f.m_LabelStatisticsPerThread = List.replicate f.numberOfThreads [])
    (t : Nat) (ht : t < f.numberOfThreads) :
    ((scan T f calls).m_LabelStatisticsPerThread.getD t []).Ordered ∧
    ∀ l, ((scan T f calls).m_LabelStatisticsPerThread.getD t []).find l =
      if elementsOfThread calls t l = [] then none
      else some (aggregate T f.toConfig (elementsOfThread calls t l)) := by
  induction calls using List.reverseRecOn with
  | nil =>
    have e : (scan T f []).m_LabelStatisticsPerThread.getD t [] = [] := by
      show f.m_LabelStatisticsPerThread.getD t [] = []
      rw [h0, List.getD_eq_getElem?_getD, List.getElem?_replicate]
      simp [ht]
    rw [e]
    refine ⟨List.Pairwise.nil, fun l => ?_⟩
    simp [MapType.find, elementsOfThread]
  | append_singleton calls c ih =>
    obtain ⟨ih1, ih2⟩ := ih
    obtain ⟨hc, _, _, _, hlen⟩ := scan_frame T f calls
    have hlen2 : (scan T f calls).m_LabelStatisticsPerThread.length = f.numberOfThreads := by
      rw [hlen, h0, List.length_replicate]
    rw [scan_concat]
    have e : (processElement T (scan T f calls) c.1 c.2).m_LabelStatisticsPerThread.getD t [] =
        if c.1 = t then
          updateTable T f.toConfig ((scan T f calls).m_LabelStatisticsPerThread.getD t []) c.2
        else (scan T f calls).m_LabelStatisticsPerThread.getD t [] := by
      show (List.set _ _ _).getD t [] = _
      rw [getD_set_ite, hc]
      by_cases h : c.1 = t
      · subst h
        rw [if_pos ⟨rfl, by omega⟩, if_pos rfl]
      · rw [if_neg (fun h2 => h h2.1), if_neg h]
    rw [e]
    by_cases h : c.1 = t
    · simp only [if_pos h]
      refine ⟨Ordered_updateTable T _ _ _ ih1, fun l => ?_⟩
      rw [find_updateTable, elementsOfThread_concat]
      by_cases hl : c.2.label = l
      · subst hl
        simp only [if_true, h, and_self]
        rw [if_neg (by simp), aggregate_concat, ih2]
        by_cases hn : elementsOfThread calls t c.2.label = []
        · rw [if_pos hn, hn]; rfl
        · rw [if_neg hn]; rfl
      · have e2 : (if c.1 = t ∧ c.2.label = l then [c.2] else []) = [] :=
          if_neg (fun h2 => hl h2.2)
        rw [if_neg hl, e2, List.append_nil]
        exact ih2 l
    · simp only [if_neg h]
      refine ⟨ih1, fun l => ?_⟩
      have e2 : (if c.1 = t ∧ c.2.label = l then [c.2] else []) = [] :=
        if_neg (fun h2 => h h2.1)
      rw [elementsOfThread_concat, e2, List.append_nil]
      exact ih2 l

/-! ### The merge -/

theorem filter_thread_split (calls : List (Nat × Element K)) (l : Int) (n : Nat) :
    (calls.filter (fun c => decide (c.1 < n + 1 ∧ c.2.label = l))).Perm
      (calls.filter (fun c => decide (c.1 < n ∧ c.2.label = l)) ++
        calls.filter (fun c => decide (c.1 = n ∧ c.2.label = l))) := by
  induction calls with
  | nil => simp
  | cons c rest ihc =>
    rw [List.filter_cons, List.filter_cons, List.filter_cons]
    by_cases hl : c.2.label = l
    · by_cases h1 : c.1 < n
      · have d1 : decide (c.1 < n + 1 ∧ c.2.label = l) = true :=
          decide_eq_true ⟨by omega, hl⟩
        have d2 : decide (c.1 < n ∧ c.2.label = l) = true := decide_eq_true ⟨h1, hl⟩
        have d3 : decide (c.1 = n ∧ c.2.label = l) = false :=
          decide_eq_false (fun h => by omega)
        simp only [d1, d2, d3, if_true, Bool.false_eq_true, if_false, List.cons_append]
        exact List.Perm.cons _ ihc
      · by_cases h2 : c.1 = n
        · have d1 : decide (c.1 < n + 1 ∧ c.2.label = l) = true :=
            decide_eq_true ⟨by omega, hl⟩
          have d2 : decide (c.1 < n ∧ c.2.label = l) = false :=
            decide_eq_false (fun h => h1 h.1)
          have d3 : decide (c.1 = n ∧ c.2.label = l) = true := decide_eq_true ⟨h2, hl⟩
          simp only [d1, d2, d3, if_true, Bool.false_eq_true, if_false]
          exact (List.Perm.cons _ ihc).trans List.perm_middle.symm
        · have d1 : decide (c.1 < n + 1 ∧ c.2.label = l) = false :=
            decide_eq_false (fun h => by omega)
          have d2 : decide (c.1 < n ∧ c.2.label = l) = false :=
            decide_eq_false (fun h => h1 h.1)
          have d3 : decide (c.1 = n ∧ c.2.label = l) = false :=
            decide_eq_false (fun h => h2 h.1)
          simp only [d1, d2, d3, Bool.false_eq_true, if_false]
          exact ihc
    · have d1 : decide (c.1 < n + 1 ∧ c.2.label = l) = false :=
        decide_eq_false (fun h => hl h.2)
      have d2 : decide (c.1 < n ∧ c.2.label = l) = false :=
        decide_eq_false (fun h => hl h.2)
      have d3 : decide (c.1 = n ∧ c.2.label = l) = false :=
        decide_eq_false (fun h => hl h.2)
      simp only [d1, d2, d3, Bool.false_eq_true, if_false]
      exact ihc

theorem elementsBelow_perm (calls : List (Nat × Element K)) (l : Int) (n : Nat) :
    (elementsBelow calls l n).Perm
      ((calls.filter (fun c => decide (c.1 < n ∧ c.2.label = l))).map Prod.snd) := by
  induction n with
  | zero => simp [elementsBelow]
  | succ n ih =>
    show (elementsBelow calls l n ++ elementsOfThread calls n l).Perm _
    unfold elementsOfThread
    refine (List.Perm.append_right _ ih).trans ?_
    rw [← List.map_append]
    exact ((filter_thread_split calls l n).map Prod.snd).symm

theorem elementsBelow_perm_elementsOf (calls : List (Nat × Element K)) (l : Int) (n : Nat)
    (h : ∀ c ∈ calls, c.1 < n) : (elementsBelow calls l n).Perm (elementsOf calls l) := by
  have e : calls.filter (fun c => decide (c.1 < n ∧ c.2.label = l)) =
      calls.filter (fun c => decide (c.2.label = l)) := by
    apply List.filter_congr
    intro c hc
    simp [h c hc]
  have := elementsBelow_perm calls l n
  rw [e] at this
  exact this

theorem find_mergeThreads_upto (T : Traits K) (f : StreamingLabelStatisticsImageFilter K)
    (calls : List (Nat × Element K))
    (h0 : f.m_LabelStatisticsPerThread = List.replicate f.numberOfThreads [])
    (k : Nat) (hk : k ≤ f.numberOfThreads) :
    ((List.range k).foldl
        (fun g i => mergeTable T f.toConfig g
          ((scan T f calls).m_LabelStatisticsPerThread.getD i [])) []).Ordered ∧
    ∀ l, ((List.range k).foldl
        (fun g i => mergeTable T f.toConfig g
          ((scan T f calls).m_LabelStatisticsPerThread.getD i [])) []).find l =
      if elementsBelow calls l k = [] then none
      else some (aggregate T f.toConfig (elementsBelow calls l k)) := by
  induction k with
  | zero =>
    refine ⟨List.Pairwise.nil, fun l => ?_⟩
    simp [MapType.find, elementsBelow]
  | succ k ih =>
    obtain ⟨ih1, ih2⟩ := ih (by omega)
    obtain ⟨ht1, ht2⟩ := scan_tables T f calls h0 k (by omega)
    rw [List.range_succ, List.foldl_concat]
    refine ⟨Ordered_mergeTable T _ _ _ ih1, fun l => ?_⟩
    rw [find_mergeTable T _ _ _ ht1, ht2 l, ih2 l]
    show _ = if elementsBelow calls l k ++ elementsOfThread calls k l = [] then none
      else some (aggregate T f.toConfig (elementsBelow calls l k ++ elementsOfThread calls k l))
    have hnew : ((if elementsBelow calls l k = [] then none
        else some (aggregate T f.toConfig (elementsBelow calls l k))) :
          Option (LabelStatistics K)).getD (newLabelStatistics T f.toConfig) =
        aggregate T f.toConfig (elementsBelow calls l k) := by
      by_cases hn : elementsBelow calls l k = []
      · rw [if_pos hn, hn]; rfl
      · rw [if_neg hn]; rfl
    by_cases hy : elementsOfThread calls k l = []
    · simp only [if_pos hy]
      rw [hy, List.append_nil]
    · simp only [if_neg hy]
      rw [hnew, merge_aggregate, if_neg (by simp [hy])]

/-! ### A full run -/

theorem find_mapValues (m : MapType K) (g : LabelStatistics K → LabelStatistics K) (l : Int) :
    MapType.find (m.map (fun e => (e.1, g e.2))) l = (m.find l).map g := by
  induction m with
  | nil => rfl
  | cons e rest ih =>
    obtain ⟨k, r0⟩ := e
    rw [List.map_cons, find_cons, find_cons, ih]
    by_cases h : k = l
    · simp only [if_pos h, Option.map_some']
    · simp only [if_neg h]

theorem keys_mapValues (m : MapType K) (g : LabelStatistics K → LabelStatistics K) :
    (m.map (fun e => (e.1, g e.2))).map Prod.fst = m.map Prod.fst := by
  rw [List.map_map]
  rfl

theorem mergeThreads_run (T : Traits K) (f : StreamingLabelStatisticsImageFilter K)
    (calls : List (Nat × Element K)) :
    mergeThreads T (scan T (BeforeStreamedGenerateData f) calls) =
      (List.range f.numberOfThreads).foldl
        (fun g i => mergeTable T (BeforeStreamedGenerateData f).toConfig g
          ((scan T (BeforeStreamedGenerateData f) calls).m_LabelStatisticsPerThread.getD i []))
        [] := by
  obtain ⟨h1, h2, h3, -, -⟩ := scan_frame T (BeforeStreamedGenerateData f) calls
  unfold mergeThreads
  rw [h1, h2, h3]
  rfl

theorem run_ordered (T : Traits K) (f : StreamingLabelStatisticsImageFilter K)
    (calls : List (Nat × Element K)) : (run T f calls).m_LabelStatistics.Ordered := by
  show MapType.Ordered
    ((mergeThreads T (scan T (BeforeStreamedGenerateData f) calls)).map
      (fun e => (e.1, computeStatistics T e.2)))
  unfold MapType.Ordered
  rw [keys_mapValues, mergeThreads_run]
  exact (find_mergeThreads_upto T (BeforeStreamedGenerateData f) calls (Before_tables f)
    f.numberOfThreads (le_refl _)).1

theorem find_run (T : Traits K) (f : StreamingLabelStatisticsImageFilter K)
    (calls : List (Nat × Element K)) (hv : ValidCalls f calls) (l : Int) :
    (run T f calls).m_LabelStatistics.find l =
      if elementsOf calls l = [] then none
      else some (computeStatistics T (aggregate T f.toConfig (elementsOf calls l))) := by
  show MapType.find
    ((mergeThreads T (scan T (BeforeStreamedGenerateData f) calls)).map
      (fun e => (e.1, computeStatistics T e.2))) l = _
  rw [find_mapValues, mergeThreads_run,
    (find_mergeThreads_upto T (BeforeStreamedGenerateData f) calls (Before_tables f)
      f.numberOfThreads (le_refl _)).2 l]
  have hp := elementsBelow_perm_elementsOf calls l f.numberOfThreads hv
  have hc : (BeforeStreamedGenerateData f).toConfig = f.toConfig := rfl
  by_cases hn : elementsOf calls l = []
  · have hb : elementsBelow calls l f.numberOfThreads = [] := by
      rw [hn] at hp
      exact List.Perm.eq_nil hp
    rw [if_pos hn, if_pos hb]
    rfl
  · have hb : ¬ elementsBelow calls l f.numberOfThreads = [] := by
      intro hb
      rw [hb] at hp
      exact hn (List.Perm.eq_nil hp.symm)
    rw [if_neg hn, if_neg hb, hc, aggregate_perm T f.toConfig _ _ hp]
    rfl

theorem elementsOf_eq_nil_iff (calls : List (Nat × Element K)) (l : Int) :
    elementsOf calls l = [] ↔ ¬ ∃ c ∈ calls, c.2.label = l := by
  unfold elementsOf
  rw [List.map_eq_nil_iff, List.filter_eq_nil_iff]
  simp

theorem mem_elementsOf (calls : List (Nat × Element K)) (l : Int) (e : Element K) :
    e ∈ elementsOf calls l ↔ ∃ c ∈ calls, c.2.label = l ∧ c.2 = e := by
  unfold elementsOf
  simp only [List.mem_map, List.mem_filter, decide_eq_true_eq]
  constructor
  · rintro ⟨c, ⟨hc, hl⟩, rfl⟩
    exact ⟨c, hc, hl, rfl⟩
  · rintro ⟨c, hc, hl, rfl⟩
    exact ⟨c, ⟨hc, hl⟩, rfl⟩

theorem elementsOf_length (calls : List (Nat × Element K)) (l : Int) :
    (elementsOf calls l).length = calls.countP (fun c => decide (c.2.label = l)) := by
  unfold elementsOf
  rw [List.length_map, List.countP_eq_length_filter]

theorem ordered_ext (m₁ m₂ : MapType K) (h₁ : m₁.Ordered) (h₂ : m₂.Ordered)
    (h : ∀ l, m₁.find l = m₂.find l) : m₁ = m₂ := by
  induction m₁ generalizing m₂ with
  | nil =>
    cases m₂ with
    | nil => rfl
    | cons e rest =>
      obtain ⟨k, r⟩ := e
      have := h k
      simp [MapType.find] at this
  | cons e₁ t₁ ih =>
    obtain ⟨k₁, r₁⟩ := e₁
    cases m₂ with
    | nil =>
      have := h k₁
      simp [MapType.find] at this
    | cons e₂ t₂ =>
      obtain ⟨k₂, r₂⟩ := e₂
      have o₁ := h₁
      have o₂ := h₂
      unfold MapType.Ordered at o₁ o₂
      simp only [List.map_cons, List.pairwise_cons] at o₁ o₂
      have hk : k₁ = k₂ := by
        have a1 := h k₁
        have a2 := h k₂
        rw [find_cons, find_cons, if_pos rfl] at a1
        rw [find_cons, find_cons, if_pos rfl] at a2
        by_contra hne
        rw [if_neg (fun e => hne e.symm)] at a1
        rw [if_neg hne] at a2
        have b1 : k₁ ∈ t₂.map Prod.fst := by
          by_contra hc
          rw [(find_eq_none_iff t₂ k₁).mpr hc] at a1
          cases a1
        have b2 : k₂ ∈ t₁.map Prod.fst := by
          by_contra hc
          rw [(find_eq_none_iff t₁ k₂).mpr hc] at a2
          cases a2
        have c1 := o₂.1 k₁ b1
        have c2 := o₁.1 k₂ b2
        omega
      subst hk
      have hr : r₁ = r₂ := by
        have a1 := h k₁
        rw [find_cons, find_cons, if_pos rfl, if_pos rfl] at a1
        exact Option.some.inj a1
      subst hr
      congr 1
      apply ih t₂ o₁.2 o₂.2
      intro l
      by_cases hl : k₁ = l
      · subst hl
        rw [(find_eq_none_iff t₁ k₁).mpr (fun hm => lt_irrefl _ (o₁.1 k₁ hm)),
          (find_eq_none_iff t₂ k₁).mpr (fun hm => lt_irrefl _ (o₂.1 k₁ hm))]
      · have a := h l
        rw [find_cons, find_cons, if_neg hl, if_neg hl] at a
        exact a

/-! ### Moments -/

theorem sum_sq_dev (xs : List K) (m : K) :
    (xs.map (fun x => (x - m) * (x - m))).sum =
      (xs.map (fun x => x * x)).sum - 2 * m * xs.sum + (xs.length : K) * (m * m) := by
  induction xs with
  | nil => simp
  | cons x xs ih =>
    simp only [List.map_cons, List.sum_cons, List.length_cons, Nat.cast_add, Nat.cast_one, ih]
    ring

theorem sum_sq_dev_mean (xs : List K) (hn : xs ≠ []) :
    (xs.map (fun x => (x - xs.sum / (xs.length : K)) * (x - xs.sum / (xs.length : K)))).sum =
      (xs.map (fun x => x * x)).sum - xs.sum * xs.sum / (xs.length : K) := by
  have hpos : (xs.length : K) ≠ 0 := by
    have : 0 < xs.length := List.length_pos.mpr hn
    exact_mod_cast (Nat.pos_iff_ne_zero.mp this)
  rw [sum_sq_dev]
  field_simp
  ring

theorem sum_sq_dev_nonneg (xs : List K) (m : K) :
    0 ≤ (xs.map (fun x => (x - m) * (x - m))).sum := by
  apply List.sum_nonneg
  intro y hy
  obtain ⟨x, _, rfl⟩ := List.mem_map.mp hy
  exact mul_self_nonneg _

theorem raw_moment_variance_nonneg (xs : List K) (hn : 1 < xs.length) :
    0 ≤ ((xs.map (fun x => x * x)).sum - xs.sum * xs.sum / (xs.length : K)) /
      ((xs.length : K) - 1) := by
  have hne : xs ≠ [] := by
    intro h
    rw [h] at hn
    simp at hn
  rw [← sum_sq_dev_mean xs hne]
  apply div_nonneg (sum_sq_dev_nonneg xs _)
  have : (1 : K) < (xs.length : K) := by exact_mod_cast hn
  linarith

/-! ### Accessors after a run -/

theorem elementsOf_eq_filter (calls : List (Nat × Element K)) (l : Int) :
    elementsOf calls l = (calls.map Prod.snd).filter (fun e => decide (e.label = l)) := by
  unfold elementsOf
  rw [List.filter_map]
  rfl

theorem run_record (T : Traits K) (f : StreamingLabelStatisticsImageFilter K)
    (calls : List (Nat × Element K)) (hv : ValidCalls f calls) (l : Int)
    (hs : ∃ c ∈ calls, c.2.label = l) :
    (run T f calls).m_LabelStatistics.find l =
      some (computeStatistics T (aggregate T f.toConfig (elementsOf calls l))) := by
  rw [find_run T f calls hv l, if_neg]
  rw [elementsOf_eq_nil_iff]
  exact fun h => h hs

theorem run_absent (T : Traits K) (f : StreamingLabelStatisticsImageFilter K)
    (calls : List (Nat × Element K)) (hv : ValidCalls f calls) (l : Int)
    (hs : ¬ ∃ c ∈ calls, c.2.label = l) :
    (run T f calls).m_LabelStatistics.find l = none := by
  rw [find_run T f calls hv l, if_pos]
  rw [elementsOf_eq_nil_iff]
  exact hs

theorem GetCount_run (T : Traits K) (f : StreamingLabelStatisticsImageFilter K)
    (calls : List (Nat × Element K)) (hv : ValidCalls f calls) (l : Int) :
    GetCount (run T f calls) l = (elementsOf calls l).length := by
  unfold GetCount
  rw [find_run T f calls hv l]
  by_cases hn : elementsOf calls l = []
  · rw [if_pos hn, hn]; rfl
  · rw [if_neg hn]
    exact aggregate_count T f.toConfig _

theorem GetSum_run (T : Traits K) (f : StreamingLabelStatisticsImageFilter K)
    (calls : List (Nat × Element K)) (hv : ValidCalls f calls) (l : Int) :
    GetSum (run T f calls) l = ((elementsOf calls l).map (fun e => e.value)).sum := by
  unfold GetSum
  rw [find_run T f calls hv l]
  by_cases hn : elementsOf calls l = []
  · rw [if_pos hn, hn]; rfl
  · rw [if_neg hn]
    exact aggregate_sum T f.toConfig _

theorem GetMean_run (T : Traits K) (f : StreamingLabelStatisticsImageFilter K)
    (calls : List (Nat × Element K)) (hv : ValidCalls f calls) (l : Int)
    (hs : ∃ c ∈ calls, c.2.label = l) :
    GetMean (run T f calls) l =
      ((elementsOf calls l).map (fun e => e.value)).sum / ((elementsOf calls l).length : K) := by
  unfold GetMean
  rw [run_record T f calls hv l hs]
  show (aggregate T f.toConfig (elementsOf calls l)).m_Sum /
    ((aggregate T f.toConfig (elementsOf calls l)).m_Count : K) = _
  rw [aggregate_sum, aggregate_count]

theorem GetVariance_run (T : Traits K) (f : StreamingLabelStatisticsImageFilter K)
    (calls : List (Nat × Element K)) (hv : ValidCalls f calls) (l : Int) :
    GetVariance (run T f calls) l =
      if 1 < (elementsOf calls l).length then
        (((elementsOf calls l).map (fun e => e.value * e.value)).sum -
          ((elementsOf calls l).map (fun e => e.value)).sum *
            ((elementsOf calls l).map (fun e => e.value)).sum /
            ((elementsOf calls l).length : K)) / (((elementsOf calls l).length : K) - 1)
      else 0 := by
  unfold GetVariance
  rw [find_run T f calls hv l]
  by_cases hn : elementsOf calls l = []
  · rw [if_pos hn, hn]
    simp
  · rw [if_neg hn]
    show (if (aggregate T f.toConfig (elementsOf calls l)).m_Count > 1 then
        ((aggregate T f.toConfig (elementsOf calls l)).m_SumOfSquares -
          (aggregate T f.toConfig (elementsOf calls l)).m_Sum *
            (aggregate T f.toConfig (elementsOf calls l)).m_Sum /
            ((aggregate T f.toConfig (elementsOf calls l)).m_Count : K)) /
          (((aggregate T f.toConfig (elementsOf calls l)).m_Count : K) - 1)
      else 0) = _
    rw [aggregate_sum, aggregate_sumOfSquares, aggregate_count]

theorem map_value_sq (es : List (Element K)) :
    es.map (fun e => e.value * e.value) = (es.map (fun e => e.value)).map (fun x => x * x) := by
  rw [List.map_map]
  rfl

theorem sum_count_labels (calls : List (Nat × Element K)) (ks : List Int) (hk : ks.Nodup)
    (hmem : ∀ c ∈ calls, c.2.label ∈ ks) :
    (ks.map (fun l => calls.countP (fun c => decide (c.2.label = l)))).sum = calls.length := by
  induction calls with
  | nil => simp
  | cons c rest ih =>
    have h1 : ∀ l, (c :: rest).countP (fun c => decide (c.2.label = l)) =
        rest.countP (fun c => decide (c.2.label = l)) + if c.2.label = l then 1 else 0 := by
      intro l
      rw [List.countP_cons]
      simp
    simp only [h1, List.sum_map_add, List.length_cons]
    rw [ih (fun c hc => hmem c (List.mem_cons_of_mem _ hc))]
    congr 1
    have hc := hmem c (List.mem_cons_self _ _)
    clear ih h1 hmem
    induction ks with
    | nil => simp at hc
    | cons k ks ihk =>
      rw [List.nodup_cons] at hk
      rw [List.map_cons, List.sum_cons]
      by_cases hkc : c.2.label = k
      · rw [if_pos hkc]
        have hz : (ks.map (fun l => if c.2.label = l then 1 else 0)).sum = 0 := by
          apply List.sum_eq_zero
          intro x hx
          obtain ⟨l, hl, rfl⟩ := List.mem_map.mp hx
          rw [if_neg]
          intro h2
          rw [hkc] at h2
          rw [h2] at hk
          exact hk.1 hl
        rw [hz]
      · rw [if_neg hkc, zero_add]
        apply ihk hk.2
        rcases List.mem_cons.mp hc with h | h
        · exact absurd h hkc
        · exact h

theorem Ordered_nodup (m : MapType K) (h : m.Ordered) : (m.map Prod.fst).Nodup := by
  unfold MapType.Ordered at h
  exact List.Pairwise.imp (fun hab => ne_of_lt hab) h

theorem mem_keys_run (T : Traits K) (f : StreamingLabelStatisticsImageFilter K)
    (calls : List (Nat × Element K)) (hv : ValidCalls f calls) (l : Int) :
    l ∈ (run T f calls).m_LabelStatistics.map Prod.fst ↔ ∃ c ∈ calls, c.2.label = l := by
  by_cases hs : ∃ c ∈ calls, c.2.label = l
  · simp only [hs, iff_true]
    by_contra hc
    have := (find_eq_none_iff _ l).mpr hc
    rw [run_record T f calls hv l hs] at this
    cases this
  · simp only [hs, iff_false]
    exact (find_eq_none_iff _ l).mp (run_absent T f calls hv l hs)

/-! ### Histograms of the records -/

theorem map_getD_range (l : List Nat) :
    (List.range l.length).map (fun b => l.getD b 0) = l := by
  apply List.ext_getElem
  · simp
  · intro n h₁ h₂
    rw [List.getElem_map, List.getElem_range, List.getD_eq_getElem _ _ h₂]

theorem sum_bins (h : Histogram K) (n : Nat) (hn : h.frequency.length = n) :
    ((List.range n).map (fun bin => h.GetFrequency bin)).sum = h.frequency.sum := by
  subst hn
  unfold Histogram.GetFrequency
  rw [map_getD_range]

theorem aggregate_histogram (T : Traits K) (cfg : Config K) (es : List (Element K))
    (hu : cfg.m_UseHistograms = true) (hb : 0 < cfg.m_NumBins) :
    ∃ h, (aggregate T cfg es).m_Histogram = some h ∧ h.size = cfg.m_NumBins ∧
      h.frequency.length = cfg.m_NumBins ∧ h.frequency.sum = es.length := by
  induction es using List.reverseRecOn with
  | nil =>
    refine ⟨Histogram.create cfg.m_NumBins cfg.m_LowerBound cfg.m_UpperBound, ?_, rfl, ?_, ?_⟩
    · show (newLabelStatistics T cfg).m_Histogram = _
      rw [newLabelStatistics_histogram, if_pos hu]
    · simp [Histogram.create]
    · simp [Histogram.create]
  | append_singleton es e ih =>
    obtain ⟨h, e1, e2, e3, e4⟩ := ih
    refine ⟨h.IncreaseFrequencyOfMeasurement e.value 1, ?_, e2, ?_, ?_⟩
    · rw [aggregate_concat]
      show (if cfg.m_UseHistograms = true then _ else _) = _
      rw [if_pos hu, e1]
      rfl
    · show (h.IncreaseFrequency _ _).frequency.length = _
      rw [IncreaseFrequency_length, e3]
    · show (h.frequency.set (h.binOf e.value) (h.frequency.getD (h.binOf e.value) 0 + 1)).sum = _
      have hlt : h.binOf e.value < h.frequency.length := by
        rw [e3, ← e2]
        exact binOf_lt h e.value (by omega)
      rw [sum_set_add _ _ _ hlt, e4, List.length_append]
      rfl

/-! ### The records of the thread tables -/

theorem mem_elementsOfThread (calls : List (Nat × Element K)) (t : Nat) (l : Int)
    (x : Element K) (hx : x ∈ elementsOfThread calls t l) :
    ∃ c ∈ calls, c.2 = x ∧ c.2.label = l := by
  unfold elementsOfThread at hx
  obtain ⟨c, hc, rfl⟩ := List.mem_map.mp hx
  rw [List.mem_filter] at hc
  exact ⟨c, hc.1, rfl, (of_decide_eq_true hc.2).2⟩

theorem thread_record (T : Traits K) (f : StreamingLabelStatisticsImageFilter K)
    (calls : List (Nat × Element K))
    (table : MapType K)
    (ht : table ∈ (scan T (BeforeStreamedGenerateData f) calls).m_LabelStatisticsPerThread)
    (e : Int × LabelStatistics K) (he : e ∈ table) :
    ∃ es : List (Element K), es ≠ [] ∧ e.2 = aggregate T f.toConfig es ∧
      ∀ x ∈ es, ∃ c ∈ calls, c.2 = x ∧ c.2.label = e.1 := by
  obtain ⟨t, hlt, rfl⟩ := List.getElem_of_mem ht
  have hlen : (scan T (BeforeStreamedGenerateData f) calls).m_LabelStatisticsPerThread.length
      = f.numberOfThreads := by
    rw [(scan_frame T (BeforeStreamedGenerateData f) calls).2.2.2.2, Before_tables,
      List.length_replicate]
  have htn : t < (BeforeStreamedGenerateData f).numberOfThreads := by
    show t < f.numberOfThreads
    omega
  obtain ⟨ho, hf⟩ := scan_tables T (BeforeStreamedGenerateData f) calls (Before_tables f) t htn
  rw [List.getD_eq_getElem _ _ hlt] at ho hf
  have hfind := find_of_mem _ ho e.1 e.2 he
  rw [hf e.1] at hfind
  by_cases hn : elementsOfThread calls t e.1 = []
  · rw [if_pos hn] at hfind
    cases hfind
  · rw [if_neg hn] at hfind
    refine ⟨elementsOfThread calls t e.1, hn, (Option.some.inj hfind).symm, ?_⟩
    intro x hx
    exact mem_elementsOfThread calls t e.1 x hx

theorem run_record_of_find (T : Traits K) (f : StreamingLabelStatisticsImageFilter K)
    (calls : List (Nat × Element K)) (hv : ValidCalls f calls) (l : Int)
    (r : LabelStatistics K) (hr : (run T f calls).m_LabelStatistics.find l = some r) :
    (∃ c ∈ calls, c.2.label = l) ∧
      r = computeStatistics T (aggregate T f.toConfig (elementsOf calls l)) := by
  by_cases hs : ∃ c ∈ calls, c.2.label = l
  · rw [run_record T f calls hv l hs] at hr
    exact ⟨hs, (Option.some.inj hr).symm⟩
  · rw [run_absent T f calls hv l hs] at hr
    cases hr

/-! ### Bounding boxes of the records -/

theorem ThreadedStreamedGenerateData_eq_scan (T : Traits K)
    (f : StreamingLabelStatisticsImageFilter K) (inputRegion : List (Element K))
    (threadId : Nat) :
    ThreadedStreamedGenerateData T f inputRegion threadId =
      scan T f (inputRegion.map (fun e => (threadId, e))) := by
  unfold ThreadedStreamedGenerateData scan
  rw [List.foldl_map]

/-! ### The median loop -/

theorem prefix_succ (hist : Histogram K) (b : Nat) :
    ((List.range (b + 1)).map (fun bin => hist.GetFrequency bin)).sum =
      ((List.range b).map (fun bin => hist.GetFrequency bin)).sum + hist.GetFrequency b := by
  rw [List.range_succ, List.map_append, List.sum_append]
  simp

theorem cast_le_half_iff (t c : Nat) :
    ((t : K) ≤ ((c / 2 : Nat) : K)) ↔ ¬ ((c : K) / 2 < (t : K)) := by
  rw [Nat.cast_le, div_lt_iff₀ (by norm_num : (0 : K) < 2), not_lt]
  have h : ((t : K) * 2 ≤ (c : K)) ↔ t * 2 ≤ c := by exact_mod_cast Iff.rfl
  rw [h]
  omega

theorem medianLoop_spec (count numBins : Nat) (hist : Histogram K) (d : Nat) :
    ∀ bin, numBins - bin = d → bin ≤ numBins →
      bin ≤ medianLoop count numBins hist
        ((((List.range bin).map (fun b => hist.GetFrequency b)).sum : Nat) : K) bin ∧
      medianLoop count numBins hist
        ((((List.range bin).map (fun b => hist.GetFrequency b)).sum : Nat) : K) bin ≤ numBins ∧
      (∀ j, bin ≤ j →
        j < medianLoop count numBins hist
          ((((List.range bin).map (fun b => hist.GetFrequency b)).sum : Nat) : K) bin →
        ((List.range j).map (fun b => hist.GetFrequency b)).sum ≤ count / 2) ∧
      (medianLoop count numBins hist
          ((((List.range bin).map (fun b => hist.GetFrequency b)).sum : Nat) : K) bin < numBins →
        ¬ ((List.range (medianLoop count numBins hist
          ((((List.range bin).map (fun b => hist.GetFrequency b)).sum : Nat) : K) bin)).map
            (fun b => hist.GetFrequency b)).sum ≤ count / 2) := by
  induction d with
  | zero =>
    intro bin hd hle
    have hb : ¬ bin < numBins := by omega
    rw [medianLoop, if_neg (fun h => hb h.2)]
    exact ⟨le_refl _, hle, fun j h1 h2 => absurd h2 (by omega), fun h => absurd h hb⟩
  | succ d ih =>
    intro bin hd hle
    rw [medianLoop]
    by_cases hc : ((((List.range bin).map (fun b => hist.GetFrequency b)).sum : Nat) : K)
        ≤ ((count / 2 : Nat) : K) ∧ bin < numBins
    · rw [if_pos hc]
      have hcast : ((((List.range bin).map (fun b => hist.GetFrequency b)).sum : Nat) : K) +
          (hist.GetFrequency bin : K) =
          ((((List.range (bin + 1)).map (fun b => hist.GetFrequency b)).sum : Nat) : K) := by
        rw [prefix_succ, Nat.cast_add]
      rw [hcast]
      obtain ⟨h1, h2, h3, h4⟩ := ih (bin + 1) (by omega) (by omega)
      refine ⟨by omega, h2, ?_, h4⟩
      intro j hj1 hj2
      by_cases hjb : j = bin
      · rw [hjb]
        exact Nat.cast_le.mp hc.1
      · exact h3 j (by omega) hj2
    · rw [if_neg hc]
      refine ⟨le_refl _, hle, fun j h1 h2 => absurd h2 (by omega), ?_⟩
      intro hlt hle2
      exact hc ⟨Nat.cast_le.mpr hle2, hlt⟩

theorem medianLoop_zero (count numBins : Nat) (hist : Histogram K) (hb : 0 < numBins) :
    1 ≤ medianLoop count numBins hist 0 0 ∧
    medianLoop count numBins hist 0 0 ≤ numBins ∧
    (∀ j, j < medianLoop count numBins hist 0 0 →
      ((List.range j).map (fun b => hist.GetFrequency b)).sum ≤ count / 2) ∧
    (medianLoop count numBins hist 0 0 < numBins →
      ¬ ((List.range (medianLoop count numBins hist 0 0)).map
        (fun b => hist.GetFrequency b)).sum ≤ count / 2) := by
  have h := medianLoop_spec count numBins hist numBins 0 (by omega) (by omega)
  simp only [List.range_zero, List.map_nil, List.sum_nil, Nat.cast_zero] at h
  obtain ⟨-, h2, h3, h4⟩ := h
  refine ⟨?_, h2, fun j hj => h3 j (Nat.zero_le _) hj, h4⟩
  by_contra hz
  have hz0 : medianLoop count numBins hist 0 0 = 0 := by omega
  have := h4 (by omega)
  rw [hz0] at this
  simp at this

theorem medianLoop_first_iteration (count numBins : Nat) (hist : Histogram K)
    (hb : 0 < numBins) :
    medianLoop count numBins hist 0 0 =
      medianLoop count numBins hist (0 + (hist.GetFrequency 0 : K)) (0 + 1) := by
  rw [medianLoop, if_pos]
  exact ⟨Nat.cast_nonneg _, hb⟩

theorem medianBin_eq (count numBins : Nat) (hist : Histogram K) (hb : 0 < numBins)
    (hw : numBins < 2 ^ 64) :
    medianBin count numBins hist = medianLoop count numBins hist 0 0 - 1 := by
  obtain ⟨h1, h2, -, -⟩ := medianLoop_zero count numBins hist hb
  unfold medianBin
  omega

theorem find?_range_least (p : Nat → Bool) (n b : Nat) (hb : b < n) (hp : p b = true)
    (hlt : ∀ j, j < b → p j = false) : (List.range n).find? p = some b := by
  induction n with
  | zero => omega
  | succ n ih =>
    rw [List.range_succ, List.find?_append]
    by_cases h : b < n
    · rw [ih h]
      rfl
    · have hbn : b = n := by omega
      subst hbn
      have hnone : (List.range b).find? p = none := by
        rw [List.find?_eq_none]
        intro x hx
        rw [List.mem_range] at hx
        rw [hlt x hx]
        simp
      rw [hnone]
      simp [hp]

theorem medianBin_eq_crossingBin (count numBins : Nat) (hist : Histogram K) (hb : 0 < numBins)
    (hw : numBins < 2 ^ 64) :
    medianBin count numBins hist = crossingBin count numBins hist := by
  rw [medianBin_eq count numBins hist hb hw]
  obtain ⟨h1, h2, h3, h4⟩ := medianLoop_zero count numBins hist hb
  have hcum : ∀ b, cumulativeFrequency hist b =
      ((List.range (b + 1)).map (fun bin => hist.GetFrequency bin)).sum := fun b => rfl
  have hp : ∀ b, decide ((count : K) / 2 < (cumulativeFrequency hist b : K)) = true ↔
      ¬ ((List.range (b + 1)).map (fun bin => hist.GetFrequency bin)).sum ≤ count / 2 := by
    intro b
    rw [decide_eq_true_iff, hcum, ← not_iff_not, not_not, ← cast_le_half_iff, Nat.cast_le]
  unfold crossingBin
  by_cases hx : ((List.range (medianLoop count numBins hist 0 0)).map
      (fun b => hist.GetFrequency b)).sum ≤ count / 2
  · have hR : medianLoop count numBins hist 0 0 = numBins := by
      by_contra hne
      exact h4 (by omega) hx
    have hnone : (List.range numBins).find?
        (fun b => decide ((count : K) / 2 < (cumulativeFrequency hist b : K))) = none := by
      rw [List.find?_eq_none]
      intro b hbm
      rw [List.mem_range] at hbm
      rw [hp, not_not]
      by_cases hlast : b + 1 = numBins
      · rw [hlast, ← hR]
        exact hx
      · exact h3 (b + 1) (by omega)
    rw [hnone, hR]
  · have hsome : (List.range numBins).find?
        (fun b => decide ((count : K) / 2 < (cumulativeFrequency hist b : K))) =
        some (medianLoop count numBins hist 0 0 - 1) := by
      apply find?_range_least _ _ _ (by omega)
      · rw [hp]
        have e : medianLoop count numBins hist 0 0 - 1 + 1 = medianLoop count numBins hist 0 0 := by
          omega
        rw [e]
        exact hx
      · intro j hj
        have hn : ¬ decide ((count : K) / 2 < (cumulativeFrequency hist j : K)) = true := by
          rw [hp, not_not]
          exact h3 (j + 1) (by omega)
        simpa using hn
    rw [hsome]

theorem GetMedian_eq (f : StreamingLabelStatisticsImageFilter K) (label : Int)
    (r : LabelStatistics K) (hist : Histogram K) (hu : f.m_UseHistograms = true)
    (hr : f.m_LabelStatistics.find label = some r) (hh : r.m_Histogram = some hist) :
    GetMedian f label = binMidpoint hist (medianBin r.m_Count f.m_NumBins hist) := by
  unfold GetMedian
  rw [hr]
  simp only [hu, hh]
  rfl

/-! ### A histogram filled in a single bin -/

theorem run_config (T : Traits K) (f : StreamingLabelStatisticsImageFilter K)
    (calls : List (Nat × Element K)) :
    (run T f calls).toConfig = f.toConfig ∧
    (run T f calls).numberOfThreads = f.numberOfThreads := by
  obtain ⟨h1, h2, -, -, -⟩ := scan_frame T (BeforeStreamedGenerateData f) calls
  exact ⟨h1, h2⟩

theorem aggregate_histogram_single_bin (T : Traits K) (cfg : Config K) (es : List (Element K))
    (hu : cfg.m_UseHistograms = true) (k : Nat) (hk : k < cfg.m_NumBins)
    (hall : ∀ e ∈ es,
      (Histogram.create cfg.m_NumBins cfg.m_LowerBound cfg.m_UpperBound).binOf e.value = k) :
    ∃ h, (aggregate T cfg es).m_Histogram = some h ∧ h.size = cfg.m_NumBins ∧
      h.lowerBound = cfg.m_LowerBound ∧ h.upperBound = cfg.m_UpperBound ∧
      h.frequency.length = cfg.m_NumBins ∧
      ∀ j, h.GetFrequency j = if j = k then es.length else 0 := by
  induction es using List.reverseRecOn with
  | nil =>
    refine ⟨Histogram.create cfg.m_NumBins cfg.m_LowerBound cfg.m_UpperBound, ?_, rfl, rfl, rfl,
      ?_, ?_⟩
    · show (newLabelStatistics T cfg).m_Histogram = _
      rw [newLabelStatistics_histogram, if_pos hu]
    · simp [Histogram.create]
    · intro j
      simp [Histogram.GetFrequency, Histogram.create, List.getD_eq_getElem?_getD,
        List.getElem?_replicate]
      split_ifs <;> rfl
  | append_singleton es e ih =>
    obtain ⟨h, e1, e2, e3, e4, e5, e6⟩ := ih (fun x hx => hall x (List.mem_append_left _ hx))
    have hbin : h.binOf e.value = k := by
      rw [binOf_congr h (Histogram.create cfg.m_NumBins cfg.m_LowerBound cfg.m_UpperBound)
        e.value e2 e3 e4]
      exact hall e (by simp)
    refine ⟨h.IncreaseFrequencyOfMeasurement e.value 1, ?_, e2, e3, e4, ?_, ?_⟩
    · rw [aggregate_concat]
      show (if cfg.m_UseHistograms = true then _ else _) = _
      rw [if_pos hu, e1]
      rfl
    · show (h.IncreaseFrequency _ _).frequency.length = _
      rw [IncreaseFrequency_length, e5]
    · intro j
      show (h.IncreaseFrequency (h.binOf e.value) 1).frequency.getD j 0 = _
      rw [IncreaseFrequency_getD, hbin, List.length_append]
      have h6 := e6 j
      unfold Histogram.GetFrequency at h6
      rw [h6]
      by_cases hj : j = k
      · rw [if_pos ⟨hj, by omega⟩, if_pos hj, if_pos hj]
        rfl
      · rw [if_neg (fun h => hj h.1), if_neg hj, if_neg hj]

theorem prefix_single_bin (hist : Histogram K) (k N : Nat)
    (hf : ∀ j, hist.GetFrequency j = if j = k then N else 0) (j : Nat) :
    ((List.range j).map (fun b => hist.GetFrequency b)).sum = if j ≤ k then 0 else N := by
  induction j with
  | zero => simp
  | succ j ih =>
    rw [prefix_succ, ih, hf j]
    by_cases h1 : j = k
    · subst h1
      simp
    · by_cases h2 : j ≤ k
      · rw [if_pos h2, if_neg h1, if_pos (by omega)]
      · rw [if_neg h2, if_neg h1, if_neg (by omega), Nat.add_zero]

theorem medianBin_single_bin (numBins : Nat) (hist : Histogram K) (k N : Nat)
    (hw : numBins < 2 ^ 64) (hk : k < numBins) (hN : 1 ≤ N)
    (hf : ∀ j, hist.GetFrequency j = if j = k then N else 0) :
    medianBin N numBins hist = k := by
  rw [medianBin_eq N numBins hist (by omega) hw]
  obtain ⟨h1, h2, h3, h4⟩ := medianLoop_zero N numBins hist (by omega)
  have hR : medianLoop N numBins hist 0 0 = k + 1 := by
    by_contra hne
    by_cases hle : medianLoop N numBins hist 0 0 ≤ k
    · have := h4 (by omega)
      rw [prefix_single_bin hist k N hf, if_pos hle] at this
      exact this (Nat.zero_le _)
    · have := h3 (k + 1) (by omega)
      rw [prefix_single_bin hist k N hf, if_neg (by omega)] at this
      omega
  rw [hR]
  rfl

/-! ### The merge of arbitrary worker tables -/

theorem foldl_range_getD {α β : Type} (F : β → α → β) (d : α) (l : List α) :
    ∀ (l2 : List α) (g0 : β),
      (List.range l.length).foldl (fun g i => F g ((l ++ l2).getD i d)) g0 = l.foldl F g0 := by
  induction l using List.reverseRecOn with
  | nil => intro l2 g0; rfl
  | append_singleton l a ih =>
    intro l2 g0
    rw [List.length_append, List.length_singleton, List.range_succ, List.foldl_append,
      List.foldl_append, List.append_assoc, ih ([a] ++ l2) g0]
    simp only [List.foldl_cons, List.foldl_nil]
    congr 1
    rw [List.getD_eq_getElem?_getD, List.getElem?_append_right (le_refl _)]
    simp

theorem mergeThreads_withTables (T : Traits K) (f : StreamingLabelStatisticsImageFilter K)
    (tables : List (MapType K)) :
    mergeThreads T (withTables f tables) = tables.foldl (mergeTable T f.toConfig) [] := by
  have h := foldl_range_getD (mergeTable T f.toConfig) ([] : MapType K) tables [] []
  rw [List.append_nil] at h
  exact h

theorem Ordered_foldl_mergeTable (T : Traits K) (cfg : Config K) (tables : List (MapType K)) :
    ∀ g : MapType K, g.Ordered → (tables.foldl (mergeTable T cfg) g).Ordered := by
  induction tables with
  | nil => intro g hg; exact hg
  | cons t ts ih => intro g hg; exact ih _ (Ordered_mergeTable T cfg t g hg)

theorem find_foldl_mergeTable (T : Traits K) (cfg : Config K) (tables : List (MapType K))
    (l : Int) :
    ∀ g : MapType K, (∀ t ∈ tables, t.Ordered) →
      (tables.foldl (mergeTable T cfg) g).find l =
        if threadRecords tables l = [] then g.find l
        else some ((threadRecords tables l).foldl (mergeLabelStatistics cfg)
          ((g.find l).getD (newLabelStatistics T cfg))) := by
  induction tables with
  | nil => intro g _; rfl
  | cons t ts ih =>
    intro g hord
    rw [List.foldl_cons, ih _ (fun t2 h2 => hord t2 (List.mem_cons_of_mem _ h2)),
      find_mergeTable T cfg t g (hord t (List.mem_cons_self _ _)) l]
    unfold threadRecords
    rw [List.filterMap_cons]
    cases ht : t.find l with
    | none => rfl
    | some r =>
      simp only [List.foldl_cons, Option.getD_some]
      by_cases hn : List.filterMap (fun table => MapType.find table l) ts = []
      · rw [if_pos hn, if_neg (by simp), hn]
        rfl
      · rw [if_neg hn, if_neg (by simp)]

theorem find_mergeThreads_withTables (T : Traits K) (f : StreamingLabelStatisticsImageFilter K)
    (tables : List (MapType K)) (hord : ∀ t ∈ tables, t.Ordered) (l : Int) :
    (mergeThreads T (withTables f tables)).find l =
      if threadRecords tables l = [] then none
      else some (mergeRecords T f.toConfig (threadRecords tables l)) := by
  rw [mergeThreads_withTables, find_foldl_mergeTable T f.toConfig tables l [] hord]
  rfl

theorem mergeRecords_concat (T : Traits K) (cfg : Config K) (rs : List (LabelStatistics K))
    (r : LabelStatistics K) :
    mergeRecords T cfg (rs ++ [r]) = mergeLabelStatistics cfg (mergeRecords T cfg rs) r := by
  unfold mergeRecords
  rw [List.foldl_concat]

theorem mergeRecords_sums (T : Traits K) (cfg : Config K) (rs : List (LabelStatistics K)) :
    (mergeRecords T cfg rs).m_Count = (rs.map (fun r => r.m_Count)).sum ∧
    (mergeRecords T cfg rs).m_Sum = (rs.map (fun r => r.m_Sum)).sum ∧
    (mergeRecords T cfg rs).m_SumOfSquares = (rs.map (fun r => r.m_SumOfSquares)).sum := by
  induction rs using List.reverseRecOn with
  | nil =>
    obtain ⟨h1, h2, h3, -, -⟩ := newLabelStatistics_fields T cfg
    exact ⟨h1, h2, h3⟩
  | append_singleton rs r ih =>
    obtain ⟨h1, h2, h3⟩ := ih
    rw [mergeRecords_concat, List.map_append, List.map_append, List.map_append,
      List.sum_append, List.sum_append, List.sum_append]
    refine ⟨?_, ?_, ?_⟩
    · show (mergeRecords T cfg rs).m_Count + r.m_Count = _
      rw [h1]; simp
    · show (mergeRecords T cfg rs).m_Sum + r.m_Sum = _
      rw [h2]; simp
    · show (mergeRecords T cfg rs).m_SumOfSquares + r.m_SumOfSquares = _
      rw [h3]; simp

theorem mergeRecords_extrema_bounds (T : Traits K) (cfg : Config K)
    (rs : List (LabelStatistics K)) (r : LabelStatistics K) (hr : r ∈ rs) :
    (mergeRecords T cfg rs).m_Minimum ≤ r.m_Minimum ∧
    r.m_Maximum ≤ (mergeRecords T cfg rs).m_Maximum := by
  induction rs using List.reverseRecOn with
  | nil => simp at hr
  | append_singleton rs x ih =>
    rw [mergeRecords_concat]
    show (if (mergeRecords T cfg rs).m_Minimum > x.m_Minimum then _ else _) ≤ _ ∧
      _ ≤ (if (mergeRecords T cfg rs).m_Maximum < x.m_Maximum then _ else _)
    rw [ite_gt_eq_min, ite_lt_eq_max]
    rcases List.mem_append.mp hr with h | h
    · exact ⟨le_trans (min_le_left _ _) (ih h).1, le_trans (ih h).2 (le_max_left _ _)⟩
    · rw [List.mem_singleton.mp h]
      exact ⟨min_le_right _ _, le_max_right _ _⟩

theorem mergeRecords_extrema_attained (T : Traits K) (cfg : Config K)
    (rs : List (LabelStatistics K)) :
    ((mergeRecords T cfg rs).m_Minimum = T.PixelMax ∨
      ∃ r ∈ rs, (mergeRecords T cfg rs).m_Minimum = r.m_Minimum) ∧
    ((mergeRecords T cfg rs).m_Maximum = T.PixelNonpositiveMin ∨
      ∃ r ∈ rs, (mergeRecords T cfg rs).m_Maximum = r.m_Maximum) := by
  induction rs using List.reverseRecOn with
  | nil =>
    obtain ⟨-, -, -, h4, h5⟩ := newLabelStatistics_fields T cfg
    exact ⟨Or.inl h4, Or.inl h5⟩
  | append_singleton rs x ih =>
    rw [mergeRecords_concat]
    show ((if (mergeRecords T cfg rs).m_Minimum > x.m_Minimum then _ else _) = _ ∨
        ∃ r ∈ rs ++ [x], (if (mergeRecords T cfg rs).m_Minimum > x.m_Minimum then _ else _) = _) ∧
      ((if (mergeRecords T cfg rs).m_Maximum < x.m_Maximum then _ else _) = _ ∨
        ∃ r ∈ rs ++ [x], (if (mergeRecords T cfg rs).m_Maximum < x.m_Maximum then _ else _) = _)
    constructor
    · by_cases h : (mergeRecords T cfg rs).m_Minimum > x.m_Minimum
      · simp only [if_pos h]
        exact Or.inr ⟨x, by simp, rfl⟩
      · simp only [if_neg h]
        rcases ih.1 with h1 | ⟨r, hr, h1⟩
        · exact Or.inl h1
        · exact Or.inr ⟨r, List.mem_append_left _ hr, h1⟩
    · by_cases h : (mergeRecords T cfg rs).m_Maximum < x.m_Maximum
      · simp only [if_pos h]
        exact Or.inr ⟨x, by simp, rfl⟩
      · simp only [if_neg h]
        rcases ih.2 with h1 | ⟨r, hr, h1⟩
        · exact Or.inl h1
        · exact Or.inr ⟨r, List.mem_append_left _ hr, h1⟩

theorem merge_boundingBox_length (cfg : Config K) (g t : LabelStatistics K) :
    (mergeLabelStatistics cfg g t).m_BoundingBox.length = g.m_BoundingBox.length :=
  boxLoop_length (fun a => t.m_BoundingBox.getD (2 * a) 0)
    (fun a => t.m_BoundingBox.getD (2 * a + 1) 0) _ _

theorem merge_boundingBox_getD (T : Traits K) (cfg : Config K) (g t : LabelStatistics K)
    (hlen : g.m_BoundingBox.length = 2 * T.ImageDimension) (i : Nat)
    (hi : i < T.ImageDimension) :
    (mergeLabelStatistics cfg g t).m_BoundingBox.getD (2 * i) 0 =
      min (g.m_BoundingBox.getD (2 * i) 0) (t.m_BoundingBox.getD (2 * i) 0) ∧
    (mergeLabelStatistics cfg g t).m_BoundingBox.getD (2 * i + 1) 0 =
      max (g.m_BoundingBox.getD (2 * i + 1) 0) (t.m_BoundingBox.getD (2 * i + 1) 0) := by
  have hd : g.m_BoundingBox.length / 2 = T.ImageDimension := by omega
  have h : ∀ j, j < 2 * T.ImageDimension →
      (mergeLabelStatistics cfg g t).m_BoundingBox.getD j 0 =
        if j % 2 = 0 then min (g.m_BoundingBox.getD j 0) (t.m_BoundingBox.getD (2 * (j / 2)) 0)
        else max (g.m_BoundingBox.getD j 0) (t.m_BoundingBox.getD (2 * (j / 2) + 1) 0) := by
    intro j hj
    show (List.foldl _ g.m_BoundingBox (List.range (g.m_BoundingBox.length / 2))).getD j 0 = _
    rw [hd]
    exact boxLoop_getD_full (fun a => t.m_BoundingBox.getD (2 * a) 0)
      (fun a => t.m_BoundingBox.getD (2 * a + 1) 0) _ _ _ hlen hj
  have e1 : 2 * (2 * i / 2) = 2 * i := by omega
  have e2 : 2 * ((2 * i + 1) / 2) + 1 = 2 * i + 1 := by omega
  constructor
  · rw [h (2 * i) (by omega), if_pos (by omega), e1]
  · rw [h (2 * i + 1) (by omega), if_neg (by omega), e2]

theorem mergeRecords_boundingBox_length (T : Traits K) (cfg : Config K)
    (rs : List (LabelStatistics K)) :
    (mergeRecords T cfg rs).m_BoundingBox.length = 2 * T.ImageDimension := by
  induction rs using List.reverseRecOn with
  | nil =>
    show (newLabelStatistics T cfg).m_BoundingBox.length = _
    rw [newLabelStatistics_boundingBox, initialBoundingBox_length]
  | append_singleton rs x ih =>
    rw [mergeRecords_concat, merge_boundingBox_length, ih]

theorem mergeRecords_box_bounds (T : Traits K) (cfg : Config K)
    (rs : List (LabelStatistics K)) (i : Nat) (hi : i < T.ImageDimension)
    (r : LabelStatistics K) (hr : r ∈ rs) :
    (mergeRecords T cfg rs).m_BoundingBox.getD (2 * i) 0 ≤ r.m_BoundingBox.getD (2 * i) 0 ∧
    r.m_BoundingBox.getD (2 * i + 1) 0 ≤
      (mergeRecords T cfg rs).m_BoundingBox.getD (2 * i + 1) 0 := by
  induction rs using List.reverseRecOn with
  | nil => simp at hr
  | append_singleton rs x ih =>
    obtain ⟨h1, h2⟩ := merge_boundingBox_getD T cfg (mergeRecords T cfg rs) x
      (mergeRecords_boundingBox_length T cfg rs) i hi
    rw [mergeRecords_concat, h1, h2]
    rcases List.mem_append.mp hr with h | h
    · exact ⟨le_trans (min_le_left _ _) (ih h).1, le_trans (ih h).2 (le_max_left _ _)⟩
    · rw [List.mem_singleton.mp h]
      exact ⟨min_le_right _ _, le_max_right _ _⟩

theorem mergeRecords_box_attained (T : Traits K) (cfg : Config K)
    (rs : List (LabelStatistics K)) (i : Nat) (hi : i < T.ImageDimension) :
    ((mergeRecords T cfg rs).m_BoundingBox.getD (2 * i) 0 = T.IndexMax ∨
      ∃ r ∈ rs, (mergeRecords T cfg rs).m_BoundingBox.getD (2 * i) 0 =
        r.m_BoundingBox.getD (2 * i) 0) ∧
    ((mergeRecords T cfg rs).m_BoundingBox.getD (2 * i + 1) 0 = T.IndexNonpositiveMin ∨
      ∃ r ∈ rs, (mergeRecords T cfg rs).m_BoundingBox.getD (2 * i + 1) 0 =
        r.m_BoundingBox.getD (2 * i + 1) 0) := by
  induction rs using List.reverseRecOn with
  | nil =>
    show ((newLabelStatistics T cfg).m_BoundingBox.getD (2 * i) 0 = _ ∨ _) ∧
      ((newLabelStatistics T cfg).m_BoundingBox.getD (2 * i + 1) 0 = _ ∨ _)
    rw [newLabelStatistics_boundingBox, initialBoundingBox_getD T _ (by omega),
      initialBoundingBox_getD T _ (by omega), if_pos (by omega), if_neg (by omega)]
    exact ⟨Or.inl rfl, Or.inl rfl⟩
  | append_singleton rs x ih =>
    obtain ⟨h1, h2⟩ := merge_boundingBox_getD T cfg (mergeRecords T cfg rs) x
      (mergeRecords_boundingBox_length T cfg rs) i hi
    rw [mergeRecords_concat, h1, h2]
    constructor
    · rcases min_choice ((mergeRecords T cfg rs).m_BoundingBox.getD (2 * i) 0)
        (x.m_BoundingBox.getD (2 * i) 0) with h | h
      · rw [h]
        rcases ih.1 with h3 | ⟨r, hr, h3⟩
        · exact Or.inl h3
        · exact Or.inr ⟨r, List.mem_append_left _ hr, h3⟩
      · rw [h]
        exact Or.inr ⟨x, by simp, rfl⟩
    · rcases max_choice ((mergeRecords T cfg rs).m_BoundingBox.getD (2 * i + 1) 0)
        (x.m_BoundingBox.getD (2 * i + 1) 0) with h | h
      · rw [h]
        rcases ih.2 with h3 | ⟨r, hr, h3⟩
        · exact Or.inl h3
        · exact Or.inr ⟨r, List.mem_append_left _ hr, h3⟩
      · rw [h]
        exact Or.inr ⟨x, by simp, rfl⟩

theorem mergeHistogram_frequency (numBins : Nat) (g : Histogram K) (r : LabelStatistics K)
    (hlen : g.frequency.length = numBins) (bin : Nat) (hb : bin < numBins) :
    (mergeHistogram numBins g r.m_Histogram).GetFrequency bin =
      g.GetFrequency bin + recordFrequency r bin := by
  show (List.foldl (fun h b => h.IncreaseFrequency b (match r.m_Histogram with
    | some th => th.GetFrequency b
    | none => 0)) g (List.range numBins)).frequency.getD bin 0 = _
  rw [histLoop_getD (fun b => match r.m_Histogram with
    | some th => th.GetFrequency b
    | none => 0), if_pos ⟨hb, by omega⟩]
  rfl

theorem mergeRecords_histogram (T : Traits K) (cfg : Config K)
    (rs : List (LabelStatistics K)) (hu : cfg.m_UseHistograms = true) :
    ∃ gh, (mergeRecords T cfg rs).m_Histogram = some gh ∧ gh.size = cfg.m_NumBins ∧
      gh.lowerBound = cfg.m_LowerBound ∧ gh.upperBound = cfg.m_UpperBound ∧
      gh.frequency.length = cfg.m_NumBins ∧
      ∀ bin, bin < cfg.m_NumBins →
        gh.GetFrequency bin = (rs.map (fun r => recordFrequency r bin)).sum := by
  induction rs using List.reverseRecOn with
  | nil =>
    refine ⟨Histogram.create cfg.m_NumBins cfg.m_LowerBound cfg.m_UpperBound, ?_, rfl, rfl, rfl,
      ?_, ?_⟩
    · show (newLabelStatistics T cfg).m_Histogram = _
      rw [newLabelStatistics_histogram, if_pos hu]
    · simp [Histogram.create]
    · intro bin hb
      simp [Histogram.GetFrequency, Histogram.create, List.getD_eq_getElem?_getD,
        List.getElem?_replicate, hb]
  | append_singleton rs x ih =>
    obtain ⟨gh, e1, e2, e3, e4, e5, e6⟩ := ih
    have hp := histLoop_params (fun b => match x.m_Histogram with
      | some th => th.GetFrequency b
      | none => 0) cfg.m_NumBins gh
    refine ⟨mergeHistogram cfg.m_NumBins gh x.m_Histogram, ?_, hp.1.trans e2, hp.2.1.trans e3,
      hp.2.2.1.trans e4, hp.2.2.2.trans e5, ?_⟩
    · rw [mergeRecords_concat]
      show (if cfg.m_UseHistograms = true then _ else _) = _
      rw [if_pos hu, e1]
      rfl
    · intro bin hb
      rw [mergeHistogram_frequency cfg.m_NumBins gh x e5 bin hb, e6 bin hb, List.map_append,
        List.sum_append]
      simp

theorem merge_boundingBox_getD_any (cfg : Config K) (g t : LabelStatistics K) (j : Nat) :
    (mergeLabelStatistics cfg g t).m_BoundingBox.getD j 0 =
      if j / 2 < g.m_BoundingBox.length / 2 ∧ j < g.m_BoundingBox.length then
        (if j % 2 = 0 then
          min (g.m_BoundingBox.getD j 0) (t.m_BoundingBox.getD (2 * (j / 2)) 0)
        else max (g.m_BoundingBox.getD j 0) (t.m_BoundingBox.getD (2 * (j / 2) + 1) 0))
      else g.m_BoundingBox.getD j 0 :=
  boxLoop_getD (fun a => t.m_BoundingBox.getD (2 * a) 0)
    (fun a => t.m_BoundingBox.getD (2 * a + 1) 0) _ _ _

theorem merge_histogram_eq (cfg : Config K) (g t : LabelStatistics K) :
    (mergeLabelStatistics cfg g t).m_Histogram =
      if cfg.m_UseHistograms = true then
        g.m_Histogram.map (fun gh => mergeHistogram cfg.m_NumBins gh t.m_Histogram)
      else g.m_Histogram := rfl

theorem mergeHistogram_getD (numBins : Nat) (g : Histogram K) (t : Option (Histogram K))
    (j : Nat) :
    (mergeHistogram numBins g t).frequency.getD j 0 =
      if j < numBins ∧ j < g.frequency.length then
        g.frequency.getD j 0 + (match t with
          | some th => th.GetFrequency j
          | none => 0)
      else g.frequency.getD j 0 :=
  histLoop_getD (fun b => match t with
    | some th => th.GetFrequency b
    | none => 0) numBins g j

theorem mergeHistogram_params (numBins : Nat) (g : Histogram K) (t : Option (Histogram K)) :
    (mergeHistogram numBins g t).size = g.size ∧
    (mergeHistogram numBins g t).lowerBound = g.lowerBound ∧
    (mergeHistogram numBins g t).upperBound = g.upperBound ∧
    (mergeHistogram numBins g t).frequency.length = g.frequency.length :=
  histLoop_params (fun b => match t with
    | some th => th.GetFrequency b
    | none => 0) numBins g

theorem merge_comm (cfg : Config K) (g a b : LabelStatistics K) :
    mergeLabelStatistics cfg (mergeLabelStatistics cfg g a) b =
      mergeLabelStatistics cfg (mergeLabelStatistics cfg g b) a := by
  refine LabelStatistics.ext ?_ ?_ ?_ rfl ?_ ?_ rfl rfl ?_ ?_
  · show g.m_Count + a.m_Count + b.m_Count = g.m_Count + b.m_Count + a.m_Count
    omega
  · show (if (if g.m_Minimum > a.m_Minimum then a.m_Minimum else g.m_Minimum) > b.m_Minimum
        then b.m_Minimum
        else (if g.m_Minimum > a.m_Minimum then a.m_Minimum else g.m_Minimum)) =
      (if (if g.m_Minimum > b.m_Minimum then b.m_Minimum else g.m_Minimum) > a.m_Minimum
        then a.m_Minimum
        else (if g.m_Minimum > b.m_Minimum then b.m_Minimum else g.m_Minimum))
    rw [ite_gt_eq_min, ite_gt_eq_min, ite_gt_eq_min, ite_gt_eq_min, min_min_swap]
  · show (if (if g.m_Maximum < a.m_Maximum then a.m_Maximum else g.m_Maximum) < b.m_Maximum
        then b.m_Maximum
        else (if g.m_Maximum < a.m_Maximum then a.m_Maximum else g.m_Maximum)) =
      (if (if g.m_Maximum < b.m_Maximum then b.m_Maximum else g.m_Maximum) < a.m_Maximum
        then a.m_Maximum
        else (if g.m_Maximum < b.m_Maximum then b.m_Maximum else g.m_Maximum))
    rw [ite_lt_eq_max, ite_lt_eq_max, ite_lt_eq_max, ite_lt_eq_max, max_max_swap]
  · show g.m_Sum + a.m_Sum + b.m_Sum = g.m_Sum + b.m_Sum + a.m_Sum
    ring
  · show g.m_SumOfSquares + a.m_SumOfSquares + b.m_SumOfSquares =
      g.m_SumOfSquares + b.m_SumOfSquares + a.m_SumOfSquares
    ring
  · apply list_ext_getD 0
    · rw [merge_boundingBox_length, merge_boundingBox_length, merge_boundingBox_length,
        merge_boundingBox_length]
    · intro j _
      rw [merge_boundingBox_getD_any, merge_boundingBox_getD_any cfg (mergeLabelStatistics cfg g b),
        merge_boundingBox_length, merge_boundingBox_length, merge_boundingBox_getD_any,
        merge_boundingBox_getD_any cfg g b]
      by_cases hc : j / 2 < g.m_BoundingBox.length / 2 ∧ j < g.m_BoundingBox.length
      · simp only [if_pos hc]
        by_cases hp : j % 2 = 0
        · simp only [if_pos hp, min_min_swap]
        · simp only [if_neg hp, max_max_swap]
      · simp only [if_neg hc]
  · rw [merge_histogram_eq, merge_histogram_eq, merge_histogram_eq, merge_histogram_eq]
    by_cases hu : cfg.m_UseHistograms = true
    · simp only [if_pos hu]
      cases g.m_Histogram with
      | none => rfl
      | some gh =>
        show some _ = some _
        congr 1
        have pa := mergeHistogram_params cfg.m_NumBins gh a.m_Histogram
        have pb := mergeHistogram_params cfg.m_NumBins gh b.m_Histogram
        have pab := mergeHistogram_params cfg.m_NumBins
          (mergeHistogram cfg.m_NumBins gh a.m_Histogram) b.m_Histogram
        have pba := mergeHistogram_params cfg.m_NumBins
          (mergeHistogram cfg.m_NumBins gh b.m_Histogram) a.m_Histogram
        refine Histogram.ext (pab.1.trans (pa.1.trans (pba.1.trans pb.1).symm))
          (pab.2.1.trans (pa.2.1.trans (pba.2.1.trans pb.2.1).symm))
          (pab.2.2.1.trans (pa.2.2.1.trans (pba.2.2.1.trans pb.2.2.1).symm)) ?_
        apply list_ext_getD 0
        · exact pab.2.2.2.trans (pa.2.2.2.trans (pba.2.2.2.trans pb.2.2.2).symm)
        · intro j _
          rw [mergeHistogram_getD, mergeHistogram_getD, pa.2.2.2,
            mergeHistogram_getD cfg.m_NumBins (mergeHistogram cfg.m_NumBins gh b.m_Histogram),
            mergeHistogram_getD cfg.m_NumBins gh b.m_Histogram, pb.2.2.2]
          by_cases hc : j < cfg.m_NumBins ∧ j < gh.frequency.length
          · simp only [if_pos hc]
            omega
          · simp only [if_neg hc]
    · simp only [if_neg hu]

theorem mergeRecords_perm (T : Traits K) (cfg : Config K) (rs₁ rs₂ : List (LabelStatistics K))
    (h : rs₁.Perm rs₂) : mergeRecords T cfg rs₁ = mergeRecords T cfg rs₂ := by
  unfold mergeRecords
  exact List.Perm.foldl_eq' h (fun a _ b _ g => merge_comm cfg g a b) _

theorem mergeRecords_single (T : Traits K) (cfg : Config K) (r : LabelStatistics K)
    (hr : RecordInv T cfg r) :
    (mergeRecords T cfg [r]).m_Count = r.m_Count ∧
    (mergeRecords T cfg [r]).m_Sum = r.m_Sum ∧
    (mergeRecords T cfg [r]).m_SumOfSquares = r.m_SumOfSquares ∧
    (mergeRecords T cfg [r]).m_Minimum = r.m_Minimum ∧
    (mergeRecords T cfg [r]).m_Maximum = r.m_Maximum ∧
    (mergeRecords T cfg [r]).m_BoundingBox = r.m_BoundingBox ∧
    (cfg.m_UseHistograms = true → (mergeRecords T cfg [r]).m_Histogram = r.m_Histogram) := by
  obtain ⟨h1, h2, h3, h4, h5⟩ := hr
  obtain ⟨s1, s2, s3⟩ := mergeRecords_sums T cfg [r]
  obtain ⟨b1, b2⟩ := mergeRecords_extrema_bounds T cfg [r] r (by simp)
  obtain ⟨a1, a2⟩ := mergeRecords_extrema_attained T cfg [r]
  refine ⟨by simpa using s1, by simpa using s2, by simpa using s3, ?_, ?_, ?_, ?_⟩
  · rcases a1 with h | ⟨x, hx, h⟩
    · exact le_antisymm b1 (by rw [h]; exact h1)
    · rw [List.mem_singleton.mp hx] at h
      exact h
  · rcases a2 with h | ⟨x, hx, h⟩
    · exact le_antisymm (by rw [h]; exact h2) b2
    · rw [List.mem_singleton.mp hx] at h
      exact h
  · apply list_ext_getD 0 _ _ ((mergeRecords_boundingBox_length T cfg [r]).trans h3.symm)
    intro j hj
    rw [mergeRecords_boundingBox_length] at hj
    have hi : j / 2 < T.ImageDimension := by omega
    obtain ⟨c1, c2⟩ := mergeRecords_box_bounds T cfg [r] (j / 2) hi r (by simp)
    obtain ⟨d1, d2⟩ := mergeRecords_box_attained T cfg [r] (j / 2) hi
    by_cases hp : j % 2 = 0
    · have e : 2 * (j / 2) = j := by omega
      rw [e] at c1 d1
      rcases d1 with h | ⟨x, hx, h⟩
      · exact le_antisymm c1 (by rw [h]; exact (h4 j hj).1 hp)
      · rw [List.mem_singleton.mp hx] at h
        exact h
    · have e : 2 * (j / 2) + 1 = j := by omega
      rw [e] at c2 d2
      rcases d2 with h | ⟨x, hx, h⟩
      · exact le_antisymm (by rw [h]; exact (h4 j hj).2 (by omega)) c2
      · rw [List.mem_singleton.mp hx] at h
        exact h
  · intro hu
    obtain ⟨gh, e1, e2, e3, e4, e5, e6⟩ := mergeRecords_histogram T cfg [r] hu
    obtain ⟨rh, f1, f2, f3, f4, f5⟩ := h5 hu
    rw [e1, f1]
    congr 1
    refine Histogram.ext (e2.trans f2.symm) (e3.trans f3.symm) (e4.trans f4.symm) ?_
    apply list_ext_getD 0 _ _ (e5.trans f5.symm)
    intro j hj
    have := e6 j (by omega)
    unfold Histogram.GetFrequency at this
    rw [this]
    simp [recordFrequency, f1, Histogram.GetFrequency]

/-! ### Frame of one scanning step -/

theorem filter_insert_ne (m : MapType K) (l : Int) (r : LabelStatistics K) :
    (m.insert l r).filter (fun x => decide (x.1 ≠ l)) = m.filter (fun x => decide (x.1 ≠ l)) := by
  induction m with
  | nil => simp [MapType.insert]
  | cons e rest ih =>
    obtain ⟨k, r0⟩ := e
    simp only [MapType.insert]
    by_cases h1 : l < k
    · rw [if_pos h1, List.filter_cons]
      simp
    · by_cases h2 : l = k
      · rw [if_neg h1, if_pos h2]
      · rw [if_neg h1, if_neg h2, List.filter_cons, List.filter_cons, ih]

theorem filter_modify_ne (m : MapType K) (l : Int)
    (g : LabelStatistics K → LabelStatistics K) :
    (m.modify l g).filter (fun x => decide (x.1 ≠ l)) = m.filter (fun x => decide (x.1 ≠ l)) := by
  induction m with
  | nil => rfl
  | cons e rest ih =>
    obtain ⟨k, r0⟩ := e
    rw [modify_cons]
    by_cases h : k = l
    · rw [if_pos h, List.filter_cons, List.filter_cons, ih]
      simp [h]
    · rw [if_neg h, List.filter_cons, List.filter_cons, ih]

theorem filter_updateTable_ne (T : Traits K) (cfg : Config K) (m : MapType K) (e : Element K) :
    (updateTable T cfg m e).filter (fun x => decide (x.1 ≠ e.label)) =
      m.filter (fun x => decide (x.1 ≠ e.label)) := by
  unfold updateTable
  rw [filter_modify_ne]
  unfold MapType.findOrCreate
  cases m.find e.label with
  | none => exact filter_insert_ne m e.label _
  | some r => rfl

/-! ### Counts of the records -/

theorem merged_entry (T : Traits K) (f : StreamingLabelStatisticsImageFilter K)
    (calls : List (Nat × Element K)) (e : Int × LabelStatistics K)
    (he : e ∈ mergeThreads T (scan T (BeforeStreamedGenerateData f) calls)) :
    ∃ es : List (Element K), es ≠ [] ∧ e.2 = aggregate T f.toConfig es := by
  rw [mergeThreads_run] at he
  obtain ⟨ho, hf⟩ := find_mergeThreads_upto T (BeforeStreamedGenerateData f) calls
    (Before_tables f) f.numberOfThreads (le_refl _)
  have hfind := find_of_mem _ ho e.1 e.2 he
  rw [hf e.1] at hfind
  by_cases hn : elementsBelow calls e.1 f.numberOfThreads = []
  · rw [if_pos hn] at hfind
    cases hfind
  · rw [if_neg hn] at hfind
    exact ⟨_, hn, (Option.some.inj hfind).symm⟩

theorem find_merged_run (T : Traits K) (f : StreamingLabelStatisticsImageFilter K)
    (calls : List (Nat × Element K)) (hv : ValidCalls f calls) (l : Int) :
    (mergeThreads T (scan T (BeforeStreamedGenerateData f) calls)).find l =
      if elementsOf calls l = [] then none
      else some (aggregate T f.toConfig (elementsOf calls l)) := by
  rw [mergeThreads_run,
    (find_mergeThreads_upto T (BeforeStreamedGenerateData f) calls (Before_tables f)
      f.numberOfThreads (le_refl _)).2 l]
  have hp := elementsBelow_perm_elementsOf calls l f.numberOfThreads hv
  have hc : (BeforeStreamedGenerateData f).toConfig = f.toConfig := rfl
  by_cases hn : elementsOf calls l = []
  · have hb : elementsBelow calls l f.numberOfThreads = [] := by
      rw [hn] at hp
      exact List.Perm.eq_nil hp
    rw [if_pos hn, if_pos hb]
  · have hb : ¬ elementsBelow calls l f.numberOfThreads = [] := by
      intro hb
      rw [hb] at hp
      exact hn (List.Perm.eq_nil hp.symm)
    rw [if_neg hn, if_neg hb, hc, aggregate_perm T f.toConfig _ _ hp]

/-! ### Independence of the prior state -/

theorem scan_tables_congr (T : Traits K) (calls : List (Nat × Element K))
    (f g : StreamingLabelStatisticsImageFilter K) (hc : f.toConfig = g.toConfig)
    (ht : f.m_LabelStatisticsPerThread = g.m_LabelStatisticsPerThread) :
    (scan T f calls).m_LabelStatisticsPerThread = (scan T g calls).m_LabelStatisticsPerThread := by
  induction calls using List.reverseRecOn with
  | nil => exact ht
  | append_singleton calls c ih =>
    rw [scan_concat, scan_concat]
    show List.set _ _ _ = List.set _ _ _
    rw [ih, (scan_frame T f calls).1, (scan_frame T g calls).1, hc]

theorem After_congr (T : Traits K) (s₁ s₂ : StreamingLabelStatisticsImageFilter K)
    (h1 : s₁.toConfig = s₂.toConfig) (h2 : s₁.numberOfThreads = s₂.numberOfThreads)
    (h3 : s₁.m_LabelStatisticsPerThread = s₂.m_LabelStatisticsPerThread)
    (h4 : s₁.m_LabelStatistics = s₂.m_LabelStatistics) :
    AfterStreamedGenerateData T s₁ = AfterStreamedGenerateData T s₂ := by
  unfold AfterStreamedGenerateData mergeThreads
  simp only [h1, h2, h3, h4]

/-! ### Sigma -/

theorem variance_run_nonneg (T : Traits K) (f : StreamingLabelStatisticsImageFilter K)
    (calls : List (Nat × Element K)) (hv : ValidCalls f calls) (l : Int) :
    0 ≤ GetVariance (run T f calls) l := by
  rw [GetVariance_run T f calls hv]
  by_cases hn : 1 < (elementsOf calls l).length
  · rw [if_pos hn, map_value_sq]
    have := raw_moment_variance_nonneg ((elementsOf calls l).map (fun e => e.value))
      (by simpa using hn)
    simpa using this
  · rw [if_neg hn]

theorem sigma_run (T : Traits K) (f : StreamingLabelStatisticsImageFilter K)
    (calls : List (Nat × Element K)) (hv : ValidCalls f calls) (l : Int)
    (hs : ∃ c ∈ calls, c.2.label = l) :
    GetSigma (run T f calls) l = T.vcl_sqrt (GetVariance (run T f calls) l) := by
  unfold GetSigma GetVariance
  rw [run_record T f calls hv l hs]
  rfl

end Lemmas

/-! ## The claims -/

section Claims
set_option linter.unusedSectionVars false
variable {K : Type} [LinearOrderedField K] [FloorRing K]

/-- C1, partition independence: two runs of filters with the same configuration whose
calls carry the same elements, in any order and with any attribution of the elements
to the threads of each filter, end with the same final table; so for every label
the count, sum, sum of squares, minimum, maximum, bounding box and histogram are the
same. -/
theorem C1_partition_independence (T : Traits K) (f₁ f₂ : StreamingLabelStatisticsImageFilter K)
    (calls₁ calls₂ : List (Nat × Element K)) (hcfg : f₁.toConfig = f₂.toConfig)
    (hv₁ : ValidCalls f₁ calls₁) (hv₂ : ValidCalls f₂ calls₂)
    (hdata : (calls₁.map Prod.snd).Perm (calls₂.map Prod.snd)) :
    (run T f₁ calls₁).m_LabelStatistics = (run T f₂ calls₂).m_LabelStatistics ∧
    ∀ label,
      GetCount (run T f₁ calls₁) label = GetCount (run T f₂ calls₂) label ∧
      GetSum (run T f₁ calls₁) label = GetSum (run T f₂ calls₂) label ∧
      ((run T f₁ calls₁).m_LabelStatistics.find label).map (fun r => r.m_SumOfSquares) =
        ((run T f₂ calls₂).m_LabelStatistics.find label).map (fun r => r.m_SumOfSquares) ∧
      GetMinimum T (run T f₁ calls₁) label = GetMinimum T (run T f₂ calls₂) label ∧
      GetMaximum T (run T f₁ calls₁) label = GetMaximum T (run T f₂ calls₂) label ∧
      GetBoundingBox (run T f₁ calls₁) label = GetBoundingBox (run T f₂ calls₂) label ∧
      GetHistogram (run T f₁ calls₁) label = GetHistogram (run T f₂ calls₂) label := by
  have ht : (run T f₁ calls₁).m_LabelStatistics = (run T f₂ calls₂).m_LabelStatistics := by
    apply ordered_ext _ _ (run_ordered T f₁ calls₁) (run_ordered T f₂ calls₂)
    intro l
    have hp : (elementsOf calls₁ l).Perm (elementsOf calls₂ l) := by
      rw [elementsOf_eq_filter, elementsOf_eq_filter]
      exact List.Perm.filter _ hdata
    rw [find_run T f₁ calls₁ hv₁ l, find_run T f₂ calls₂ hv₂ l, hcfg,
      aggregate_perm T f₂.toConfig _ _ hp]
    by_cases hn : elementsOf calls₂ l = []
    · have hn1 : elementsOf calls₁ l = [] := by
        rw [hn] at hp
        exact List.Perm.eq_nil hp
      rw [if_pos hn, if_pos hn1]
    · have hn1 : ¬ elementsOf calls₁ l = [] := by
        intro h
        rw [h] at hp
        exact hn (List.Perm.eq_nil hp.symm)
      rw [if_neg hn, if_neg hn1]
  refine ⟨ht, fun label => ?_⟩
  simp only [GetCount, GetSum, GetMinimum, GetMaximum, GetBoundingBox, GetHistogram, ht,
    and_self]

/-- Witness of C1: the scenario split over two threads (`1, 2` on thread 0 and `3`
on thread 1 for label 1) against the same elements on a single thread. -/
theorem C1_partition_independence_witness :
    (exampleFilter 2).toConfig = (exampleFilter 1).toConfig ∧
    ValidCalls (exampleFilter 2) scenarioSplit ∧ ValidCalls (exampleFilter 1) scenarioSingle ∧
    (scenarioSplit.map Prod.snd).Perm (scenarioSingle.map Prod.snd) ∧
    (run exampleTraits (exampleFilter 2) scenarioSplit).m_LabelStatistics =
      (run exampleTraits (exampleFilter 1) scenarioSingle).m_LabelStatistics :=
  ⟨rfl, by unfold ValidCalls; decide, by unfold ValidCalls; decide, List.Perm.refl _,
    (C1_partition_independence exampleTraits (exampleFilter 2) (exampleFilter 1) scenarioSplit
      scenarioSingle rfl (by unfold ValidCalls; decide) (by unfold ValidCalls; decide)
      (List.Perm.refl _)).1⟩

/-- C2, count conservation: after a run, `GetCount` of a label is the number of
calls made with that label, and the counts of the valid labels add up to the number
of calls. -/
theorem C2_count_conservation (T : Traits K) (f : StreamingLabelStatisticsImageFilter K)
    (calls : List (Nat × Element K)) (hv : ValidCalls f calls) :
    (∀ label, GetCount (run T f calls) label =
      calls.countP (fun c => decide (c.2.label = label))) ∧
    ((run T f calls).m_ValidLabelValues.map (fun l => GetCount (run T f calls) l)).sum =
      calls.length := by
  have h1 : ∀ label, GetCount (run T f calls) label =
      calls.countP (fun c => decide (c.2.label = label)) := by
    intro label
    rw [GetCount_run T f calls hv, elementsOf_length]
  refine ⟨h1, ?_⟩
  have hkeys : (run T f calls).m_ValidLabelValues =
      (run T f calls).m_LabelStatistics.map Prod.fst := rfl
  rw [hkeys]
  simp only [h1]
  apply sum_count_labels calls _ (Ordered_nodup _ (run_ordered T f calls))
  intro c hc
  exact (mem_keys_run T f calls hv _).mpr ⟨c, hc, rfl⟩

/-- Witness of C2: the scenario on two threads. -/
theorem C2_count_conservation_witness :
    ValidCalls (exampleFilter 2) scenarioSplit ∧
    (∀ label, GetCount (run exampleTraits (exampleFilter 2) scenarioSplit) label =
      scenarioSplit.countP (fun c => decide (c.2.label = label))) ∧
    ((run exampleTraits (exampleFilter 2) scenarioSplit).m_ValidLabelValues.map
      (fun l => GetCount (run exampleTraits (exampleFilter 2) scenarioSplit) l)).sum =
      scenarioSplit.length :=
  ⟨by unfold ValidCalls; decide,
    C2_count_conservation exampleTraits (exampleFilter 2) scenarioSplit
      (by unfold ValidCalls; decide)⟩

/-- C3, variance non-negativity: after a run `GetVariance` is non-negative for every
label, present or absent; for a label with `n > 1` elements it is the raw-moment
expression `(sumOfSquares - sum * sum / n) / (n - 1)`. -/
theorem C3_variance_nonneg (T : Traits K) (f : StreamingLabelStatisticsImageFilter K)
    (calls : List (Nat × Element K)) (hv : ValidCalls f calls) (label : Int) :
    0 ≤ GetVariance (run T f calls) label ∧
    (1 < GetCount (run T f calls) label →
      GetVariance (run T f calls) label =
        ((((run T f calls).m_LabelStatistics.find label).map (fun r => r.m_SumOfSquares)).getD 0 -
          GetSum (run T f calls) label * GetSum (run T f calls) label /
            (GetCount (run T f calls) label : K)) /
          ((GetCount (run T f calls) label : K) - 1)) := by
  constructor
  · rw [GetVariance_run T f calls hv]
    by_cases hn : 1 < (elementsOf calls label).length
    · rw [if_pos hn, map_value_sq]
      have := raw_moment_variance_nonneg ((elementsOf calls label).map (fun e => e.value))
        (by simpa using hn)
      simpa using this
    · rw [if_neg hn]
  · intro hn
    rw [GetCount_run T f calls hv] at hn
    have hs : ∃ c ∈ calls, c.2.label = label := by
      by_contra hc
      rw [(elementsOf_eq_nil_iff calls label).mpr hc] at hn
      simp at hn
    rw [GetVariance_run T f calls hv, if_pos hn, GetSum_run T f calls hv,
      GetCount_run T f calls hv, run_record T f calls hv label hs]
    show _ = ((aggregate T f.toConfig (elementsOf calls label)).m_SumOfSquares - _) / _
    rw [aggregate_sumOfSquares]

/-- Witness of C3: the scenario, label 1. -/
theorem C3_variance_nonneg_witness :
    ValidCalls (exampleFilter 1) scenarioSingle ∧
    0 ≤ GetVariance (run exampleTraits (exampleFilter 1) scenarioSingle) 1 :=
  ⟨by unfold ValidCalls; decide,
    (C3_variance_nonneg exampleTraits (exampleFilter 1) scenarioSingle
      (by unfold ValidCalls; decide) 1).1⟩

/-- C4, reference sum and mean: for a label seen at least once, `GetSum` is the sum
of the values processed with that label and `GetMean` is that sum divided by their
number. -/
theorem C4_sum_and_mean (T : Traits K) (f : StreamingLabelStatisticsImageFilter K)
    (calls : List (Nat × Element K)) (hv : ValidCalls f calls) (label : Int)
    (hs : ∃ c ∈ calls, c.2.label = label) :
    GetSum (run T f calls) label = ((elementsOf calls label).map (fun e => e.value)).sum ∧
    GetMean (run T f calls) label =
      ((elementsOf calls label).map (fun e => e.value)).sum /
        ((elementsOf calls label).length : K) :=
  ⟨GetSum_run T f calls hv label, GetMean_run T f calls hv label hs⟩

/-- Witness of C4, the scenario of the spec: values `1, 2, 3` under label 1 and `10`
under label 2 in one partition give count 3, sum 6, mean 2, minimum 1, maximum 3,
variance 1 for label 1 and count 1, sum 10, mean 10, variance 0 for label 2. -/
theorem C4_sum_and_mean_witness :
    ValidCalls (exampleFilter 1) scenarioSingle ∧
    (∃ c ∈ scenarioSingle, c.2.label = 1) ∧ (∃ c ∈ scenarioSingle, c.2.label = 2) ∧
    GetCount (run exampleTraits (exampleFilter 1) scenarioSingle) 1 = 3 ∧
    GetSum (run exampleTraits (exampleFilter 1) scenarioSingle) 1 = 6 ∧
    GetMean (run exampleTraits (exampleFilter 1) scenarioSingle) 1 = 2 ∧
    GetMinimum exampleTraits (run exampleTraits (exampleFilter 1) scenarioSingle) 1 = 1 ∧
    GetMaximum exampleTraits (run exampleTraits (exampleFilter 1) scenarioSingle) 1 = 3 ∧
    GetVariance (run exampleTraits (exampleFilter 1) scenarioSingle) 1 = 1 ∧
    GetCount (run exampleTraits (exampleFilter 1) scenarioSingle) 2 = 1 ∧
    GetSum (run exampleTraits (exampleFilter 1) scenarioSingle) 2 = 10 ∧
    GetMean (run exampleTraits (exampleFilter 1) scenarioSingle) 2 = 10 ∧
    GetVariance (run exampleTraits (exampleFilter 1) scenarioSingle) 2 = 0 := by
  have hv : ValidCalls (exampleFilter 1) scenarioSingle := by unfold ValidCalls; decide
  have h1 : ∃ c ∈ scenarioSingle, c.2.label = 1 := by decide
  have h2 : ∃ c ∈ scenarioSingle, c.2.label = 2 := by decide
  have e1 : elementsOf scenarioSingle 1 =
      [⟨1, 1, [0, 0]⟩, ⟨1, 2, [1, 0]⟩, ⟨1, 3, [2, 0]⟩] := by decide
  have e2 : elementsOf scenarioSingle 2 = [⟨2, 10, [3, 0]⟩] := by decide
  have a1 := C4_sum_and_mean exampleTraits (exampleFilter 1) scenarioSingle hv 1 h1
  have a2 := C4_sum_and_mean exampleTraits (exampleFilter 1) scenarioSingle hv 2 h2
  rw [e1] at a1
  rw [e2] at a2
  refine ⟨hv, h1, h2, by decide, ?_, ?_, ?_, ?_, ?_, by decide, ?_, ?_, ?_⟩
  · rw [a1.1]; norm_num
  · rw [a1.2]; norm_num
  · unfold GetMinimum
    rw [run_record exampleTraits (exampleFilter 1) scenarioSingle hv 1 h1, e1]
    show (aggregate exampleTraits _ _).m_Minimum = 1
    simp only [aggregate, List.foldl, updateLabelStatistics]
    rw [(newLabelStatistics_fields _ _).2.2.2.1]
    norm_num [exampleTraits]
  · unfold GetMaximum
    rw [run_record exampleTraits (exampleFilter 1) scenarioSingle hv 1 h1, e1]
    show (aggregate exampleTraits _ _).m_Maximum = 3
    simp only [aggregate, List.foldl, updateLabelStatistics]
    rw [(newLabelStatistics_fields _ _).2.2.2.2]
    norm_num [exampleTraits]
  · rw [GetVariance_run exampleTraits (exampleFilter 1) scenarioSingle hv 1, e1]
    norm_num
  · rw [a2.1]; norm_num
  · rw [a2.2]; norm_num
  · rw [GetVariance_run exampleTraits (exampleFilter 1) scenarioSingle hv 2, e2]
    norm_num

/-- C5, unbiased sample variance: for a label seen at least once the final record
holds the number `n` of processed values; when `n > 1` its variance is
`(sumOfSquares - sum * sum / n) / (n - 1)`, which is the sum of the squared deviations
from the mean divided by `n - 1`; when `n = 1` its variance is `0`. -/
theorem C5_unbiased_variance (T : Traits K) (f : StreamingLabelStatisticsImageFilter K)
    (calls : List (Nat × Element K)) (hv : ValidCalls f calls) (label : Int)
    (hs : ∃ c ∈ calls, c.2.label = label) :
    ∃ r, (run T f calls).m_LabelStatistics.find label = some r ∧
      GetVariance (run T f calls) label = r.m_Variance ∧
      r.m_Count = (elementsOf calls label).length ∧
      r.m_Mean = ((elementsOf calls label).map (fun e => e.value)).sum / (r.m_Count : K) ∧
      (1 < r.m_Count →
        r.m_Variance =
          (r.m_SumOfSquares - r.m_Sum * r.m_Sum / (r.m_Count : K)) / ((r.m_Count : K) - 1) ∧
        r.m_Variance =
          ((elementsOf calls label).map
            (fun e => (e.value - r.m_Mean) * (e.value - r.m_Mean))).sum /
            ((r.m_Count : K) - 1)) ∧
      (r.m_Count = 1 → r.m_Variance = 0) := by
  have hrec := run_record T f calls hv label hs
  have hne : elementsOf calls label ≠ [] := by
    rw [Ne, elementsOf_eq_nil_iff]
    exact fun h => h hs
  refine ⟨_, hrec, ?_, ?_, ?_, ?_, ?_⟩
  · unfold GetVariance
    rw [hrec]
  · exact aggregate_count T f.toConfig _
  · show (aggregate T f.toConfig (elementsOf calls label)).m_Sum /
      ((aggregate T f.toConfig (elementsOf calls label)).m_Count : K) = _
    rw [aggregate_sum]
    rfl
  · intro hn
    have hn2 : (aggregate T f.toConfig (elementsOf calls label)).m_Count > 1 := hn
    have hvar : (computeStatistics T (aggregate T f.toConfig (elementsOf calls label))).m_Variance =
        ((aggregate T f.toConfig (elementsOf calls label)).m_SumOfSquares -
          (aggregate T f.toConfig (elementsOf calls label)).m_Sum *
            (aggregate T f.toConfig (elementsOf calls label)).m_Sum /
            ((aggregate T f.toConfig (elementsOf calls label)).m_Count : K)) /
          (((aggregate T f.toConfig (elementsOf calls label)).m_Count : K) - 1) := by
      show (if (aggregate T f.toConfig (elementsOf calls label)).m_Count > 1 then _ else _) = _
      rw [if_pos hn2]
    refine ⟨hvar, ?_⟩
    rw [hvar]
    show _ = ((elementsOf calls label).map
      (fun e =>
        (e.value - (aggregate T f.toConfig (elementsOf calls label)).m_Sum /
          ((aggregate T f.toConfig (elementsOf calls label)).m_Count : K)) *
        (e.value - (aggregate T f.toConfig (elementsOf calls label)).m_Sum /
          ((aggregate T f.toConfig (elementsOf calls label)).m_Count : K)))).sum /
      (((aggregate T f.toConfig (elementsOf calls label)).m_Count : K) - 1)
    rw [aggregate_sum, aggregate_sumOfSquares, aggregate_count, map_value_sq]
    have hdev := sum_sq_dev_mean ((elementsOf calls label).map (fun e => e.value))
      (by simpa using hne)
    rw [List.map_map, List.length_map] at hdev
    rw [← hdev]
    rfl
  · intro hn
    have hn2 : ¬ (aggregate T f.toConfig (elementsOf calls label)).m_Count > 1 := by
      have : (aggregate T f.toConfig (elementsOf calls label)).m_Count = 1 := hn
      omega
    show (if (aggregate T f.toConfig (elementsOf calls label)).m_Count > 1 then _ else _) = _
    rw [if_neg hn2]

/-- Witness of C5: the scenario, label 1 (three values). -/
theorem C5_unbiased_variance_witness :
    ValidCalls (exampleFilter 1) scenarioSingle ∧
    (∃ c ∈ scenarioSingle, c.2.label = 1) ∧
    ∃ r, (run exampleTraits (exampleFilter 1) scenarioSingle).m_LabelStatistics.find 1 = some r ∧
      GetVariance (run exampleTraits (exampleFilter 1) scenarioSingle) 1 = r.m_Variance ∧
      r.m_Count = (elementsOf scenarioSingle 1).length ∧
      r.m_Mean = ((elementsOf scenarioSingle 1).map (fun e => e.value)).sum / (r.m_Count : ℚ) ∧
      (1 < r.m_Count →
        r.m_Variance =
          (r.m_SumOfSquares - r.m_Sum * r.m_Sum / (r.m_Count : ℚ)) / ((r.m_Count : ℚ) - 1) ∧
        r.m_Variance =
          ((elementsOf scenarioSingle 1).map
            (fun e => (e.value - r.m_Mean) * (e.value - r.m_Mean))).sum /
            ((r.m_Count : ℚ) - 1)) ∧
      (r.m_Count = 1 → r.m_Variance = 0) :=
  ⟨by unfold ValidCalls; decide, by decide,
    C5_unbiased_variance exampleTraits (exampleFilter 1) scenarioSingle
      (by unfold ValidCalls; decide) 1 (by decide)⟩

/-- C7, default values: for a label that is not a key of the final map every accessor
returns its default: `GetMinimum` the pixel type's max, `GetMaximum` its
non-positive min, mean, sum, sigma, variance and count zero, an empty bounding box, an
empty region, a null histogram and median `0`; and `GetMedian` is `0` for every label
when histograms are disabled. -/
theorem C7_default_values (T : Traits K) (f : StreamingLabelStatisticsImageFilter K)
    (label : Int) :
    (f.m_LabelStatistics.find label = none →
      GetMinimum T f label = T.PixelMax ∧ GetMaximum T f label = T.PixelNonpositiveMin ∧
      GetMean f label = 0 ∧ GetSum f label = 0 ∧ GetSigma f label = 0 ∧
      GetVariance f label = 0 ∧ GetCount f label = 0 ∧ GetBoundingBox f label = [] ∧
      GetRegion T f label = emptyRegion T ∧ GetHistogram f label = none ∧
      GetMedian f label = 0) ∧
    (f.m_UseHistograms = false → GetMedian f label = 0) := by
  constructor
  · intro h
    simp only [GetMinimum, GetMaximum, GetMean, GetSum, GetSigma, GetVariance, GetCount,
      GetBoundingBox, GetRegion, GetHistogram, GetMedian, h, and_self]
  · intro h
    unfold GetMedian
    cases f.m_LabelStatistics.find label with
    | none => rfl
    | some r => simp [h]

/-- Witness of C7: label 7 after the scenario run (a label never seen), and label 1
with histograms disabled. -/
theorem C7_default_values_witness :
    (run exampleTraits (exampleFilter 1) scenarioSingle).m_LabelStatistics.find 7 = none ∧
    (run exampleTraits (exampleFilter 1) scenarioSingle).m_UseHistograms = false ∧
    GetMinimum exampleTraits (run exampleTraits (exampleFilter 1) scenarioSingle) 7 = 255 ∧
    GetCount (run exampleTraits (exampleFilter 1) scenarioSingle) 7 = 0 ∧
    GetMean (run exampleTraits (exampleFilter 1) scenarioSingle) 7 = 0 ∧
    GetMedian (run exampleTraits (exampleFilter 1) scenarioSingle) 1 = 0 := by
  have hv : ValidCalls (exampleFilter 1) scenarioSingle := by unfold ValidCalls; decide
  have hnone : (run exampleTraits (exampleFilter 1) scenarioSingle).m_LabelStatistics.find 7
      = none := run_absent exampleTraits (exampleFilter 1) scenarioSingle hv 7 (by decide)
  have h7 := (C7_default_values exampleTraits (run exampleTraits (exampleFilter 1) scenarioSingle)
    7).1 hnone
  have h1 := (C7_default_values exampleTraits (run exampleTraits (exampleFilter 1) scenarioSingle)
    1).2 rfl
  exact ⟨hnone, rfl, h7.1, h7.2.2.2.2.2.2.1, h7.2.2.1, h1⟩

/-- C6, histogram conservation: with histograms enabled and a positive number of
bins, for every label present in the final map the frequencies of the bins of its
histogram add up to `GetCount`, whatever the values were; and after any sequence of
calls the same holds for every record of every thread table. -/
theorem C6_histogram_conservation (T : Traits K) (f : StreamingLabelStatisticsImageFilter K)
    (calls : List (Nat × Element K)) (hu : f.m_UseHistograms = true) (hb : 0 < f.m_NumBins)
    (hv : ValidCalls f calls) :
    (∀ label r, (run T f calls).m_LabelStatistics.find label = some r →
      ∃ h, GetHistogram (run T f calls) label = some h ∧
        ((List.range f.m_NumBins).map (fun bin => h.GetFrequency bin)).sum =
          GetCount (run T f calls) label) ∧
    (∀ table ∈ (scan T (BeforeStreamedGenerateData f) calls).m_LabelStatisticsPerThread,
      ∀ e ∈ table, ∃ h, e.2.m_Histogram = some h ∧
        ((List.range f.m_NumBins).map (fun bin => h.GetFrequency bin)).sum = e.2.m_Count) := by
  constructor
  · intro label r hr
    obtain ⟨-, hrec⟩ := run_record_of_find T f calls hv label r hr
    obtain ⟨h, e1, -, e3, e4⟩ := aggregate_histogram T f.toConfig (elementsOf calls label) hu hb
    refine ⟨h, ?_, ?_⟩
    · unfold GetHistogram
      rw [hr, hrec]
      exact e1
    · rw [sum_bins h _ e3, e4, GetCount_run T f calls hv]
  · intro table ht e he
    obtain ⟨es, -, hagg, -⟩ := thread_record T f calls table ht e he
    obtain ⟨h, e1, -, e3, e4⟩ := aggregate_histogram T f.toConfig es hu hb
    refine ⟨h, ?_, ?_⟩
    · rw [hagg]
      exact e1
    · rw [sum_bins h _ e3, e4, hagg, aggregate_count]

/-- Witness of C6: the scenario on two threads with four bins over `[0, 8)`; the
value `10` of label 2 lies outside the histogram range. -/
theorem C6_histogram_conservation_witness :
    (exampleHistogramFilter 2).m_UseHistograms = true ∧
    0 < (exampleHistogramFilter 2).m_NumBins ∧
    ValidCalls (exampleHistogramFilter 2) scenarioSplit ∧
    (∀ label r,
      (run exampleTraits (exampleHistogramFilter 2) scenarioSplit).m_LabelStatistics.find label
        = some r →
      ∃ h, GetHistogram (run exampleTraits (exampleHistogramFilter 2) scenarioSplit) label
          = some h ∧
        ((List.range (exampleHistogramFilter 2).m_NumBins).map
          (fun bin => h.GetFrequency bin)).sum =
          GetCount (run exampleTraits (exampleHistogramFilter 2) scenarioSplit) label) :=
  ⟨rfl, by decide, by unfold ValidCalls; decide,
    (C6_histogram_conservation exampleTraits (exampleHistogramFilter 2) scenarioSplit rfl
      (by decide) (by unfold ValidCalls; decide)).1⟩

/-- C8, extreme values: when every processed value lies in the pixel type's range,
for a label seen at least once `GetMinimum` is the least and `GetMaximum` the greatest
value processed with that label, so `GetMinimum ≤ GetMaximum`; and after any sequence
of calls every record of a thread table with a positive count has
`m_Minimum ≤ m_Maximum`. -/
theorem C8_extreme_values (T : Traits K) (f : StreamingLabelStatisticsImageFilter K)
    (calls : List (Nat × Element K)) (hv : ValidCalls f calls)
    (hrange : ∀ c ∈ calls, T.PixelNonpositiveMin ≤ c.2.value ∧ c.2.value ≤ T.PixelMax) :
    (∀ label, (∃ c ∈ calls, c.2.label = label) →
      (∃ c ∈ calls, c.2.label = label ∧ c.2.value = GetMinimum T (run T f calls) label) ∧
      (∀ c ∈ calls, c.2.label = label → GetMinimum T (run T f calls) label ≤ c.2.value) ∧
      (∃ c ∈ calls, c.2.label = label ∧ c.2.value = GetMaximum T (run T f calls) label) ∧
      (∀ c ∈ calls, c.2.label = label → c.2.value ≤ GetMaximum T (run T f calls) label) ∧
      GetMinimum T (run T f calls) label ≤ GetMaximum T (run T f calls) label) ∧
    (∀ table ∈ (scan T (BeforeStreamedGenerateData f) calls).m_LabelStatisticsPerThread,
      ∀ e ∈ table, 0 < e.2.m_Count → e.2.m_Minimum ≤ e.2.m_Maximum) := by
  constructor
  · intro label hs
    have hmin : GetMinimum T (run T f calls) label =
        (aggregate T f.toConfig (elementsOf calls label)).m_Minimum := by
      unfold GetMinimum
      rw [run_record T f calls hv label hs]
      rfl
    have hmax : GetMaximum T (run T f calls) label =
        (aggregate T f.toConfig (elementsOf calls label)).m_Maximum := by
      unfold GetMaximum
      rw [run_record T f calls hv label hs]
      rfl
    rw [hmin, hmax]
    obtain ⟨c₀, hc₀, hl₀⟩ := hs
    have hmem₀ : c₀.2 ∈ elementsOf calls label :=
      (mem_elementsOf calls label c₀.2).mpr ⟨c₀, hc₀, hl₀, rfl⟩
    have hle : ∀ c ∈ calls, c.2.label = label →
        (aggregate T f.toConfig (elementsOf calls label)).m_Minimum ≤ c.2.value := by
      intro c hc hl
      exact aggregate_minimum_le T f.toConfig _ c.2
        ((mem_elementsOf calls label c.2).mpr ⟨c, hc, hl, rfl⟩)
    have hge : ∀ c ∈ calls, c.2.label = label →
        c.2.value ≤ (aggregate T f.toConfig (elementsOf calls label)).m_Maximum := by
      intro c hc hl
      exact aggregate_le_maximum T f.toConfig _ c.2
        ((mem_elementsOf calls label c.2).mpr ⟨c, hc, hl, rfl⟩)
    refine ⟨?_, hle, ?_, hge, le_trans (hle c₀ hc₀ hl₀) (hge c₀ hc₀ hl₀)⟩
    · rcases aggregate_minimum_mem T f.toConfig (elementsOf calls label) with h | ⟨e, he, h⟩
      · refine ⟨c₀, hc₀, hl₀, ?_⟩
        apply le_antisymm
        · rw [h]
          exact (hrange c₀ hc₀).2
        · exact hle c₀ hc₀ hl₀
      · obtain ⟨c, hc, hl, rfl⟩ := (mem_elementsOf calls label e).mp he
        exact ⟨c, hc, hl, h.symm⟩
    · rcases aggregate_maximum_mem T f.toConfig (elementsOf calls label) with h | ⟨e, he, h⟩
      · refine ⟨c₀, hc₀, hl₀, ?_⟩
        apply le_antisymm
        · exact hge c₀ hc₀ hl₀
        · rw [h]
          exact (hrange c₀ hc₀).1
      · obtain ⟨c, hc, hl, rfl⟩ := (mem_elementsOf calls label e).mp he
        exact ⟨c, hc, hl, h.symm⟩
  · intro table ht e he _
    obtain ⟨es, hne, hagg, -⟩ := thread_record T f calls table ht e he
    obtain ⟨x, hx⟩ := List.exists_mem_of_ne_nil es hne
    rw [hagg]
    exact le_trans (aggregate_minimum_le T f.toConfig es x hx)
      (aggregate_le_maximum T f.toConfig es x hx)

/-- Witness of C8: the scenario on two threads; all values lie in `[0, 255]`. -/
theorem C8_extreme_values_witness :
    ValidCalls (exampleFilter 2) scenarioSplit ∧
    (∀ c ∈ scenarioSplit,
      exampleTraits.PixelNonpositiveMin ≤ c.2.value ∧ c.2.value ≤ exampleTraits.PixelMax) ∧
    (∃ c ∈ scenarioSplit, c.2.label = 1) ∧
    (∃ c ∈ scenarioSplit, c.2.label = 1 ∧
      c.2.value = GetMinimum exampleTraits (run exampleTraits (exampleFilter 2) scenarioSplit) 1) ∧
    GetMinimum exampleTraits (run exampleTraits (exampleFilter 2) scenarioSplit) 1 ≤
      GetMaximum exampleTraits (run exampleTraits (exampleFilter 2) scenarioSplit) 1 := by
  have hv : ValidCalls (exampleFilter 2) scenarioSplit := by unfold ValidCalls; decide
  have hr : ∀ c ∈ scenarioSplit,
      exampleTraits.PixelNonpositiveMin ≤ c.2.value ∧ c.2.value ≤ exampleTraits.PixelMax := by
    decide
  have hs : ∃ c ∈ scenarioSplit, c.2.label = 1 := by decide
  have h := (C8_extreme_values exampleTraits (exampleFilter 2) scenarioSplit hv hr).1 1 hs
  exact ⟨hv, hr, hs, h.1, h.2.2.2.2⟩

/-- C10, label set: after a run the keys of the final map are exactly the labels
passed to at least one call, and the cached vector of valid labels, whatever it held
before, lists exactly those keys, each once, in strictly increasing order. -/
theorem C10_label_set (T : Traits K) (f : StreamingLabelStatisticsImageFilter K)
    (calls : List (Nat × Element K)) (hv : ValidCalls f calls) :
    (∀ label, ((run T f calls).m_LabelStatistics.find label).isSome ↔
      ∃ c ∈ calls, c.2.label = label) ∧
    (run T f calls).m_ValidLabelValues = (run T f calls).m_LabelStatistics.map Prod.fst ∧
    (∀ label, label ∈ (run T f calls).m_ValidLabelValues ↔ ∃ c ∈ calls, c.2.label = label) ∧
    List.Pairwise (fun a b => a < b) (run T f calls).m_ValidLabelValues ∧
    (run T f calls).m_ValidLabelValues.Nodup := by
  refine ⟨?_, rfl, ?_, run_ordered T f calls, Ordered_nodup _ (run_ordered T f calls)⟩
  · intro label
    by_cases hs : ∃ c ∈ calls, c.2.label = label
    · rw [run_record T f calls hv label hs]
      simp only [Option.isSome_some, true_iff]
      exact hs
    · rw [run_absent T f calls hv label hs]
      simp only [Option.isSome_none, Bool.false_eq_true, false_iff]
      exact hs
  · intro label
    exact mem_keys_run T f calls hv label

/-- Witness of C10: the scenario on two threads, started from a filter whose cached
vector of valid labels holds stale entries; the vector ends as `[1, 2]`. -/
theorem C10_label_set_witness :
    ValidCalls { exampleFilter 2 with m_ValidLabelValues := [9, 9, 3] } scenarioSplit ∧
    (run exampleTraits { exampleFilter 2 with m_ValidLabelValues := [9, 9, 3] }
      scenarioSplit).m_ValidLabelValues = [1, 2] ∧
    List.Pairwise (fun a b => a < b)
      (run exampleTraits { exampleFilter 2 with m_ValidLabelValues := [9, 9, 3] }
        scenarioSplit).m_ValidLabelValues := by
  have hv : ValidCalls { exampleFilter 2 with m_ValidLabelValues := [9, 9, 3] } scenarioSplit := by
    unfold ValidCalls; decide
  exact ⟨hv, by decide,
    (C10_label_set exampleTraits { exampleFilter 2 with m_ValidLabelValues := [9, 9, 3] }
      scenarioSplit hv).2.2.2.1⟩

/-- C11, median crossing bin: with histograms enabled and a positive number of bins,
for a label present in the final map `GetMedian` is the midpoint
`low + (high - low) / 2` of the crossing bin of the spec: the smallest bin whose
cumulative frequency strictly exceeds `count / 2` in real division, or the last bin
if none does. The bin the loop selects with the integer quotient `m_Count / 2` is
that bin, for every count and every histogram, because a comparison of an integer
total against the integer quotient agrees with the comparison against the real
quotient. -/
theorem C11_median_crossing_bin (f : StreamingLabelStatisticsImageFilter K) (label : Int)
    (r : LabelStatistics K) (hist : Histogram K) (hu : f.m_UseHistograms = true)
    (hb : 0 < f.m_NumBins) (hw : f.m_NumBins < 2 ^ 64)
    (hr : f.m_LabelStatistics.find label = some r) (hh : r.m_Histogram = some hist) :
    GetMedian f label =
      hist.GetBinMin (crossingBin r.m_Count f.m_NumBins hist) +
        (hist.GetBinMax (crossingBin r.m_Count f.m_NumBins hist) -
          hist.GetBinMin (crossingBin r.m_Count f.m_NumBins hist)) / 2 ∧
    medianBin r.m_Count f.m_NumBins hist = crossingBin r.m_Count f.m_NumBins hist ∧
    ∀ total : Nat,
      ((total : K) ≤ ((r.m_Count / 2 : Nat) : K)) ↔ ¬ ((r.m_Count : K) / 2 < (total : K)) := by
  refine ⟨?_, medianBin_eq_crossingBin _ _ _ hb hw, fun total => cast_le_half_iff total _⟩
  rw [GetMedian_eq f label r hist hu hr hh, medianBin_eq_crossingBin _ _ _ hb hw]
  rfl

/-- Witness of C11: count `3` with bin frequencies `2, 1, 0, 0` over `[0, 8)`: the
first bin already exceeds `3 / 2`, so the median is the midpoint `1` of bin `0`. -/
theorem C11_median_crossing_bin_witness :
    exampleMedianFilter.m_UseHistograms = true ∧ 0 < exampleMedianFilter.m_NumBins ∧
    exampleMedianFilter.m_NumBins < 2 ^ 64 ∧
    crossingBin 3 exampleMedianFilter.m_NumBins exampleHistogram = 0 ∧
    GetMedian exampleMedianFilter 1 = 1 := by
  have h := C11_median_crossing_bin exampleMedianFilter 1
    { LabelStatistics.default exampleTraits with
      m_Count := 3, m_Histogram := some exampleHistogram }
    exampleHistogram rfl (by decide) (by decide) rfl rfl
  have hc : crossingBin 3 exampleMedianFilter.m_NumBins exampleHistogram = 0 := by
    have h0 : cumulativeFrequency exampleHistogram 0 = 2 := by decide
    have hn : exampleMedianFilter.m_NumBins = 4 := by decide
    unfold crossingBin
    rw [hn, find?_range_least _ 4 0 (by decide) (by rw [h0]; norm_num)
      (fun j hj => absurd hj (by omega))]
  refine ⟨rfl, by decide, by decide, hc, ?_⟩
  rw [h.1]
  show exampleHistogram.GetBinMin (crossingBin 3 exampleMedianFilter.m_NumBins exampleHistogram) +
    (exampleHistogram.GetBinMax (crossingBin 3 exampleMedianFilter.m_NumBins exampleHistogram) -
      exampleHistogram.GetBinMin (crossingBin 3 exampleMedianFilter.m_NumBins exampleHistogram))
      / 2 = 1
  rw [hc]
  norm_num [Histogram.GetBinMin, Histogram.GetBinMax, exampleHistogram]

/-- C19, median bin index safety: with histograms enabled and at least one bin, for a
label present in the final map and any count and histogram contents, the loop of
`GetMedian` runs its body at least once and leaves `1 ≤ bin ≤ numBins`, so the
unsigned decrement does not wrap and the bin index passed to `GetBinMin` and
`GetBinMax` is at most `numBins - 1`. -/
theorem C19_median_bin_safety (f : StreamingLabelStatisticsImageFilter K) (label : Int)
    (r : LabelStatistics K) (hist : Histogram K) (hu : f.m_UseHistograms = true)
    (hb : 1 ≤ f.m_NumBins) (hw : f.m_NumBins < 2 ^ 64)
    (hr : f.m_LabelStatistics.find label = some r) (hh : r.m_Histogram = some hist) :
    medianLoop r.m_Count f.m_NumBins hist 0 0 =
      medianLoop r.m_Count f.m_NumBins hist (0 + (hist.GetFrequency 0 : K)) (0 + 1) ∧
    1 ≤ medianLoop r.m_Count f.m_NumBins hist 0 0 ∧
    medianLoop r.m_Count f.m_NumBins hist 0 0 ≤ f.m_NumBins ∧
    medianBin r.m_Count f.m_NumBins hist = medianLoop r.m_Count f.m_NumBins hist 0 0 - 1 ∧
    medianBin r.m_Count f.m_NumBins hist ≤ f.m_NumBins - 1 ∧
    GetMedian f label =
      hist.GetBinMin (medianBin r.m_Count f.m_NumBins hist) +
        (hist.GetBinMax (medianBin r.m_Count f.m_NumBins hist) -
          hist.GetBinMin (medianBin r.m_Count f.m_NumBins hist)) / 2 := by
  obtain ⟨h1, h2, -, -⟩ := medianLoop_zero r.m_Count f.m_NumBins hist hb
  have he := medianBin_eq r.m_Count f.m_NumBins hist hb hw
  refine ⟨medianLoop_first_iteration _ _ _ hb, h1, h2, he, by omega, ?_⟩
  rw [GetMedian_eq f label r hist hu hr hh]
  rfl

/-- Witness of C19: label `2` of the example state has count `0` and all-zero
frequencies; the loop runs through the four bins and the index used is `3`. -/
theorem C19_median_bin_safety_witness :
    exampleMedianFilter.m_UseHistograms = true ∧ 1 ≤ exampleMedianFilter.m_NumBins ∧
    exampleMedianFilter.m_NumBins < 2 ^ 64 ∧
    1 ≤ medianLoop 0 exampleMedianFilter.m_NumBins exampleZeroHistogram 0 0 ∧
    medianBin 0 exampleMedianFilter.m_NumBins exampleZeroHistogram ≤
      exampleMedianFilter.m_NumBins - 1 := by
  have h := C19_median_bin_safety exampleMedianFilter 2
    { LabelStatistics.default exampleTraits with
      m_Count := 0, m_Histogram := some exampleZeroHistogram }
    exampleZeroHistogram rfl (by decide) (by decide) rfl rfl
  exact ⟨rfl, by decide, by decide, h.2.1, h.2.2.2.2.1⟩

/-- C12, median bucket correctness: with histograms enabled, for a label seen at least
once whose processed values all fall into one bin `k < numBins`, after the run
`GetMedian` is the midpoint `(binMin(k) + binMax(k)) / 2` of that bin. -/
theorem C12_median_bucket (T : Traits K) (f : StreamingLabelStatisticsImageFilter K)
    (calls : List (Nat × Element K)) (hu : f.m_UseHistograms = true)
    (hw : f.m_NumBins < 2 ^ 64) (hv : ValidCalls f calls) (label : Int)
    (hs : ∃ c ∈ calls, c.2.label = label) (k : Nat) (hk : k < f.m_NumBins)
    (hall : ∀ c ∈ calls, c.2.label = label →
      (Histogram.create f.m_NumBins f.m_LowerBound f.m_UpperBound).binOf c.2.value = k) :
    GetMedian (run T f calls) label =
      ((Histogram.create f.m_NumBins f.m_LowerBound f.m_UpperBound).GetBinMin k +
        (Histogram.create f.m_NumBins f.m_LowerBound f.m_UpperBound).GetBinMax k) / 2 := by
  have hrec := run_record T f calls hv label hs
  have hcfg := (run_config T f calls).1
  have hu2 : (run T f calls).m_UseHistograms = true := by
    have : (run T f calls).toConfig.m_UseHistograms = f.toConfig.m_UseHistograms := by rw [hcfg]
    exact this.trans hu
  have hn2 : (run T f calls).m_NumBins = f.m_NumBins := by
    have : (run T f calls).toConfig.m_NumBins = f.toConfig.m_NumBins := by rw [hcfg]
    exact this
  obtain ⟨h, e1, e2, e3, e4, -, e6⟩ := aggregate_histogram_single_bin T f.toConfig
    (elementsOf calls label) hu k hk (by
      intro e he
      obtain ⟨c, hc, hl, rfl⟩ := (mem_elementsOf calls label e).mp he
      exact hall c hc hl)
  have hN : 1 ≤ (elementsOf calls label).length := by
    have hne : elementsOf calls label ≠ [] := by
      rw [Ne, elementsOf_eq_nil_iff]
      exact fun h => h hs
    exact List.length_pos.mpr hne
  rw [GetMedian_eq (run T f calls) label _ h hu2 hrec e1, hn2]
  have hcount : (computeStatistics T (aggregate T f.toConfig (elementsOf calls label))).m_Count =
      (elementsOf calls label).length := aggregate_count T f.toConfig _
  rw [hcount, medianBin_single_bin f.m_NumBins h k _ hw hk hN e6]
  have e2f : h.size = f.m_NumBins := e2
  have e3f : h.lowerBound = f.m_LowerBound := e3
  have e4f : h.upperBound = f.m_UpperBound := e4
  simp only [binMidpoint, Histogram.GetBinMin, Histogram.GetBinMax, Histogram.create, e2f, e3f,
    e4f]
  ring

/-- Witness of C12: the scenario on two threads with four bins over `[0, 8)`; the only
value of label 2 is `10`, which falls into the last bin `3` (range `[6, 8)`), and the
median is `7`. -/
theorem C12_median_bucket_witness :
    (exampleHistogramFilter 2).m_UseHistograms = true ∧
    (exampleHistogramFilter 2).m_NumBins < 2 ^ 64 ∧
    ValidCalls (exampleHistogramFilter 2) scenarioSplit ∧
    (∃ c ∈ scenarioSplit, c.2.label = 2) ∧ 3 < (exampleHistogramFilter 2).m_NumBins ∧
    (∀ c ∈ scenarioSplit, c.2.label = 2 →
      (Histogram.create (exampleHistogramFilter 2).m_NumBins
        (exampleHistogramFilter 2).m_LowerBound
        (exampleHistogramFilter 2).m_UpperBound).binOf c.2.value = 3) ∧
    GetMedian (run exampleTraits (exampleHistogramFilter 2) scenarioSplit) 2 = 7 := by
  have hv : ValidCalls (exampleHistogramFilter 2) scenarioSplit := by unfold ValidCalls; decide
  have hs : ∃ c ∈ scenarioSplit, c.2.label = 2 := by decide
  have hn : (exampleHistogramFilter 2).m_NumBins = 4 := by decide
  have hlo : (exampleHistogramFilter 2).m_LowerBound = 0 := rfl
  have hup : (exampleHistogramFilter 2).m_UpperBound = 8 := rfl
  have hall : ∀ c ∈ scenarioSplit, c.2.label = 2 →
      (Histogram.create (exampleHistogramFilter 2).m_NumBins
        (exampleHistogramFilter 2).m_LowerBound
        (exampleHistogramFilter 2).m_UpperBound).binOf c.2.value = 3 := by
    intro c hc hl
    have hval : c.2.value = 10 := by
      simp only [scenarioSplit, scenarioElements, List.map_cons, List.map_nil, List.mem_cons,
        List.mem_singleton, List.not_mem_nil, or_false] at hc
      rcases hc with rfl | rfl | rfl | rfl
      · exact absurd hl (by decide)
      · exact absurd hl (by decide)
      · exact absurd hl (by decide)
      · rfl
    rw [hval, hn, hlo, hup]
    have hfloor : Int.floor (((10 : ℚ) - 0) / ((8 - 0) / ((4 : Nat) : ℚ))) = 5 := by
      rw [Int.floor_eq_iff]
      norm_num
    simp only [Histogram.binOf, Histogram.create, hfloor]
    decide
  have h := C12_median_bucket exampleTraits (exampleHistogramFilter 2) scenarioSplit rfl
    (by decide) hv 2 hs 3 (by decide) hall
  refine ⟨rfl, by decide, hv, hs, by decide, hall, ?_⟩
  rw [h, hn, hlo, hup]
  norm_num [Histogram.GetBinMin, Histogram.GetBinMax, Histogram.create]

/-- C13, merge reducer reference: starting from an empty final map, after the merge
loop over worker tables with ordered keys the final map holds a label exactly when
some worker table does, and its record has as count, sum and sum of squares the sums
over the worker records of that label, as minimum and maximum their least and greatest
minimum and maximum, as bounding box per axis the least of the mins and the greatest
of the maxes, and as histogram bins the sums of the worker bin frequencies; the
extrema are attained by a worker record when the worker values lie within the numeric
limits that the new record starts from. With a single worker record that satisfies
the record invariant the raw fields of the final record are those of that record. -/
theorem C13_merge_reducer (T : Traits K) (f : StreamingLabelStatisticsImageFilter K)
    (tables : List (MapType K)) (hord : ∀ t ∈ tables, t.Ordered) (label : Int) :
    ((mergeThreads T (withTables f tables)).find label = none ↔
      threadRecords tables label = []) ∧
    ∀ g, (mergeThreads T (withTables f tables)).find label = some g →
      g.m_Count = ((threadRecords tables label).map (fun r => r.m_Count)).sum ∧
      g.m_Sum = ((threadRecords tables label).map (fun r => r.m_Sum)).sum ∧
      g.m_SumOfSquares = ((threadRecords tables label).map (fun r => r.m_SumOfSquares)).sum ∧
      (∀ r ∈ threadRecords tables label,
        g.m_Minimum ≤ r.m_Minimum ∧ r.m_Maximum ≤ g.m_Maximum) ∧
      ((∀ r ∈ threadRecords tables label, r.m_Minimum ≤ T.PixelMax) →
        ∃ r ∈ threadRecords tables label, g.m_Minimum = r.m_Minimum) ∧
      ((∀ r ∈ threadRecords tables label, T.PixelNonpositiveMin ≤ r.m_Maximum) →
        ∃ r ∈ threadRecords tables label, g.m_Maximum = r.m_Maximum) ∧
      g.m_BoundingBox.length = 2 * T.ImageDimension ∧
      (∀ i, i < T.ImageDimension →
        (∀ r ∈ threadRecords tables label,
          g.m_BoundingBox.getD (2 * i) 0 ≤ r.m_BoundingBox.getD (2 * i) 0 ∧
          r.m_BoundingBox.getD (2 * i + 1) 0 ≤ g.m_BoundingBox.getD (2 * i + 1) 0) ∧
        ((∀ r ∈ threadRecords tables label, r.m_BoundingBox.getD (2 * i) 0 ≤ T.IndexMax) →
          ∃ r ∈ threadRecords tables label,
            g.m_BoundingBox.getD (2 * i) 0 = r.m_BoundingBox.getD (2 * i) 0) ∧
        ((∀ r ∈ threadRecords tables label,
            T.IndexNonpositiveMin ≤ r.m_BoundingBox.getD (2 * i + 1) 0) →
          ∃ r ∈ threadRecords tables label,
            g.m_BoundingBox.getD (2 * i + 1) 0 = r.m_BoundingBox.getD (2 * i + 1) 0)) ∧
      (f.m_UseHistograms = true →
        ∃ gh, g.m_Histogram = some gh ∧
          ∀ bin, bin < f.m_NumBins →
            gh.GetFrequency bin =
              ((threadRecords tables label).map (fun r => recordFrequency r bin)).sum) ∧
      (∀ r, threadRecords tables label = [r] → RecordInv T f.toConfig r →
        g.m_Count = r.m_Count ∧ g.m_Sum = r.m_Sum ∧ g.m_SumOfSquares = r.m_SumOfSquares ∧
        g.m_Minimum = r.m_Minimum ∧ g.m_Maximum = r.m_Maximum ∧
        g.m_BoundingBox = r.m_BoundingBox ∧
        (f.m_UseHistograms = true → g.m_Histogram = r.m_Histogram)) := by
  have hfind := find_mergeThreads_withTables T f tables hord label
  constructor
  · rw [hfind]
    by_cases hn : threadRecords tables label = []
    · simp [hn]
    · simp [hn]
  · intro g hg
    rw [hfind] at hg
    by_cases hn : threadRecords tables label = []
    · rw [if_pos hn] at hg
      cases hg
    · rw [if_neg hn] at hg
      have hg2 : g = mergeRecords T f.toConfig (threadRecords tables label) :=
        (Option.some.inj hg).symm
      subst hg2
      obtain ⟨r₀, hr₀⟩ := List.exists_mem_of_ne_nil _ hn
      obtain ⟨s1, s2, s3⟩ := mergeRecords_sums T f.toConfig (threadRecords tables label)
      obtain ⟨a1, a2⟩ := mergeRecords_extrema_attained T f.toConfig (threadRecords tables label)
      refine ⟨s1, s2, s3, fun r hr => mergeRecords_extrema_bounds T f.toConfig _ r hr, ?_, ?_,
        mergeRecords_boundingBox_length T f.toConfig _, ?_, ?_, ?_⟩
      · intro hb
        rcases a1 with h | h
        · exact ⟨r₀, hr₀, le_antisymm (mergeRecords_extrema_bounds T f.toConfig _ r₀ hr₀).1
            (by rw [h]; exact hb r₀ hr₀)⟩
        · exact h
      · intro hb
        rcases a2 with h | h
        · exact ⟨r₀, hr₀, le_antisymm (by rw [h]; exact hb r₀ hr₀)
            (mergeRecords_extrema_bounds T f.toConfig _ r₀ hr₀).2⟩
        · exact h
      · intro i hi
        obtain ⟨d1, d2⟩ := mergeRecords_box_attained T f.toConfig (threadRecords tables label) i hi
        refine ⟨fun r hr => mergeRecords_box_bounds T f.toConfig _ i hi r hr, ?_, ?_⟩
        · intro hb
          rcases d1 with h | h
          · exact ⟨r₀, hr₀, le_antisymm (mergeRecords_box_bounds T f.toConfig _ i hi r₀ hr₀).1
              (by rw [h]; exact hb r₀ hr₀)⟩
          · exact h
        · intro hb
          rcases d2 with h | h
          · exact ⟨r₀, hr₀, le_antisymm (by rw [h]; exact hb r₀ hr₀)
              (mergeRecords_box_bounds T f.toConfig _ i hi r₀ hr₀).2⟩
          · exact h
      · intro hu
        obtain ⟨gh, e1, -, -, -, -, e6⟩ :=
          mergeRecords_histogram T f.toConfig (threadRecords tables label) hu
        exact ⟨gh, e1, e6⟩
      · intro r hr hinv
        rw [hr]
        exact mergeRecords_single T f.toConfig r hinv

/-- Witness of C13: the worker tables of the scenario scanned in two partitions; label
`1` has count `2` on thread `0` and `1` on thread `1`, and the merged count is their
sum. -/
theorem C13_merge_reducer_witness :
    (∀ t ∈ exampleTables, t.Ordered) ∧
    (threadRecords exampleTables 1).map (fun r => r.m_Count) = [2, 1] ∧
    ∀ g, (mergeThreads exampleTraits (withTables (exampleFilter 2) exampleTables)).find 1
        = some g →
      g.m_Count = ((threadRecords exampleTables 1).map (fun r => r.m_Count)).sum :=
  ⟨by unfold MapType.Ordered; decide, by decide,
    fun g hg => ((C13_merge_reducer exampleTraits (exampleFilter 2) exampleTables
      (by unfold MapType.Ordered; decide) 1).2 g hg).1⟩

/-- C14, merge order independence: for worker tables with ordered keys and any
permutation of the list of tables, `AfterStreamedGenerateData` started from an empty
final map produces the same final map and the same vector of valid labels. -/
theorem C14_merge_order_independence (T : Traits K) (f : StreamingLabelStatisticsImageFilter K)
    (tables₁ tables₂ : List (MapType K)) (hperm : tables₁.Perm tables₂)
    (hord : ∀ t ∈ tables₁, t.Ordered) :
    (AfterStreamedGenerateData T (withTables f tables₁)).m_LabelStatistics =
      (AfterStreamedGenerateData T (withTables f tables₂)).m_LabelStatistics ∧
    (AfterStreamedGenerateData T (withTables f tables₁)).m_ValidLabelValues =
      (AfterStreamedGenerateData T (withTables f tables₂)).m_ValidLabelValues := by
  have hord₂ : ∀ t ∈ tables₂, t.Ordered := fun t ht => hord t (hperm.mem_iff.mpr ht)
  have hm : mergeThreads T (withTables f tables₁) = mergeThreads T (withTables f tables₂) := by
    apply ordered_ext
    · rw [mergeThreads_withTables]
      exact Ordered_foldl_mergeTable T f.toConfig tables₁ [] List.Pairwise.nil
    · rw [mergeThreads_withTables]
      exact Ordered_foldl_mergeTable T f.toConfig tables₂ [] List.Pairwise.nil
    · intro l
      have hp : (threadRecords tables₁ l).Perm (threadRecords tables₂ l) :=
        List.Perm.filterMap _ hperm
      rw [find_mergeThreads_withTables T f tables₁ hord l,
        find_mergeThreads_withTables T f tables₂ hord₂ l,
        mergeRecords_perm T f.toConfig _ _ hp]
      by_cases hn : threadRecords tables₂ l = []
      · have hn1 : threadRecords tables₁ l = [] := by
          rw [hn] at hp
          exact List.Perm.eq_nil hp
        rw [if_pos hn, if_pos hn1]
      · have hn1 : ¬ threadRecords tables₁ l = [] := by
          intro h
          rw [h] at hp
          exact hn (List.Perm.eq_nil hp.symm)
        rw [if_neg hn, if_neg hn1]
  have hstats : (AfterStreamedGenerateData T (withTables f tables₁)).m_LabelStatistics =
      (AfterStreamedGenerateData T (withTables f tables₂)).m_LabelStatistics := by
    show (mergeThreads T (withTables f tables₁)).map (fun e => (e.1, computeStatistics T e.2)) =
      (mergeThreads T (withTables f tables₂)).map (fun e => (e.1, computeStatistics T e.2))
    rw [hm]
  refine ⟨hstats, ?_⟩
  show (AfterStreamedGenerateData T (withTables f tables₁)).m_LabelStatistics.map Prod.fst =
    (AfterStreamedGenerateData T (withTables f tables₂)).m_LabelStatistics.map Prod.fst
  rw [hstats]

/-- Witness of C14: the two worker tables of the scenario merged in either order. -/
theorem C14_merge_order_independence_witness :
    exampleTables.Perm exampleTables.reverse ∧ (∀ t ∈ exampleTables, t.Ordered) ∧
    (AfterStreamedGenerateData exampleTraits
        (withTables (exampleFilter 2) exampleTables)).m_LabelStatistics =
      (AfterStreamedGenerateData exampleTraits
        (withTables (exampleFilter 2) exampleTables.reverse)).m_LabelStatistics :=
  ⟨(List.reverse_perm _).symm, by unfold MapType.Ordered; decide,
    (C14_merge_order_independence exampleTraits (exampleFilter 2) exampleTables
      exampleTables.reverse (List.reverse_perm _).symm
      (by unfold MapType.Ordered; decide)).1⟩

/-- C15, worker isolation: one scanning step on thread `threadId`, a thread of the
filter, leaves the configuration, the number of threads, the final map and the vector
of valid labels unchanged, leaves every other thread table unchanged, leaves every
record of the thread's table under another label unchanged, and sets the record of
the element's label to the update of the record it held, or of a new record if it
held none. -/
theorem C15_worker_isolation (T : Traits K) (f : StreamingLabelStatisticsImageFilter K)
    (threadId : Nat) (e : Element K)
    (hlen : f.m_LabelStatisticsPerThread.length = f.numberOfThreads)
    (ht : threadId < f.numberOfThreads) :
    (processElement T f threadId e).toConfig = f.toConfig ∧
    (processElement T f threadId e).numberOfThreads = f.numberOfThreads ∧
    (processElement T f threadId e).m_LabelStatistics = f.m_LabelStatistics ∧
    (processElement T f threadId e).m_ValidLabelValues = f.m_ValidLabelValues ∧
    (processElement T f threadId e).m_LabelStatisticsPerThread.length =
      f.m_LabelStatisticsPerThread.length ∧
    (∀ t, t ≠ threadId →
      (processElement T f threadId e).m_LabelStatisticsPerThread[t]? =
        f.m_LabelStatisticsPerThread[t]?) ∧
    ((processElement T f threadId e).m_LabelStatisticsPerThread.getD threadId []).filter
        (fun x => decide (x.1 ≠ e.label)) =
      (f.m_LabelStatisticsPerThread.getD threadId []).filter
        (fun x => decide (x.1 ≠ e.label)) ∧
    (∀ l, l ≠ e.label →
      ((processElement T f threadId e).m_LabelStatisticsPerThread.getD threadId []).find l =
        (f.m_LabelStatisticsPerThread.getD threadId []).find l) ∧
    ((processElement T f threadId e).m_LabelStatisticsPerThread.getD threadId []).find e.label =
      some (updateLabelStatistics T f.toConfig
        (((f.m_LabelStatisticsPerThread.getD threadId []).find e.label).getD
          (newLabelStatistics T f.toConfig)) e.value e.index) := by
  have hnew : (processElement T f threadId e).m_LabelStatisticsPerThread.getD threadId [] =
      updateTable T f.toConfig (f.m_LabelStatisticsPerThread.getD threadId []) e := by
    show (List.set _ _ _).getD threadId [] = _
    rw [getD_set_ite, if_pos ⟨rfl, by omega⟩]
  refine ⟨rfl, rfl, rfl, rfl, ?_, ?_, ?_, ?_, ?_⟩
  · show (List.set _ _ _).length = _
    rw [List.length_set]
  · intro t htne
    show (List.set _ _ _)[t]? = _
    rw [List.getElem?_set, if_neg (fun h => htne h.symm)]
  · rw [hnew, filter_updateTable_ne]
  · intro l hl
    rw [hnew, find_updateTable, if_neg (fun h => hl h.symm)]
  · rw [hnew, find_updateTable, if_pos rfl]

/-- Witness of C15: the first element of the scenario on thread `1` of a filter with two
threads, right after `BeforeStreamedGenerateData`. -/
theorem C15_worker_isolation_witness :
    (BeforeStreamedGenerateData (exampleFilter 2)).m_LabelStatisticsPerThread.length =
      (BeforeStreamedGenerateData (exampleFilter 2)).numberOfThreads ∧
    1 < (BeforeStreamedGenerateData (exampleFilter 2)).numberOfThreads ∧
    (processElement exampleTraits (BeforeStreamedGenerateData (exampleFilter 2)) 1
        { label := 1, value := 1, index := [0, 0] }).m_LabelStatistics =
      (BeforeStreamedGenerateData (exampleFilter 2)).m_LabelStatistics ∧
    (∀ t, t ≠ 1 →
      (processElement exampleTraits (BeforeStreamedGenerateData (exampleFilter 2)) 1
          { label := 1, value := 1, index := [0, 0] }).m_LabelStatisticsPerThread[t]? =
        (BeforeStreamedGenerateData (exampleFilter 2)).m_LabelStatisticsPerThread[t]?) := by
  have h := C15_worker_isolation exampleTraits (BeforeStreamedGenerateData (exampleFilter 2)) 1
    { label := 1, value := 1, index := [0, 0] } (by decide) (by decide)
  exact ⟨by decide, by decide, h.2.2.1, h.2.2.2.2.2.1⟩

/-- C16, division-by-zero edge cases: in a run every record of every thread table and
every record of the final map, at the time the derived statistics are computed and
afterwards, has a count of at least `1`, so neither `sum / count` nor, when
`count > 1`, the quotient by `count - 1` divides by zero; a label with no processed
element has `GetMean = GetVariance = 0`; and for a label with exactly one element the
guard `m_Count > 1` is false, so the variance is the constant `0` of the other
branch. -/
theorem C16_no_division_by_zero (T : Traits K) (f : StreamingLabelStatisticsImageFilter K)
    (calls : List (Nat × Element K)) (hv : ValidCalls f calls) :
    (∀ table ∈ (scan T (BeforeStreamedGenerateData f) calls).m_LabelStatisticsPerThread,
      ∀ e ∈ table, 1 ≤ e.2.m_Count) ∧
    (∀ e ∈ mergeThreads T (scan T (BeforeStreamedGenerateData f) calls),
      1 ≤ e.2.m_Count ∧ (e.2.m_Count : K) ≠ 0 ∧
        (e.2.m_Count > 1 → (e.2.m_Count : K) - 1 ≠ 0)) ∧
    (∀ e ∈ (run T f calls).m_LabelStatistics, 1 ≤ e.2.m_Count) ∧
    (∀ label, (¬ ∃ c ∈ calls, c.2.label = label) →
      GetMean (run T f calls) label = 0 ∧ GetVariance (run T f calls) label = 0) ∧
    (∀ r : LabelStatistics K, ¬ r.m_Count > 1 → (computeStatistics T r).m_Variance = 0) ∧
    (∀ label, (elementsOf calls label).length = 1 →
      ∃ g, (mergeThreads T (scan T (BeforeStreamedGenerateData f) calls)).find label = some g ∧
        g.m_Count = 1 ∧ ¬ g.m_Count > 1 ∧ GetVariance (run T f calls) label = 0) := by
  have hmerged : ∀ e ∈ mergeThreads T (scan T (BeforeStreamedGenerateData f) calls),
      1 ≤ e.2.m_Count := by
    intro e he
    obtain ⟨es, hne, hagg⟩ := merged_entry T f calls e he
    rw [hagg, aggregate_count]
    exact List.length_pos.mpr hne
  refine ⟨?_, ?_, ?_, ?_, ?_, ?_⟩
  · intro table ht e he
    obtain ⟨es, hne, hagg, -⟩ := thread_record T f calls table ht e he
    rw [hagg, aggregate_count]
    exact List.length_pos.mpr hne
  · intro e he
    have h1 := hmerged e he
    refine ⟨h1, ?_, ?_⟩
    · exact_mod_cast (Nat.pos_iff_ne_zero.mp h1)
    · intro hgt heq
      have h2 : (e.2.m_Count : K) = 1 := by linarith
      have h3 : e.2.m_Count = 1 := by exact_mod_cast h2
      omega
  · intro e he
    have hmem : e ∈ (mergeThreads T (scan T (BeforeStreamedGenerateData f) calls)).map
        (fun x => (x.1, computeStatistics T x.2)) := he
    obtain ⟨x, hx, rfl⟩ := List.mem_map.mp hmem
    exact hmerged x hx
  · intro label hs
    unfold GetMean GetVariance
    rw [run_absent T f calls hv label hs]
    exact ⟨rfl, rfl⟩
  · intro r hr
    show (if r.m_Count > 1 then _ else _) = _
    rw [if_neg hr]
  · intro label hone
    have hne : ¬ elementsOf calls label = [] := by
      intro h
      rw [h] at hone
      simp at hone
    refine ⟨aggregate T f.toConfig (elementsOf calls label), ?_, ?_, ?_, ?_⟩
    · rw [find_merged_run T f calls hv label, if_neg hne]
    · rw [aggregate_count, hone]
    · rw [aggregate_count, hone]
      omega
    · rw [GetVariance_run T f calls hv, if_neg (by omega)]

/-- Witness of C16: the scenario on two threads; label `2` has exactly one element. -/
theorem C16_no_division_by_zero_witness :
    ValidCalls (exampleFilter 2) scenarioSplit ∧
    (elementsOf scenarioSplit 2).length = 1 ∧
    (∀ e ∈ (run exampleTraits (exampleFilter 2) scenarioSplit).m_LabelStatistics,
      1 ≤ e.2.m_Count) ∧
    GetVariance (run exampleTraits (exampleFilter 2) scenarioSplit) 2 = 0 := by
  have hv : ValidCalls (exampleFilter 2) scenarioSplit := by unfold ValidCalls; decide
  have hone : (elementsOf scenarioSplit 2).length = 1 := by decide
  have h := C16_no_division_by_zero exampleTraits (exampleFilter 2) scenarioSplit hv
  obtain ⟨g, -, -, -, hvar⟩ := h.2.2.2.2.2 2 hone
  exact ⟨hv, hone, h.2.2.1, hvar⟩

/-- C17, run independence: `BeforeStreamedGenerateData` leaves exactly
`numberOfThreads` thread tables, all empty, and an empty final map, whatever the state
before; so two filters with the same configuration and number of threads reach the
same state after `BeforeStreamedGenerateData`, the same calls and
`AfterStreamedGenerateData`, and every accessor and the vector of valid labels agree. -/
theorem C17_run_independence (T : Traits K) (f₁ f₂ : StreamingLabelStatisticsImageFilter K)
    (calls : List (Nat × Element K)) (hcfg : f₁.toConfig = f₂.toConfig)
    (hn : f₁.numberOfThreads = f₂.numberOfThreads) :
    (BeforeStreamedGenerateData f₁).m_LabelStatisticsPerThread.length = f₁.numberOfThreads ∧
    (∀ table ∈ (BeforeStreamedGenerateData f₁).m_LabelStatisticsPerThread, table = []) ∧
    (BeforeStreamedGenerateData f₁).m_LabelStatistics = [] ∧
    run T f₁ calls = run T f₂ calls ∧
    (run T f₁ calls).m_ValidLabelValues = (run T f₂ calls).m_ValidLabelValues ∧
    ∀ label,
      GetMinimum T (run T f₁ calls) label = GetMinimum T (run T f₂ calls) label ∧
      GetMaximum T (run T f₁ calls) label = GetMaximum T (run T f₂ calls) label ∧
      GetMean (run T f₁ calls) label = GetMean (run T f₂ calls) label ∧
      GetSum (run T f₁ calls) label = GetSum (run T f₂ calls) label ∧
      GetSigma (run T f₁ calls) label = GetSigma (run T f₂ calls) label ∧
      GetVariance (run T f₁ calls) label = GetVariance (run T f₂ calls) label ∧
      GetCount (run T f₁ calls) label = GetCount (run T f₂ calls) label ∧
      GetBoundingBox (run T f₁ calls) label = GetBoundingBox (run T f₂ calls) label ∧
      GetRegion T (run T f₁ calls) label = GetRegion T (run T f₂ calls) label ∧
      GetMedian (run T f₁ calls) label = GetMedian (run T f₂ calls) label ∧
      GetHistogram (run T f₁ calls) label = GetHistogram (run T f₂ calls) label := by
  have hrun : run T f₁ calls = run T f₂ calls := by
    unfold run
    have hb1 : (BeforeStreamedGenerateData f₁).toConfig =
        (BeforeStreamedGenerateData f₂).toConfig := hcfg
    have hb3 : (BeforeStreamedGenerateData f₁).m_LabelStatisticsPerThread =
        (BeforeStreamedGenerateData f₂).m_LabelStatisticsPerThread := by
      rw [Before_tables, Before_tables, hn]
    obtain ⟨a1, a2, a3, -, -⟩ := scan_frame T (BeforeStreamedGenerateData f₁) calls
    obtain ⟨b1, b2, b3, -, -⟩ := scan_frame T (BeforeStreamedGenerateData f₂) calls
    apply After_congr
    · rw [a1, b1]; exact hb1
    · rw [a2, b2]; exact hn
    · exact scan_tables_congr T calls _ _ hb1 hb3
    · rw [a3, b3]; rfl
  refine ⟨?_, ?_, rfl, hrun, by rw [hrun], fun label => ?_⟩
  · rw [Before_tables, List.length_replicate]
  · intro table ht
    rw [Before_tables] at ht
    exact List.eq_of_mem_replicate ht
  · rw [hrun]
    exact ⟨rfl, rfl, rfl, rfl, rfl, rfl, rfl, rfl, rfl, rfl, rfl⟩

/-- Witness of C17: a freshly constructed filter against one that has already
completed the scenario run; a second run of the scenario ends in the same state. -/
theorem C17_run_independence_witness :
    (exampleFilter 2).toConfig =
      (run exampleTraits (exampleFilter 2) scenarioSplit).toConfig ∧
    (exampleFilter 2).numberOfThreads =
      (run exampleTraits (exampleFilter 2) scenarioSplit).numberOfThreads ∧
    run exampleTraits (exampleFilter 2) scenarioSplit =
      run exampleTraits (run exampleTraits (exampleFilter 2) scenarioSplit) scenarioSplit :=
  ⟨(run_config exampleTraits (exampleFilter 2) scenarioSplit).1.symm,
    (run_config exampleTraits (exampleFilter 2) scenarioSplit).2.symm,
    (C17_run_independence exampleTraits (exampleFilter 2)
      (run exampleTraits (exampleFilter 2) scenarioSplit) scenarioSplit
      (run_config exampleTraits (exampleFilter 2) scenarioSplit).1.symm
      (run_config exampleTraits (exampleFilter 2) scenarioSplit).2.symm).2.2.2.1⟩

/-- C18, sigma: over the reals with `vcl_sqrt` the real square root, after a run
`GetSigma` of every label is non-negative and its square is `GetVariance`. -/
theorem C18_sigma (T : Traits ℝ) (f : StreamingLabelStatisticsImageFilter ℝ)
    (calls : List (Nat × Element ℝ)) (hsqrt : T.vcl_sqrt = Real.sqrt)
    (hv : ValidCalls f calls) (label : Int) :
    0 ≤ GetSigma (run T f calls) label ∧
    GetSigma (run T f calls) label * GetSigma (run T f calls) label =
      GetVariance (run T f calls) label := by
  by_cases hs : ∃ c ∈ calls, c.2.label = label
  · rw [sigma_run T f calls hv label hs, hsqrt]
    exact ⟨Real.sqrt_nonneg _, Real.mul_self_sqrt (variance_run_nonneg T f calls hv label)⟩
  · have h1 : GetSigma (run T f calls) label = 0 := by
      unfold GetSigma
      rw [run_absent T f calls hv label hs]
    have h2 : GetVariance (run T f calls) label = 0 := by
      unfold GetVariance
      rw [run_absent T f calls hv label hs]
    rw [h1, h2]
    exact ⟨le_refl _, by ring⟩

/-- Witness of C18: the values `1` and `3` under label `1`; the variance is `2` and
sigma is its real square root. -/
theorem C18_sigma_witness :
    (exampleTraitsWith Real.sqrt).vcl_sqrt = Real.sqrt ∧
    ValidCalls (StreamingLabelStatisticsImageFilter.new (exampleTraitsWith Real.sqrt) 1)
      (exampleCallsOver ℝ) ∧
    GetVariance (run (exampleTraitsWith Real.sqrt)
      (StreamingLabelStatisticsImageFilter.new (exampleTraitsWith Real.sqrt) 1)
      (exampleCallsOver ℝ)) 1 = 2 ∧
    0 ≤ GetSigma (run (exampleTraitsWith Real.sqrt)
      (StreamingLabelStatisticsImageFilter.new (exampleTraitsWith Real.sqrt) 1)
      (exampleCallsOver ℝ)) 1 ∧
    GetSigma (run (exampleTraitsWith Real.sqrt)
        (StreamingLabelStatisticsImageFilter.new (exampleTraitsWith Real.sqrt) 1)
        (exampleCallsOver ℝ)) 1 *
      GetSigma (run (exampleTraitsWith Real.sqrt)
        (StreamingLabelStatisticsImageFilter.new (exampleTraitsWith Real.sqrt) 1)
        (exampleCallsOver ℝ)) 1 = 2 := by
  have hv : ValidCalls (StreamingLabelStatisticsImageFilter.new (exampleTraitsWith Real.sqrt) 1)
      (exampleCallsOver ℝ) := by
    intro c hc
    simp only [exampleCallsOver, List.mem_cons, List.mem_singleton, List.not_mem_nil,
      or_false] at hc
    rcases hc with rfl | rfl
    · exact Nat.zero_lt_one
    · exact Nat.zero_lt_one
  have he : elementsOf (exampleCallsOver ℝ) 1 =
      [{ label := 1, value := 1, index := [0, 0] },
       { label := 1, value := 3, index := [1, 0] }] := by
    simp [elementsOf, exampleCallsOver]
  have hvar : GetVariance (run (exampleTraitsWith Real.sqrt)
      (StreamingLabelStatisticsImageFilter.new (exampleTraitsWith Real.sqrt) 1)
      (exampleCallsOver ℝ)) 1 = 2 := by
    rw [GetVariance_run _ _ _ hv, he]
    norm_num
  have h := C18_sigma (exampleTraitsWith Real.sqrt)
    (StreamingLabelStatisticsImageFilter.new (exampleTraitsWith Real.sqrt) 1)
    (exampleCallsOver ℝ) rfl hv 1
  exact ⟨rfl, hv, hvar, h.1, h.2.trans hvar⟩

end Claims

end itk
